import Mathlib

/-!
# Academia course-registration server: record store

A shallow embedding of `src/src/server.c`.  C strings are lists of characters
(`Str`); a file is its content, a `Str`.  Every catalogue operation is a pure
function from the contents of the files it opens (and the lines it received
from the client, already cut at the first CR/LF as the source does with
`strcspn`) to its reply and the contents it leaves behind.

Conventions of the embedding

* `load` is the `strtok_r` loop of the source: it stops at the first NUL byte
  and never yields an empty line.
* `snprintf` into a buffer of `size` bytes keeps the first `size - 1` bytes.
* `split_line` copies at most `MAX_LINE` bytes (`strncpy`); a source line of
  `MAX_LINE` bytes or more leaves the C buffer unterminated, which C leaves
  undefined, so the embedding is exact for lines shorter than `MAX_LINE`.
* Reading a field pointer that `split_line` did not set is undefined in C;
  the operations that do so return `none` there.
* `atoi` follows glibc on LP64: `strtol` saturates to the range of `long`
  and the result is converted to a 32-bit `int`.
-/

namespace Academia

/-- A C string: the bytes before the terminating NUL. -/
abbrev Str := List Char

/-- `#define MAX_FIELD 128` -/
def MAX_FIELD : Nat := 128
/-- `#define MAX_LINE 1024` -/
def MAX_LINE : Nat := 1024
/-- `#define MAX_LIST 1024` -/
def MAX_LIST : Nat := 1024

/-! ## libc helpers -/

/-- All segments of `s` between occurrences of the delimiter `d`
(empty segments included). -/
def splitOn (d : Char) : Str → List Str
  | [] => [[]]
  | c :: cs =>
    if c = d then [] :: splitOn d cs
    else match splitOn d cs with
      | t :: ts => (c :: t) :: ts
      | [] => [[c]]

/-- The successive results of `strtok_r(s, d, &save)`, `strtok_r(NULL, d, &save)`, ...
until it returns NULL: the maximal non-empty runs of non-delimiter bytes. -/
def tokens (d : Char) (s : Str) : List Str :=
  (splitOn d s).filter (fun t => !t.isEmpty)

/-- `snprintf(buf, size, ...)`: the formatted text cut to `size - 1` bytes. -/
def snprintf (size : Nat) (s : Str) : Str := s.take (size - 1)

/-- `isspace` in the C locale. -/
def isspace (c : Char) : Bool :=
  c = ' ' || c = '\t' || c = '\n' || c = '\x0b' || c = '\x0c' || c = '\r'

/-- `isdigit`. -/
def isdigit (c : Char) : Bool := decide (48 ≤ c.toNat) && decide (c.toNat ≤ 57)

/-- Value of a decimal digit character. -/
def digitVal (c : Char) : Nat := c.toNat - 48

/-- The digit loop of `strtol`: accumulate while the next byte is a digit. -/
def strtol_digits : Nat → Str → Nat
  | acc, [] => acc
  | acc, c :: cs => if isdigit c then strtol_digits (acc * 10 + digitVal c) cs else acc

/-- `LONG_MAX` on LP64. -/
def LONG_MAX : Int := 9223372036854775807
/-- `LONG_MIN` on LP64. -/
def LONG_MIN : Int := -9223372036854775808

/-- `strtol(s, NULL, 10)`: leading white space, an optional sign, digits;
out-of-range values saturate. -/
def strtol (s : Str) : Int :=
  let v : Int :=
    match s.dropWhile isspace with
    | '-' :: r => -(strtol_digits 0 r : Int)
    | '+' :: r => (strtol_digits 0 r : Int)
    | r => (strtol_digits 0 r : Int)
  max LONG_MIN (min LONG_MAX v)

/-- Conversion of a `long` to a 32-bit `int`. -/
def to_int (v : Int) : Int := (v + 2147483648) % 4294967296 - 2147483648

/-- `atoi(s)`, which is `(int) strtol(s, NULL, 10)`. -/
def atoi (s : Str) : Int := to_int (strtol s)

/-- The character of a decimal digit. -/
def digitChar : Nat → Char
  | 0 => '0' | 1 => '1' | 2 => '2' | 3 => '3' | 4 => '4'
  | 5 => '5' | 6 => '6' | 7 => '7' | 8 => '8' | _ => '9'

/-- Decimal digits of `n`, most significant first (`fuel` bounds the recursion). -/
def fmt_u_aux : Nat → Nat → Str
  | 0, _ => []
  | fuel + 1, n =>
    if n < 10 then [digitChar n] else fmt_u_aux fuel (n / 10) ++ [digitChar (n % 10)]

/-- `%u` of a natural number. -/
def fmt_u (n : Nat) : Str := fmt_u_aux (n + 1) n

/-- `%d` of an `int`. -/
def fmt_d (n : Int) : Str :=
  if n < 0 then '-' :: fmt_u n.natAbs else fmt_u n.natAbs

/-- The text of `"%s|%s|%s|%s"`. -/
def fmt4 (a b c d : Str) : Str := a ++ '|' :: (b ++ '|' :: (c ++ '|' :: d))

/-- A comma list rebuilt with `strcat`: the entries joined by `,`. -/
def join_comma : List Str → Str
  | [] => []
  | [t] => t
  | t :: ts => t ++ ',' :: join_comma ts

/-! ## The file helper (`load`, `save`) -/

/-- `load` (server.c 36-60): the content up to its first NUL byte, cut into
lines by `strtok_r(buf, "\n", ...)`. -/
def load (content : Str) : List Str :=
  tokens '\n' (content.takeWhile (fun c => c != '\x00'))

/-- `save` (server.c 62-74): the file is truncated and every line is written
followed by one newline. -/
def save : List Str → Str
  | [] => []
  | l :: ls => l ++ '\n' :: save ls

/-! ## Helper utilities -/

/-- `split_line` (server.c 87-95): the first four `|`-separated tokens of the
first `MAX_LINE` bytes of `src`. The result plays the role of `fld[0..k-1]`,
its length that of the returned `k`. -/
def split_line (src : Str) : List Str :=
  (tokens '|' (src.take MAX_LINE)).take 4

/-- Space or tab. -/
def is_blank (c : Char) : Bool := c = ' ' || c = '\t'

/-- `is_skip_line` (server.c 110-115): empty, only blanks, or a `#` after
leading blanks. -/
def is_skip_line (s : Str) : Bool :=
  match s.dropWhile is_blank with
  | [] => true
  | c :: _ => c == '#'

/-- The test of the `find_row` loop body on one line. -/
def row_matches (key : Str) (key_field : Nat) (line : Str) : Bool :=
  !is_skip_line line &&
    (decide (key_field < (split_line line).length) &&
      (split_line line).getD key_field [] == key)

/-- `find_row` (server.c 118-128): index of the first matching line; `none`
stands for `-1`. -/
def find_row : List Str → Str → Nat → Option Nat
  | [], _, _ => none
  | l :: ls, key, key_field =>
    if row_matches key key_field l then some 0
    else (find_row ls key key_field).map (· + 1)

/-- The replies the operations send. -/
inductive Reply
  /-- `"User already exists"` -/
  | userExists
  /-- `"[OK] Added"` -/
  | added
  /-- `"User not found"` -/
  | userNotFound
  /-- `"Malformed record"` -/
  | malformed
  /-- `"[OK]"` -/
  | ok
  /-- `"[OK] Course added"` -/
  | courseAdded
  /-- `"Course not found"` -/
  | courseNotFound
  /-- `"[OK] Course removed"` -/
  | courseRemoved
  /-- `"Course full"` -/
  | courseFull
  /-- `"[OK] Enrolled"` -/
  | enrolled
  /-- `"Not enrolled in that course"` -/
  | notEnrolled
  /-- `"[OK] Unenrolled"` -/
  | unenrolled
  /-- Nothing is sent (`student_unenroll` when the student has no row). -/
  | silent
  deriving DecidableEq

/-! ## Authentication -/

/-- The test of the `auth_file` loop body on one line (server.c 193-197). -/
def auth_row (u p : Str) (line : Str) : Bool :=
  !is_skip_line line &&
    (decide (3 ≤ (split_line line).length) &&
      ((split_line line).getD 0 [] == u &&
        ((split_line line).getD 1 [] == p &&
          ((split_line line).getD 2 []).head? == some '1')))

/-- `auth_file` (server.c 183-201) after the two lines were received:
`true` when some line passes the test. The file is released, never written. -/
def auth_file (content u p : Str) : Bool × Str :=
  ((load content).any (auth_row u p), content)

/-! ## Admin operations -/

/-- `admin_add` (server.c 271-303) after the username and password lines were
received. A well-formed row keyed by `u` refuses; a malformed one is
overwritten in memory and the file saved; with no such row the new row is
written with `dprintf` at the file offset, which `load` left at the end of
the content. (On the overwrite path the source calls `release` after `save`;
the file content is already written then.) -/
def admin_add (content u p : Str) : Reply × Str :=
  let f := load content
  match find_row f u 0 with
  | some row =>
    if 3 ≤ (split_line (f.getD row [])).length then (Reply.userExists, content)
    else
      (Reply.added,
        save (f.set row (snprintf MAX_LINE (u ++ '|' :: (p ++ ['|', '1', '|'])))))
  | none => (Reply.added, content ++ (u ++ '|' :: (p ++ ['|', '1', '|', '\n'])))

/-- `admin_toggle` (server.c 321-340) after the username line was received,
on the student file. -/
def admin_toggle (content u : Str) (activate : Bool) : Reply × Str :=
  let f := load content
  match find_row f u 0 with
  | none => (Reply.userNotFound, content)
  | some row =>
    let fld := split_line (f.getD row [])
    if fld.length < 3 then (Reply.malformed, content)
    else
      let newline := snprintf MAX_LINE
        (fmt4 (fld.getD 0 []) (fld.getD 1 []) [if activate then '1' else '0']
          (if fld.length = 4 then fld.getD 3 [] else []))
      (Reply.ok, save (f.set row newline))

/-- `admin_setpwd` (server.c 342-360) after the two lines were received. -/
def admin_setpwd (content u p : Str) : Reply × Str :=
  let f := load content
  match find_row f u 0 with
  | none => (Reply.userNotFound, content)
  | some row =>
    let fld := split_line (f.getD row [])
    let newline := snprintf MAX_LINE
      (fmt4 (fld.getD 0 []) p (if 3 ≤ fld.length then fld.getD 2 [] else ['1'])
        (if fld.length = 4 then fld.getD 3 [] else []))
    (Reply.ok, save (f.set row newline))

/-! ## Faculty operations -/

/-- The faculty-row update of `faculty_add_course` (server.c 408-424): the
owner's row, when found, well-formed and active, gets `id` appended to its
list; the file is saved in every case. -/
def add_to_owner (faculty who id : Str) : Str :=
  let ff := load faculty
  match find_row ff who 0 with
  | none => save ff
  | some prow =>
    let fld := split_line (ff.getD prow [])
    if 3 ≤ fld.length && (fld.getD 2 []).head? == some '1' then
      let list :=
        if fld.length = 4 && decide (0 < (fld.getD 3 []).length) then
          snprintf MAX_LIST (fld.getD 3 [] ++ ',' :: id)
        else id
      save (ff.set prow
        (snprintf MAX_LINE (fmt4 (fld.getD 0 []) (fld.getD 1 []) (fld.getD 2 []) list)))
    else save ff

/-- `faculty_add_course` (server.c 386-426) after the three lines were
received; `lim` is the seat-limit line as received. Returns the reply, the
course file and the faculty file. -/
def faculty_add_course (courses faculty who id name lim : Str) : Reply × Str × Str :=
  let limit := atoi lim
  let fc := load courses
  let fc1 :=
    match find_row fc id 0 with
    | none => fc ++ [fmt4 id name (fmt_d limit) ['0']]
    | some _ => fc
  (Reply.courseAdded, save fc1, add_to_owner faculty who id)

/-- The faculty-row update of `faculty_remove_course` (server.c 445-466). -/
def remove_from_owner (faculty who cid : Str) : Str :=
  let ff := load faculty
  match find_row ff who 0 with
  | none => save ff
  | some prow =>
    let fld := split_line (ff.getD prow [])
    if fld.length = 4 && (fld.getD 2 []).head? == some '1' then
      let newlist := join_comma ((tokens ',' (fld.getD 3 [])).filter (fun t => t != cid))
      save (ff.set prow
        (snprintf MAX_LINE (fmt4 (fld.getD 0 []) (fld.getD 1 []) (fld.getD 2 []) newlist)))
    else save ff

/-- `faculty_remove_course` (server.c 428-468) after the course-id line was
received. Returns the reply, the course file and the faculty file. -/
def faculty_remove_course (courses faculty who cid : Str) : Reply × Str × Str :=
  let fc := load courses
  match find_row fc cid 0 with
  | none => (Reply.courseNotFound, courses, faculty)
  | some found =>
    (Reply.courseRemoved, save (fc.eraseIdx found), remove_from_owner faculty who cid)

/-! ## Student operations -/

/-- The student-row update of `student_enroll` (server.c 579-590). `none`
when the row has fewer than three fields: `sfld[1]`, `sfld[2]` are read
unset. -/
def add_to_student (students user cid : Str) : Option Str :=
  let fs := load students
  match find_row fs user 0 with
  | none => some (save fs)
  | some srow =>
    let sfld := split_line (fs.getD srow [])
    if sfld.length < 3 then none
    else
      let list :=
        if sfld.length = 4 && decide (0 < (sfld.getD 3 []).length) then
          snprintf MAX_LIST (sfld.getD 3 [] ++ ',' :: cid)
        else cid
      some (save (fs.set srow
        (snprintf MAX_LINE (fmt4 (sfld.getD 0 []) (sfld.getD 1 []) (sfld.getD 2 []) list))))

/-- `student_enroll` (server.c 558-592) after the course-id line was
received. Returns the reply, the course file and the student file; `none`
when an unset field pointer is read (a course row with fewer than four
fields, a student row with fewer than three). -/
def student_enroll (courses students user cid : Str) : Option (Reply × Str × Str) :=
  let fc := load courses
  match find_row fc cid 0 with
  | none => some (Reply.courseNotFound, courses, students)
  | some row =>
    let fld := split_line (fc.getD row [])
    if fld.length < 4 then none
    else
      let limit := atoi (fld.getD 2 [])
      let filled := atoi (fld.getD 3 [])
      if filled ≥ limit then some (Reply.courseFull, courses, students)
      else
        let newline := snprintf MAX_LINE
          (fmt4 (fld.getD 0 []) (fld.getD 1 []) (fmt_d limit) (fmt_d (filled + 1)))
        match add_to_student students user cid with
        | none => none
        | some students1 => some (Reply.enrolled, save (fc.set row newline), students1)

/-- The seat decrement of `student_unenroll` (server.c 625-633). `none` when
the course row has fewer than four fields: `fld[3]` is read unset. -/
def release_seat (courses cid : Str) : Option Str :=
  let fc := load courses
  match find_row fc cid 0 with
  | none => some (save fc)
  | some row =>
    let fld := split_line (fc.getD row [])
    if fld.length < 4 then none
    else
      let filled := atoi (fld.getD 3 [])
      let filled1 := if filled > 0 then filled - 1 else filled
      some (save (fc.set row
        (snprintf MAX_LINE (fmt4 (fld.getD 0 []) (fld.getD 1 []) (fld.getD 2 []) (fmt_d filled1)))))

/-- `student_unenroll` (server.c 594-635) after the course-id line was
received. Returns the reply, the course file and the student file. -/
def student_unenroll (courses students user cid : Str) : Option (Reply × Str × Str) :=
  let fs := load students
  match find_row fs user 0 with
  | none => some (Reply.silent, courses, students)
  | some srow =>
    let sfld := split_line (fs.getD srow [])
    let subs := if sfld.length = 4 then tokens ',' (sfld.getD 3 []) else []
    let newlist := join_comma (subs.filter (fun t => t != cid))
    let had := subs.contains cid
    if !had then some (Reply.notEnrolled, courses, students)
    else
      let newline := snprintf MAX_LINE
        (fmt4 (sfld.getD 0 []) (sfld.getD 1 []) (sfld.getD 2 []) newlist)
      match release_seat courses cid with
      | none => none
      | some courses1 => some (Reply.unenrolled, courses1, save (fs.set srow newline))

/-! ## Viewing enrollments (faculty) -/

/-- The header that `faculty_view_enrollments` sends for a course
(server.c 488): `snprintf(hdr, 64, "\n%s:\n", cid)`. -/
def enrollment_header (cid : Str) : Str :=
  snprintf 64 ('\n' :: (cid ++ [':', '\n']))

/-- The line that `faculty_view_enrollments` sends for a student
(server.c 499): `snprintf(line, 128, " - %s\n", fld[0])`. -/
def enrollment_entry (username : Str) : Str :=
  snprintf 128 (' ' :: '-' :: ' ' :: (username ++ ['\n']))

/-- The inner `strtok_r` loop of `faculty_view_enrollments` (server.c 496-503):
`true` when it reaches an entry equal to `cid` (and breaks). -/
def has_entry (cid : Str) : List Str → Bool
  | [] => false
  | sub :: rest => if sub == cid then true else has_entry cid rest

/-- The student loop of `faculty_view_enrollments` (server.c 490-504) for one
course id: the lines sent, in order. -/
def view_students (cid : Str) : List Str → List Str
  | [] => []
  | l :: ls =>
    if is_skip_line l then view_students cid ls
    else
      let fld := split_line l
      if fld.length < 4 || (fld.getD 2 []).head? != some '1' || (fld.getD 3 []).length == 0 then
        view_students cid ls
      else if has_entry cid (tokens ',' (fld.getD 3 [])) then
        enrollment_entry (fld.getD 0 []) :: view_students cid ls
      else view_students cid ls

/-- The course loop of `faculty_view_enrollments` (server.c 486-506): for
every offered course id its header and then the lines of the student loop. -/
def view_courses (fs : List Str) : List Str → List Str
  | [] => []
  | cid :: rest => enrollment_header cid :: (view_students cid fs ++ view_courses fs rest)

/-- `faculty_view_enrollments` (server.c 470-508): the lines sent to the
client, in order. Both files are released, never written. (`strcpy` into
`offered[MAX_LIST]` copies the whole field, which is part of the `MAX_LINE`
bytes of `split_line`.) -/
def faculty_view_enrollments (faculty students who : Str) : List Str :=
  let ff := load faculty
  let offered : Str :=
    match find_row ff who 0 with
    | none => []
    | some prow =>
      let fld := split_line (ff.getD prow [])
      if fld.length = 4 && (fld.getD 2 []).head? == some '1' then fld.getD 3 []
      else []
  if offered.length = 0 then ["You offer no courses (or account blocked)\n".toList]
  else view_courses (load students) (tokens ',' offered)

/-- A line as `load` yields it: non-empty, without newline and NUL. -/
def IsLine (l : Str) : Prop := l ≠ [] ∧ '\n' ∉ l ∧ '\x00' ∉ l

/-- A file content as the server writes it: no NUL byte, and empty or ending
with a newline. -/
def Terminated (content : Str) : Prop :=
  '\x00' ∉ content ∧ (content = [] ∨ content.getLast? = some '\n')

/-! ## Properties named by the specification -/

/-- Trailing-newline normalisation in the words of the specification: an empty
file stays empty, otherwise the content ends with exactly one newline after
its last line. -/
def normalise_trailing_newline (content : Str) : Str :=
  if content = [] ∨ content.getLast? = some '\n' then content else content ++ ['\n']

/-- A line received from the client and cut at the first CR or LF, as a C
string: it holds no newline and no NUL. -/
def Received (s : Str) : Prop := '\n' ∉ s ∧ '\x00' ∉ s

/-- A key that turns the row starting with it into a comment line: after
leading blanks its first character is `#`. -/
def is_comment_key (s : Str) : Bool :=
  match s.dropWhile is_blank with
  | [] => false
  | c :: _ => c == '#'

/-- The first field of a row that scans look at; skip lines have none. -/
def row_key (line : Str) : Option Str :=
  if is_skip_line line then none else (split_line line).head?

/-- Key uniqueness: no two non-skip rows of the file have the same first
field. -/
def UniqueKeys (content : Str) : Prop :=
  ((load content).filterMap row_key).Nodup

/-- The row text `u|p|1|` that `admin_add` writes. -/
def user_row (u p : Str) : Str := u ++ '|' :: (p ++ ['|', '1', '|'])

instance (s : Str) : Decidable (Received s) := by unfold Received; infer_instance

instance (s : Str) : Decidable (IsLine s) := by unfold IsLine; infer_instance

instance (s : Str) : Decidable (Terminated s) := by unfold Terminated; infer_instance

instance (s : Str) : Decidable (UniqueKeys s) := by unfold UniqueKeys; infer_instance

/-- The comma list of a row after `cid` is appended: `list,cid`, or `cid`
alone when the row had no list field (`rest` are the fields after the third). -/
def appended (rest : List Str) (cid : Str) : Str :=
  match rest with
  | [] => cid
  | s3 :: _ => s3 ++ ',' :: cid

/-- A course row respects its seat limit: a non-skip row with four fields has
`filled_count ≤ seat_limit` (rows without a filled count are not concerned). -/
def row_within_limit (l : Str) : Bool :=
  is_skip_line l ||
    match split_line l with
    | [_, _, f2, f3] => decide (atoi f3 ≤ atoi f2)
    | _ => true

/-- Catalogue invariant 4: every course row has `filled_count ≤ seat_limit`. -/
def SeatsWithinLimit (courses : Str) : Prop :=
  ∀ l ∈ load courses, row_within_limit l = true

instance (s : Str) : Decidable (SeatsWithinLimit s) := by
  unfold SeatsWithinLimit; infer_instance

/-- A student row whose enrollment list contains `c` as a whole
comma-separated entry (skip lines are not student rows). -/
def student_holds (c : Str) (line : Str) : Bool :=
  !is_skip_line line &&
    match split_line line with
    | [_, _, _, list] => (tokens ',' list).contains c
    | _ => false

/-- The number of students whose enrollment list contains `c`. -/
def enrolled_count (students c : Str) : Nat :=
  (load students).countP (student_holds c)

/-- The filled count of course `c`: the fourth field of the first row keyed
by `c`, when that row has four fields. -/
def filled_count (courses c : Str) : Option Int :=
  match find_row (load courses) c 0 with
  | none => none
  | some i =>
    match split_line ((load courses).getD i []) with
    | [_, _, _, f] => some (atoi f)
    | _ => none

/-- A call of a sequence about one course: `enroll(s, c)` or `unenroll(s, c)`
by the student `s`. -/
inductive Call
  | enroll (s : Str)
  | unenroll (s : Str)

/-- The number of `enroll` calls of a sequence. -/
def enroll_calls : List Call → Nat
  | [] => 0
  | Call.enroll _ :: rest => enroll_calls rest + 1
  | Call.unenroll _ :: rest => enroll_calls rest

/-- Run a sequence of calls about course `c` from the course and student
files `st`; the result is the final files and the replies in call order,
`none` when some call is undefined. -/
def run_calls (c : Str) : Str × Str → List Call → Option ((Str × Str) × List Reply)
  | st, [] => some (st, [])
  | st, Call.enroll s :: rest =>
    match student_enroll st.1 st.2 s c with
    | none => none
    | some (r, c1, s1) =>
      match run_calls c (c1, s1) rest with
      | none => none
      | some (final, rs) => some (final, r :: rs)
  | st, Call.unenroll s :: rest =>
    match student_unenroll st.1 st.2 s c with
    | none => none
    | some (r, c1, s1) =>
      match run_calls c (c1, s1) rest with
      | none => none
      | some (final, rs) => some (final, r :: rs)

/-- The state of a sequence of calls about course `c` after the filled count
reached `n`: the course row is still the first row keyed by `c` at index `i`,
reads `c|name|l|f` with `atoi f = n` and a limit text of at most `lmax`
bytes, and at most `n` students hold `c`. -/
def seq_inv (c name : Str) (i lmax : Nat) (st : Str × Str) (n : Nat) : Prop :=
  find_row (load st.1) c 0 = some i ∧
    (∃ l f, split_line ((load st.1).getD i []) = [c, name, l, f] ∧ atoi f = (n : Int) ∧
      l.length ≤ lmax) ∧
    enrolled_count st.2 c ≤ n

/-- A course row agrees with the student file: a non-skip row with four
fields has a filled count equal to the number of students whose enrollment
list contains its course id. -/
def row_matches_enrollment (students : Str) (l : Str) : Bool :=
  is_skip_line l ||
    match split_line l with
    | [c, _, _, f] => decide (atoi f = (enrolled_count students c : Int))
    | _ => true

/-- Catalogue invariant 1: `filled_count(course)` is the number of students
whose enrollment list contains the course, for every course row. -/
def SeatsMatchEnrollment (courses students : Str) : Prop :=
  ∀ l ∈ load courses, row_matches_enrollment students l = true

instance (a b : Str) : Decidable (SeatsMatchEnrollment a b) := by
  unfold SeatsMatchEnrollment; infer_instance

/-- Well-formed student rows: every non-skip row of the file has at least
three fields, and every line is shorter than `MAX_LINE`. -/
def StudentsWellFormed (students : Str) : Prop :=
  ∀ l ∈ load students,
    l.length < MAX_LINE ∧ (is_skip_line l = false → 3 ≤ (split_line l).length)

/-- The course row of `c` during a sequence of calls: the first row keyed by
`c` is at index `i` and reads `c|name|l|f` with a limit text of at most `lmax`
bytes. -/
def course_tracked (c name : Str) (i lmax : Nat) (courses : Str) : Prop :=
  find_row (load courses) c 0 = some i ∧
    ∃ l f, split_line ((load courses).getD i []) = [c, name, l, f] ∧ l.length ≤ lmax

instance (s : Str) : Decidable (StudentsWellFormed s) := by
  unfold StudentsWellFormed; infer_instance

/-- A skip line in the words of the specification: the line is empty, holds
only spaces and tabs, or its first character that is not a space or a tab
is `#`. -/
def skip_in_words (l : Str) : Prop :=
  l = [] ∨ (∀ c ∈ l, c = ' ' ∨ c = '\t') ∨
    ∃ pre rest, l = pre ++ '#' :: rest ∧ ∀ c ∈ pre, c = ' ' ∨ c = '\t'

/-- A student row that is listed for course `c`, in the words of the
specification: a non-skip row with four fields that is active and whose
enrollment list contains `c` as a whole comma-separated entry. -/
def listed_for (c : Str) (line : Str) : Bool :=
  student_holds c line && ((split_line line).getD 2 []).head? == some '1'

/-! ## Histories of catalogue calls -/

/-- A call of a history on the faculty file and the course catalogue:
`admin_add` on the faculty file, `faculty_add_course` or
`faculty_remove_course` by the faculty member `who`. -/
inductive CatalogCall
  | add_user (u p : Str)
  | add_course (who id name lim : Str)
  | remove_course (who cid : Str)

/-- The course file and the faculty file after one call. -/
def run_call (st : Str × Str) : CatalogCall → Str × Str
  | CatalogCall.add_user u p => (st.1, (admin_add st.2 u p).2)
  | CatalogCall.add_course who id name lim =>
    ((faculty_add_course st.1 st.2 who id name lim).2.1,
      (faculty_add_course st.1 st.2 who id name lim).2.2)
  | CatalogCall.remove_course who cid =>
    ((faculty_remove_course st.1 st.2 who cid).2.1,
      (faculty_remove_course st.1 st.2 who cid).2.2)

/-- Who created the rows of the catalogue: a call of `add_course` that finds
no row for its id creates one, a call of `remove_course` that finds a row
removes it. The pairs are (course id, creator). -/
def record_call (courses : Str) (created : List (Str × Str)) :
    CatalogCall → List (Str × Str)
  | CatalogCall.add_user _ _ => created
  | CatalogCall.add_course who id _ _ =>
    if find_row (load courses) id 0 = none then (id, who) :: created else created
  | CatalogCall.remove_course _ cid =>
    if find_row (load courses) cid 0 = none then created
    else created.filter (fun e => e.1 != cid)

/-- Run a history of calls from the course file, the faculty file and the
record of creators. -/
def run_history : (Str × Str) × List (Str × Str) → List CatalogCall →
    (Str × Str) × List (Str × Str)
  | s, [] => s
  | s, c :: cs => run_history (run_call s.1 c, record_call s.1.1 s.2 c) cs

/-- Catalogue invariant 3: every course id in the offered-list of a faculty
row is the key of a catalogue row, and that row was created by the faculty
member of the row. -/
def OfferedCoursesCreatedByOwner (courses faculty : Str) (created : List (Str × Str)) : Prop :=
  ∀ l ∈ load faculty, is_skip_line l = false →
    ∀ u p flag list, split_line l = [u, p, flag, list] →
      ∀ id ∈ tokens ',' list, find_row (load courses) id 0 ≠ none ∧ (id, u) ∈ created

/-- The calls of a history in which every course id belongs to one faculty
member: usernames and passwords are non-empty, hold no `|` and fit their
64-byte buffers, usernames are no comment keys; course ids are non-empty, hold
no `|` and no `,`, are no comment keys and fit `MAX_FIELD`; and a course id is
added and removed by its owner only. -/
def GoodCall (owner : Str → Str) : CatalogCall → Prop
  | CatalogCall.add_user u p =>
    Received u ∧ u ≠ [] ∧ '|' ∉ u ∧ is_comment_key u = false ∧ u.length < 64 ∧
      Received p ∧ p ≠ [] ∧ '|' ∉ p ∧ p.length < 64
  | CatalogCall.add_course who id name _ =>
    who = owner id ∧ Received id ∧ id ≠ [] ∧ '|' ∉ id ∧ ',' ∉ id ∧
      is_comment_key id = false ∧ id.length < MAX_FIELD ∧ Received name
  | CatalogCall.remove_course who cid => who = owner cid

/-- Room for a call: before `add_course` of `id` by `who`, the faculty row
found for `who` leaves room in the `MAX_LINE` buffer for a comma and the id,
so that `snprintf` does not cut the row written back. Other calls need no
room. -/
def call_fits (faculty : Str) : CatalogCall → Bool
  | CatalogCall.add_course who id _ _ =>
    match find_row (load faculty) who 0 with
    | none => true
    | some j => decide (((load faculty).getD j []).length + (id.length + 1) < MAX_LINE)
  | _ => true

/-- Room along a history: every call finds room in the state it starts
from. -/
def history_fits : Str × Str → List CatalogCall → Bool
  | _, [] => true
  | st, c :: cs => call_fits st.2 c && history_fits (run_call st c) cs

/-- A faculty row during a history: an active row of a user that is no comment
key, whose list holds only ids of courses of that user that the catalogue
knows. -/
def FacultyRowOk (owner : Str → Str) (courses : Str) (l : Str) : Prop :=
  is_skip_line l = false ∧
    ∃ u p rest, split_line l = u :: p :: ['1'] :: rest ∧ is_comment_key u = false ∧
      ∀ list ∈ rest, ∀ id ∈ tokens ',' list,
        owner id = u ∧ find_row (load courses) id 0 ≠ none

/-- The state of a history: the faculty file is terminated, its usernames are
unique, its rows are as `FacultyRowOk` says and at most `w` bytes long; the
course ids are unique and every catalogue row is recorded as created by the
owner of its id. -/
structure HistInv (owner : Str → Str) (w : Nat) (courses faculty : Str)
    (created : List (Str × Str)) : Prop where
  fterm : Terminated faculty
  funiq : UniqueKeys faculty
  frows : ∀ l ∈ load faculty, FacultyRowOk owner courses l
  fshort : ∀ l ∈ load faculty, l.length ≤ w
  cuniq : UniqueKeys courses
  ccreated : ∀ id, find_row (load courses) id 0 ≠ none → (id, owner id) ∈ created

/-- Row formatting: the fields joined with `|`. -/
def join_bar : List Str → Str
  | [] => []
  | [t] => t
  | t :: ts => t ++ '|' :: join_bar ts

/-! ## Calls of the file helper -/

/-- The files of the store: `STUDENT_FILE`, `FACULTY_FILE` and `COURSE_FILE`. -/
inductive FileName
  | student
  | faculty
  | course
  deriving DecidableEq

/-- A call of the file helper: `load` (open and lock), `save` (write back,
unlock, close, free) or `release` (unlock, close, free). -/
inductive FileEvent
  | load (f : FileName)
  | save (f : FileName)
  | release (f : FileName)
  deriving DecidableEq

/-- The file-helper calls of `auth_file` (server.c 190-199). -/
def auth_file_events (file : FileName) : List FileEvent :=
  [FileEvent.load file, FileEvent.release file]

/-- The file-helper calls of `admin_add` (server.c 279-301): the overwrite
branch calls `save` and then reaches the `release` after the branches. -/
def admin_add_events (file : FileName) (content u : Str) : List FileEvent :=
  let f := load content
  match find_row f u 0 with
  | some row =>
    if 3 ≤ (split_line (f.getD row [])).length then
      [FileEvent.load file, FileEvent.release file]
    else [FileEvent.load file, FileEvent.save file, FileEvent.release file]
  | none => [FileEvent.load file, FileEvent.release file]

/-- The file-helper calls of `admin_view` (server.c 307-317). -/
def admin_view_events (file : FileName) : List FileEvent :=
  [FileEvent.load file, FileEvent.release file]

/-- The file-helper calls of `admin_toggle` (server.c 327-338). -/
def admin_toggle_events (content u : Str) : List FileEvent :=
  let f := load content
  match find_row f u 0 with
  | none => [FileEvent.load FileName.student, FileEvent.release FileName.student]
  | some row =>
    if (split_line (f.getD row [])).length < 3 then
      [FileEvent.load FileName.student, FileEvent.release FileName.student]
    else [FileEvent.load FileName.student, FileEvent.save FileName.student]

/-- The file-helper calls of `admin_setpwd` (server.c 349-358). -/
def admin_setpwd_events (file : FileName) (content u : Str) : List FileEvent :=
  match find_row (load content) u 0 with
  | none => [FileEvent.load file, FileEvent.release file]
  | some _ => [FileEvent.load file, FileEvent.save file]

/-- The file-helper calls of `faculty_add_course` (server.c 397-424). -/
def faculty_add_course_events : List FileEvent :=
  [FileEvent.load FileName.course, FileEvent.save FileName.course,
    FileEvent.load FileName.faculty, FileEvent.save FileName.faculty]

/-- The file-helper calls of `faculty_remove_course` (server.c 435-466). -/
def faculty_remove_course_events (courses cid : Str) : List FileEvent :=
  match find_row (load courses) cid 0 with
  | none => [FileEvent.load FileName.course, FileEvent.release FileName.course]
  | some _ =>
    [FileEvent.load FileName.course, FileEvent.save FileName.course,
      FileEvent.load FileName.faculty, FileEvent.save FileName.faculty]

/-- The file-helper calls of `faculty_view_enrollments` (server.c 474-507). -/
def faculty_view_enrollments_events (faculty who : Str) : List FileEvent :=
  let ff := load faculty
  let offered : Str :=
    match find_row ff who 0 with
    | none => []
    | some prow =>
      let fld := split_line (ff.getD prow [])
      if fld.length = 4 && (fld.getD 2 []).head? == some '1' then fld.getD 3 []
      else []
  if offered.length = 0 then
    [FileEvent.load FileName.faculty, FileEvent.release FileName.faculty]
  else
    [FileEvent.load FileName.faculty, FileEvent.release FileName.faculty,
      FileEvent.load FileName.student, FileEvent.release FileName.student]

/-- The file-helper calls of `faculty_change_pwd` (server.c 516-530). -/
def faculty_change_pwd_events (faculty who : Str) : List FileEvent :=
  let ff := load faculty
  match find_row ff who 0 with
  | none => [FileEvent.load FileName.faculty, FileEvent.release FileName.faculty]
  | some prow =>
    let fld := split_line (ff.getD prow [])
    if 3 ≤ fld.length && (fld.getD 2 []).head? == some '1' then
      [FileEvent.load FileName.faculty, FileEvent.save FileName.faculty]
    else [FileEvent.load FileName.faculty, FileEvent.release FileName.faculty]

/-- The file-helper calls of `student_enroll` (server.c 565-590); `none` when
the branch on `filled >= limit` reads unset field pointers. -/
def student_enroll_events (courses cid : Str) : Option (List FileEvent) :=
  let fc := load courses
  match find_row fc cid 0 with
  | none => some [FileEvent.load FileName.course, FileEvent.release FileName.course]
  | some row =>
    let fld := split_line (fc.getD row [])
    if fld.length < 4 then none
    else if atoi (fld.getD 3 []) ≥ atoi (fld.getD 2 []) then
      some [FileEvent.load FileName.course, FileEvent.release FileName.course]
    else
      some [FileEvent.load FileName.course, FileEvent.save FileName.course,
        FileEvent.load FileName.student, FileEvent.save FileName.student]

/-- The file-helper calls of `student_unenroll` (server.c 601-633). The fields
that the seat decrement reads do not choose between calls. -/
def student_unenroll_events (students user cid : Str) : List FileEvent :=
  let fs := load students
  match find_row fs user 0 with
  | none => [FileEvent.load FileName.student, FileEvent.release FileName.student]
  | some srow =>
    let sfld := split_line (fs.getD srow [])
    let subs := if sfld.length = 4 then tokens ',' (sfld.getD 3 []) else []
    if !subs.contains cid then
      [FileEvent.load FileName.student, FileEvent.release FileName.student]
    else
      [FileEvent.load FileName.student, FileEvent.save FileName.student,
        FileEvent.load FileName.course, FileEvent.save FileName.course]

/-- The file-helper calls of `student_view` (server.c 639-661). The fields
that the course loop reads do not choose between calls. -/
def student_view_events (students user : Str) : List FileEvent :=
  let fs := load students
  match find_row fs user 0 with
  | none => [FileEvent.load FileName.student, FileEvent.release FileName.student]
  | some srow =>
    let fld := split_line (fs.getD srow [])
    let list : Str := if fld.length = 4 then (fld.getD 3 []).take MAX_LIST else []
    if list.length = 0 then
      [FileEvent.load FileName.student, FileEvent.release FileName.student]
    else
      [FileEvent.load FileName.student, FileEvent.release FileName.student,
        FileEvent.load FileName.course, FileEvent.release FileName.course]

/-- The file-helper calls of `student_change_pwd` (server.c 670-679). -/
def student_change_pwd_events : List FileEvent :=
  [FileEvent.load FileName.student, FileEvent.save FileName.student]

/-- Lock discipline in the words of the specification: every lock acquired by
`load` is released exactly once afterwards, by one call of `save` or `release`
on that file; `held` are the files loaded and not yet released. -/
def released_once : List FileName → List FileEvent → Bool
  | held, [] => held.isEmpty
  | held, FileEvent.load f :: es => !held.contains f && released_once (f :: held) es
  | held, FileEvent.save f :: es => held.contains f && released_once (held.erase f) es
  | held, FileEvent.release f :: es => held.contains f && released_once (held.erase f) es

/-! ## The dialogue with the client -/

/-- `is_prompt_line` of client.c (lines 10-16): after the trailing spaces,
tabs, CR and LF the last character is `:` or `>`. -/
def is_prompt_line (s : Str) : Bool :=
  match s.reverse.dropWhile (fun c => c == ' ' || c == '\t' || c == '\r' || c == '\n') with
  | [] => false
  | c :: _ => c == ':' || c == '>'

/-- What the server does on a connection: `send_line` of a text, or a call of
`recv_line`. -/
inductive Action
  | send (text : Str)
  | recv
  deriving DecidableEq

/-- Whether the first of the actions to come is a call of `recv_line`. -/
def reads_next : List Action → Bool
  | Action.recv :: _ => true
  | _ => false

/-- The loop of the client (client.c 35-44) over the bytes of one `send_line`.
`recv_line(sockfd, recvbuf, size)` (utils.c 13-25) completes a line at a
newline or when `size - 1` bytes are stored (`size` is `sizeof recvbuf`, the
`MAX_LINE` of common.h, at least 2); `cur` holds the bytes of the line begun.
On a line that `is_prompt_line` accepts the client turns to the keyboard: the
result is `none` unless the line ends the text and the server reads next
(`reads`). Otherwise the result is the line begun when the text ends. -/
def hear (size : Nat) (reads : Bool) : Str → Str → Option Str
  | cur, [] => some cur
  | cur, c :: rest =>
    if c = '\n' ∨ (cur ++ [c]).length = size - 1 then
      if is_prompt_line (cur ++ [c]) then
        if rest.isEmpty && reads then some [] else none
      else hear size reads [] rest
    else hear size reads (cur ++ [c]) rest

/-- The loop of the client over the actions of the server, in order: `none`
when a line taken for a prompt is not followed at once by a read of the
server, otherwise the line begun at the end. -/
def answered (size : Nat) : Str → List Action → Option Str
  | cur, [] => some cur
  | cur, Action.recv :: rest => answered size cur rest
  | cur, Action.send text :: rest =>
    match hear size (reads_next rest) cur text with
    | none => none
    | some cur1 => answered size cur1 rest

/-- A check used in the proofs: `hear` on a text whose lines all end with a
newline after at most `bound` bytes, so that the size of the buffer plays no
role. -/
def hear_short (bound : Nat) (reads : Bool) : Str → Str → Bool
  | cur, [] => cur.isEmpty
  | cur, c :: rest =>
    decide ((cur ++ [c]).length ≤ bound) &&
      (if c = '\n' then
        (if is_prompt_line (cur ++ [c]) then rest.isEmpty && reads
         else hear_short bound reads [] rest)
      else hear_short bound reads (cur ++ [c]) rest)

/-- A prompt: `send_line` of the text, then `recv_line`. -/
def ask (text : Str) : List Action := [Action.send text, Action.recv]

/-- The calls of `recv_choice` (server.c 98-107): it reads lines until one is
not blank; `blank` lines are skipped first. -/
def recv_choice_dialogue (blank : Nat) : List Action :=
  List.replicate (blank + 1) Action.recv

/-- The text of a reply, as passed to `send_line`. -/
def reply_text : Reply → Str
  | Reply.userExists => "User already exists\n".toList
  | Reply.added => "[OK] Added\n".toList
  | Reply.userNotFound => "User not found\n".toList
  | Reply.malformed => "Malformed record\n".toList
  | Reply.ok => "[OK]\n".toList
  | Reply.courseAdded => "[OK] Course added\n".toList
  | Reply.courseNotFound => "Course not found\n".toList
  | Reply.courseRemoved => "[OK] Course removed\n".toList
  | Reply.courseFull => "Course full\n".toList
  | Reply.enrolled => "[OK] Enrolled\n".toList
  | Reply.notEnrolled => "Not enrolled in that course\n".toList
  | Reply.unenrolled => "[OK] Unenrolled\n".toList
  | Reply.silent => []

/-- The `send_line` of a reply; nothing for `Reply.silent`. -/
def reply_dialogue : Reply → List Action
  | Reply.silent => []
  | r => [Action.send (reply_text r)]

/-- The text that `client_thread` sends first (server.c 208-210). -/
def welcome_text : Str :=
  ("................Welcome Back to Academia................\n" ++
    "Login Type\n" ++
    "Enter Your Choice \x7b 1.Admin , 2.Professor , 3.Student \x7d: \n").toList

/-- The menu of `admin_menu` (server.c 242-252). -/
def admin_menu_text : Str :=
  ("\n........ Admin Menu ........\n" ++
    "1. Add Student      (username,password)\n" ++
    "2. View Student List\n" ++
    "3. Add Faculty      (username,password)\n" ++
    "4. View Faculty List\n" ++
    "5. Activate Student (username)\n" ++
    "6. Block Student    (username)\n" ++
    "7. Set Student Password (username,newPwd)\n" ++
    "8. Set Faculty Password (username,newPwd)\n" ++
    "9. Logout\nChoice:\n").toList

/-- The menu of `faculty_menu` (server.c 365-371). -/
def faculty_menu_text : Str :=
  ("\n........ Faculty Menu ........\n" ++
    "1. Add New Course      (courseID,courseName,seatLimit)\n" ++
    "2. Remove Course       (courseID)\n" ++
    "3. View Enrollments    (shows list per course)\n" ++
    "4. Change Password     (newPwd)\n" ++
    "5. Logout\nChoice:\n").toList

/-- The menu of `student_menu` (server.c 537-543). -/
def student_menu_text : Str :=
  ("\n........ Student Menu ........\n" ++
    "1. Enroll in Course   (courseID)\n" ++
    "2. Drop Course        (courseID)\n" ++
    "3. View Enrolled Courses\n" ++
    "4. Change Password    (newPwd)\n" ++
    "5. Logout\nChoice:\n").toList

/-- The loop of a menu (server.c 254-268, 373-383, 545-555): every round
sends the menu, calls `recv_choice` and runs the chosen operation (or sends
`Invalid choice`); `rounds` gives for each round the blank lines skipped and
the actions of the operation. In the last round the choice ends the loop. -/
def menu_dialogue (menu : Str) (rounds : List (Nat × List Action)) (blank : Nat) :
    List Action :=
  rounds.flatMap (fun r => Action.send menu :: (recv_choice_dialogue r.1 ++ r.2)) ++
    Action.send menu :: recv_choice_dialogue blank

/-- The unknown choice in a menu (server.c 267, 382, 554). -/
def invalid_choice_dialogue : List Action := [Action.send "Invalid choice\n".toList]

/-- The prompts of `auth_admin` (server.c 177-178). -/
def auth_admin_dialogue : List Action :=
  ask "Admin username:\n".toList ++ ask "Admin password:\n".toList

/-- The prompts of `auth_file` (server.c 186-187). -/
def auth_file_dialogue : List Action :=
  ask "Username:\n".toList ++ ask "Password:\n".toList

/-- The actions of `client_thread` (server.c 204-237) on a connection: the
welcome text, `recv_choice` for the role, the login, and for an accepted login
the actions `menu` of the menu of the role and the farewell. `ok` is the
result of `auth_admin` or `auth_file`. When `recv_choice` gives -1 (the
connection ended, or the line read is the number -1) the socket is closed and
nothing more is sent (server.c 213). -/
def client_thread_dialogue (blank : Nat) (role : Int) (ok : Bool) (menu : List Action) :
    List Action :=
  Action.send welcome_text :: (recv_choice_dialogue blank ++
    (if role = -1 then []
    else if role = 1 then
      auth_admin_dialogue ++
        (if ok then
          Action.send "[OK] Admin authenticated\n".toList ::
            (menu ++ [Action.send "Goodbye!\n".toList])
        else [Action.send "Invalid credentials\n".toList])
    else if role = 2 then
      auth_file_dialogue ++
        (if ok then
          Action.send "[OK] Faculty authenticated\n".toList ::
            (menu ++ [Action.send "Goodbye!\n".toList])
        else [Action.send "Invalid\n".toList])
    else if role = 3 then
      auth_file_dialogue ++
        (if ok then
          Action.send "[OK] Student authenticated\n".toList ::
            (menu ++ [Action.send "Goodbye!\n".toList])
        else [Action.send "Invalid\n".toList])
    else [Action.send "Bad choice\n".toList, Action.send "Goodbye!\n".toList]))

/-- The actions of `admin_add` (server.c 271-303) when `u` and `p` are
received: the prompt `snprintf(prompt, 64, "New %s username:\n", tag)`, the
password prompt and the reply. -/
def admin_add_dialogue (tag content u p : Str) : List Action :=
  ask (snprintf 64 ("New ".toList ++ tag ++ " username:\n".toList)) ++
    ask "Password:\n".toList ++ reply_dialogue (admin_add content u p).1

/-- The conversion `%-12s`: the text, filled with spaces on the right up to
the width. -/
def pad_right (width : Nat) (s : Str) : Str :=
  s ++ List.replicate (width - s.length) ' '

/-- The line of `admin_view` for a row (server.c 313-314):
`snprintf(ln, 128, " - %-12s  [%s]\n", fld[0], ...)`. -/
def user_entry (fld : List Str) : Str :=
  snprintf 128 (" - ".toList ++ pad_right 12 (fld.getD 0 []) ++ "  [".toList ++
    (if (fld.getD 2 []).head? == some '1' then "active".toList else "blocked".toList) ++
    "]\n".toList)

/-- The loop of `admin_view` (server.c 309-316): the lines sent, in order. -/
def view_users : List Str → List Str
  | [] => []
  | l :: ls =>
    if is_skip_line l then view_users ls
    else if (split_line l).length < 3 then view_users ls
    else user_entry (split_line l) :: view_users ls

/-- `admin_view` (server.c 305-318): the texts sent, the header
`snprintf(hdr, 64, "\n%s List\n", title)` first. -/
def admin_view (title content : Str) : List Str :=
  snprintf 64 ('\n' :: (title ++ " List\n".toList)) :: view_users (load content)

/-- The actions of `admin_view`. -/
def admin_view_dialogue (title content : Str) : List Action :=
  (admin_view title content).map Action.send

/-- The actions of `admin_toggle` (server.c 321-340) when `u` is received. -/
def admin_toggle_dialogue (content u : Str) (activate : Bool) : List Action :=
  ask "Student username:\n".toList ++ reply_dialogue (admin_toggle content u activate).1

/-- The actions of `admin_setpwd` (server.c 342-360) when `u` and `p` are
received. -/
def admin_setpwd_dialogue (content u p : Str) : List Action :=
  ask "Username:\n".toList ++ ask "New password:\n".toList ++
    reply_dialogue (admin_setpwd content u p).1

/-- The actions of `faculty_add_course` (server.c 386-426) when the three
lines are received. -/
def faculty_add_course_dialogue (courses faculty who id name lim : Str) : List Action :=
  ask "Course ID:\n".toList ++ ask "Course Name:\n".toList ++ ask "Seat Limit:\n".toList ++
    reply_dialogue (faculty_add_course courses faculty who id name lim).1

/-- The actions of `faculty_remove_course` (server.c 428-468) when `cid` is
received. -/
def faculty_remove_course_dialogue (courses faculty who cid : Str) : List Action :=
  ask "Course ID to remove:\n".toList ++
    reply_dialogue (faculty_remove_course courses faculty who cid).1

/-- The actions of `faculty_view_enrollments` (server.c 470-508). -/
def faculty_view_enrollments_dialogue (faculty students who : Str) : List Action :=
  (faculty_view_enrollments faculty students who).map Action.send

/-- The actions of `faculty_change_pwd` (server.c 510-532) when the password
is received. The dash of the refusal is the three bytes E2 80 93. -/
def faculty_change_pwd_dialogue (faculty who : Str) : List Action :=
  let ff := load faculty
  ask "New password:\n".toList ++
    match find_row ff who 0 with
    | none =>
      [Action.send "Account is blocked \xe2\x80\x93 cannot change password\n".toList]
    | some prow =>
      let fld := split_line (ff.getD prow [])
      if 3 ≤ fld.length && (fld.getD 2 []).head? == some '1' then
        [Action.send "[OK] Password changed\n".toList]
      else [Action.send "Account is blocked \xe2\x80\x93 cannot change password\n".toList]

/-- The actions of `student_enroll` (server.c 558-592) when `cid` is received;
`none` where the operation reads an unset field. -/
def student_enroll_dialogue (courses students user cid : Str) : Option (List Action) :=
  (student_enroll courses students user cid).map
    (fun x => ask "Course ID to enroll:\n".toList ++ reply_dialogue x.1)

/-- The actions of `student_unenroll` (server.c 594-635) when `cid` is
received; `none` where the operation reads an unset field. -/
def student_unenroll_dialogue (courses students user cid : Str) : Option (List Action) :=
  (student_unenroll courses students user cid).map
    (fun x => ask "Course ID to drop:\n".toList ++ reply_dialogue x.1)

/-- The course loop of `student_view` (server.c 650-660): the lines sent for
the ids of the list, in order. The fields of a course row go to
`char *fld2[2]`: the result is `none` when a row found has more than two
fields (written past the array) or fewer (`fld2[1]` is unset). -/
def view_enrolled (fc : List Str) : List Str → Option (List Str)
  | [] => some []
  | cid :: rest =>
    match find_row fc cid 0 with
    | none => view_enrolled fc rest
    | some row =>
      let fld2 := split_line (fc.getD row [])
      if fld2.length = 2 then
        (view_enrolled fc rest).map
          (fun ls => snprintf MAX_LINE (" - ".toList ++ fld2.getD 0 [] ++ " : ".toList ++
            fld2.getD 1 [] ++ ['\n']) :: ls)
      else none

/-- `student_view` (server.c 637-662): the texts sent, in order. Nothing is
sent when the student has no row. -/
def student_view (students courses user : Str) : Option (List Str) :=
  let fs := load students
  match find_row fs user 0 with
  | none => some []
  | some srow =>
    let fld := split_line (fs.getD srow [])
    let list : Str := if fld.length = 4 then (fld.getD 3 []).take MAX_LIST else []
    if list.length = 0 then some ["No courses enrolled\n".toList]
    else
      (view_enrolled (load courses) (tokens ',' list)).map
        (fun ls => "Enrolled:\n".toList :: ls)

/-- The actions of `student_view`. -/
def student_view_dialogue (students courses user : Str) : Option (List Action) :=
  (student_view students courses user).map (List.map Action.send)

/-- The actions of `student_change_pwd` (server.c 664-681) when the password
is received. -/
def student_change_pwd_dialogue : List Action :=
  ask "New password:\n".toList ++ [Action.send "[OK] Password changed\n".toList]

/-! # Theorems -/

/-! ## Tokens -/

theorem splitOn_ne_nil (d : Char) (s : Str) : splitOn d s ≠ [] := by
  cases s with
  | nil => simp [splitOn]
  | cons c cs =>
    simp only [splitOn]
    split
    · simp
    · split <;> simp

theorem splitOn_cons_self (d : Char) (s : Str) : splitOn d (d :: s) = [] :: splitOn d s := by
  simp [splitOn]

theorem splitOn_cons_ne {d c : Char} (h : c ≠ d) (s : Str) :
    ∃ t ts, splitOn d s = t :: ts ∧ splitOn d (c :: s) = (c :: t) :: ts := by
  cases hs : splitOn d s with
  | nil => exact absurd hs (splitOn_ne_nil d s)
  | cons t ts => exact ⟨t, ts, rfl, by simp [splitOn, h, hs]⟩

theorem splitOn_append_cons (d : Char) (a b : Str) :
    splitOn d (a ++ d :: b) = splitOn d a ++ splitOn d b := by
  induction a with
  | nil => simp [splitOn]
  | cons c cs ih =>
    by_cases h : c = d
    · subst h
      simp [splitOn_cons_self, ih]
    · obtain ⟨t, ts, h1, h2⟩ := splitOn_cons_ne h cs
      obtain ⟨t', ts', h1', h2'⟩ := splitOn_cons_ne h (cs ++ d :: b)
      rw [List.cons_append, h2', h2]
      rw [ih, h1] at h1'
      simp only [List.cons_append, List.cons.injEq] at h1'
      simp [h1'.1, h1'.2]

theorem splitOn_of_not_mem {d : Char} {a : Str} (h : d ∉ a) : splitOn d a = [a] := by
  induction a with
  | nil => rfl
  | cons c cs ih =>
    have hc : c ≠ d := fun e => h (by simp [e])
    have hcs : d ∉ cs := fun e => h (by simp [e])
    simp [splitOn, hc, ih hcs]

theorem tokens_nil (d : Char) : tokens d [] = [] := by simp [tokens, splitOn]

theorem tokens_cons_self (d : Char) (s : Str) : tokens d (d :: s) = tokens d s := by
  simp [tokens, splitOn_cons_self]

theorem tokens_append_cons (d : Char) (a b : Str) :
    tokens d (a ++ d :: b) = tokens d a ++ tokens d b := by
  simp [tokens, splitOn_append_cons]

theorem tokens_of_not_mem {d : Char} {a : Str} (h : d ∉ a) (hne : a ≠ []) :
    tokens d a = [a] := by
  cases a with
  | nil => exact absurd rfl hne
  | cons c cs => simp [tokens, splitOn_of_not_mem h]

theorem tokens_append_sep {d : Char} {a : Str} (h : d ∉ a) (hne : a ≠ []) (b : Str) :
    tokens d (a ++ d :: b) = a :: tokens d b := by
  rw [tokens_append_cons, tokens_of_not_mem h hne]; rfl

theorem mem_splitOn {d : Char} {s t : Str} (h : t ∈ splitOn d s) :
    d ∉ t ∧ ∀ c ∈ t, c ∈ s := by
  induction s generalizing t with
  | nil =>
    simp only [splitOn, List.mem_singleton] at h
    subst h; simp
  | cons c cs ih =>
    by_cases hc : c = d
    · subst hc
      rw [splitOn_cons_self] at h
      rcases List.mem_cons.mp h with rfl | h
      · simp
      · obtain ⟨h1, h2⟩ := ih h
        exact ⟨h1, fun x hx => List.mem_cons_of_mem _ (h2 x hx)⟩
    · obtain ⟨t0, ts, h1, h2⟩ := splitOn_cons_ne hc cs
      rw [h2] at h
      rcases List.mem_cons.mp h with rfl | h
      · obtain ⟨h3, h4⟩ := ih (t := t0) (by rw [h1]; simp)
        refine ⟨?_, ?_⟩
        · intro hm
          rcases List.mem_cons.mp hm with e | e
          · exact hc e.symm
          · exact h3 e
        · intro x hx
          rcases List.mem_cons.mp hx with e | e
          · simp [e]
          · exact List.mem_cons_of_mem _ (h4 x e)
      · obtain ⟨h3, h4⟩ := ih (t := t) (by rw [h1]; exact List.mem_cons_of_mem _ h)
        exact ⟨h3, fun x hx => List.mem_cons_of_mem _ (h4 x hx)⟩

theorem mem_tokens {d : Char} {s t : Str} (h : t ∈ tokens d s) :
    t ≠ [] ∧ d ∉ t ∧ ∀ c ∈ t, c ∈ s := by
  simp only [tokens, List.mem_filter] at h
  obtain ⟨h1, h2⟩ := h
  refine ⟨?_, mem_splitOn h1⟩
  intro e; subst e; simp at h2

theorem tokens_save {ls : List Str} (h : ∀ l ∈ ls, l ≠ [] ∧ '\n' ∉ l) :
    tokens '\n' (save ls) = ls := by
  induction ls with
  | nil => simp [save, tokens_nil]
  | cons l ls ih =>
    have hl := h l (by simp)
    rw [save, tokens_append_sep hl.2 hl.1, ih (fun x hx => h x (by simp [hx]))]

theorem mem_save {ls : List Str} {c : Char} (h : c ∈ save ls) :
    c = '\n' ∨ ∃ l ∈ ls, c ∈ l := by
  induction ls with
  | nil => simp [save] at h
  | cons l ls ih =>
    simp only [save, List.mem_append, List.mem_cons] at h
    rcases h with h | h | h
    · exact Or.inr ⟨l, by simp, h⟩
    · exact Or.inl h
    · rcases ih h with h | ⟨x, hx, hc⟩
      · exact Or.inl h
      · exact Or.inr ⟨x, by simp [hx], hc⟩

theorem takeWhile_no_nul {s : Str} (h : '\x00' ∉ s) :
    s.takeWhile (fun c => c != '\x00') = s := by
  rw [List.takeWhile_eq_self_iff]
  intro c hc
  simp only [bne_iff_ne, ne_eq]
  intro e; subst e; exact h hc

theorem load_of_no_nul {s : Str} (h : '\x00' ∉ s) : load s = tokens '\n' s := by
  simp [load, takeWhile_no_nul h]

theorem load_save {ls : List Str} (h : ∀ l ∈ ls, IsLine l) : load (save ls) = ls := by
  have hn : '\x00' ∉ save ls := by
    intro hm
    rcases mem_save hm with e | ⟨l, hl, hc⟩
    · exact absurd e (by decide)
    · exact (h l hl).2.2 hc
  rw [load_of_no_nul hn]
  exact tokens_save (fun l hl => ⟨(h l hl).1, (h l hl).2.1⟩)

theorem isLine_of_mem_load {content l : Str} (h : l ∈ load content) : IsLine l := by
  obtain ⟨h1, h2, h3⟩ := mem_tokens h
  refine ⟨h1, h2, ?_⟩
  intro hm
  have := List.mem_takeWhile_imp (h3 _ hm)
  simp at this

theorem save_load_save {content : Str} : load (save (load content)) = load content :=
  load_save (fun _ hl => isLine_of_mem_load hl)

theorem load_append_row {content row : Str} (hc : Terminated content) (hr : IsLine row) :
    load (content ++ (row ++ ['\n'])) = load content ++ [row] := by
  obtain ⟨hn, hterm⟩ := hc
  have hrow : tokens '\n' (row ++ ['\n']) = [row] := by
    rw [tokens_append_sep hr.2.1 hr.1, tokens_nil]
  have hn2 : '\x00' ∉ content ++ (row ++ ['\n']) := by
    simp only [List.mem_append, List.mem_singleton, not_or]
    exact ⟨hn, hr.2.2, by decide⟩
  rw [load_of_no_nul hn2, load_of_no_nul hn]
  rcases hterm with e | e
  · subst e; simp [hrow, tokens_nil]
  · obtain ⟨a, rfl⟩ : ∃ a, content = a ++ ['\n'] := by
      rcases List.eq_nil_or_concat content with e0 | ⟨a, x, e0⟩
      · subst e0; simp at e
      · subst e0
        have : x = '\n' := by simpa using e
        exact ⟨a, by simp [this]⟩
    have e1 : a ++ ['\n'] ++ (row ++ ['\n']) = a ++ '\n' :: (row ++ ['\n']) := by simp
    have e2 : a ++ ['\n'] = a ++ '\n' :: [] := rfl
    rw [e1, tokens_append_cons, hrow, e2, tokens_append_cons, tokens_nil]
    simp

/-! ## Load then save -/

theorem tokens_cons_cons_ne {d x y : Char} (hx : x ≠ d) (hy : y ≠ d) (r : Str) :
    ∃ t ts, tokens d (y :: r) = t :: ts ∧ tokens d (x :: y :: r) = (x :: t) :: ts := by
  obtain ⟨t0, ts0, h1, h2⟩ := splitOn_cons_ne hy r
  obtain ⟨t1, ts1, h3, h4⟩ := splitOn_cons_ne hx (y :: r)
  rw [h2] at h3
  simp only [List.cons.injEq] at h3
  refine ⟨y :: t0, ts0.filter (fun t => !t.isEmpty), ?_, ?_⟩
  · simp [tokens, h2]
  · simp [tokens, h4, ← h3.1, ← h3.2]

theorem normalise_cons_cons (x y : Char) (r : Str) :
    normalise_trailing_newline (x :: y :: r) = x :: normalise_trailing_newline (y :: r) := by
  simp only [normalise_trailing_newline, List.getLast?_cons_cons]
  split <;> simp_all

theorem not_double_tail {x : Char} {cs : Str} (h : ¬ ['\n', '\n'] <:+: x :: cs) :
    ¬ ['\n', '\n'] <:+: cs :=
  fun hc => h (List.infix_cons hc)

theorem save_tokens_no_double (c : Str) (h : ¬ ['\n', '\n'] <:+: c) :
    (∀ r, c = '\n' :: r → save (tokens '\n' c) = normalise_trailing_newline r) ∧
      (c.head? ≠ some '\n' → save (tokens '\n' c) = normalise_trailing_newline c) := by
  induction c with
  | nil => simp [tokens_nil, save, normalise_trailing_newline]
  | cons x cs ih =>
    obtain ⟨ih1, ih2⟩ := ih (not_double_tail h)
    constructor
    · intro r hr
      simp only [List.cons.injEq] at hr
      obtain ⟨hx, rfl⟩ := hr
      subst hx
      rw [tokens_cons_self]
      apply ih2
      cases cs with
      | nil => simp
      | cons y r =>
        simp only [List.head?_cons, ne_eq, Option.some.injEq]
        intro e; subst e
        exact h ⟨[], r, by simp⟩
    · intro hx
      simp only [List.head?_cons, ne_eq, Option.some.injEq] at hx
      cases cs with
      | nil =>
        have : tokens '\n' [x] = [[x]] := tokens_of_not_mem (by simpa using Ne.symm hx) (by simp)
        rw [this]
        simp [save, normalise_trailing_newline, hx]
      | cons y r =>
        rw [normalise_cons_cons]
        by_cases hy : y = '\n'
        · subst hy
          have e : x :: '\n' :: r = [x] ++ '\n' :: r := rfl
          rw [e, tokens_append_sep (by simpa using Ne.symm hx) (by simp), save]
          have := ih1 r rfl
          rw [tokens_cons_self] at this
          rw [this]
          cases r with
          | nil => simp [normalise_trailing_newline]
          | cons z r2 =>
            rw [normalise_cons_cons]
            rfl
        · obtain ⟨t, ts, h1, h2⟩ := tokens_cons_cons_ne hx hy r
          have := ih2 (by simpa using hy)
          rw [h1] at this
          rw [h2, ← this]
          simp [save]

/-- C6 (amended): for every file content without a NUL byte and without an
empty line (it does not begin with a newline and has no two consecutive
newlines), `load` followed by `save` writes back the content with its trailing
newline normalised; lines of blanks and comment lines are such non-empty
lines and reappear verbatim. -/
theorem load_save_roundtrip (content : Str) (hnul : '\x00' ∉ content)
    (hhead : content.head? ≠ some '\n') (hdouble : ¬ ['\n', '\n'] <:+: content) :
    save (load content) = normalise_trailing_newline content := by
  rw [load_of_no_nul hnul]
  exact (save_tokens_no_double content hdouble).2 hhead

/-- C6 (witness): a file with a comment line, a line of blanks and no final
newline. -/
theorem load_save_roundtrip_witness :
    save (load "# users\n  \nalice|pw|1|".toList) = "# users\n  \nalice|pw|1|\n".toList :=
  load_save_roundtrip "# users\n  \nalice|pw|1|".toList (by decide) (by decide)
    (by decide)

/-- C6 (counterexample): an empty line between two rows is dropped by `load`,
so `save` does not write the normalised content back. -/
theorem load_save_drops_empty_line :
    save (load "a|b|1|\n\nc|d|1|\n".toList) = "a|b|1|\nc|d|1|\n".toList ∧
      save (load "a|b|1|\n\nc|d|1|\n".toList) ≠
        normalise_trailing_newline "a|b|1|\n\nc|d|1|\n".toList := by
  decide

/-! ## find_row -/

theorem find_row_some {ls : List Str} {key : Str} {kf i : Nat}
    (h : find_row ls key kf = some i) :
    i < ls.length ∧ row_matches key kf (ls.getD i []) = true ∧
      ∀ j, j < i → row_matches key kf (ls.getD j []) = false := by
  induction ls generalizing i with
  | nil => simp [find_row] at h
  | cons l ls ih =>
    simp only [find_row] at h
    split at h
    · rename_i hm
      simp only [Option.some.injEq] at h
      subst h
      simp [hm]
    · rename_i hm
      simp only [Option.map_eq_some'] at h
      obtain ⟨k, hk, rfl⟩ := h
      obtain ⟨h1, h2, h3⟩ := ih hk
      refine ⟨by simp; omega, by simpa using h2, ?_⟩
      intro j hj
      cases j with
      | zero => simpa using hm
      | succ j => simpa using h3 j (by omega)

theorem find_row_none {ls : List Str} {key : Str} {kf : Nat}
    (h : find_row ls key kf = none) : ∀ l ∈ ls, row_matches key kf l = false := by
  induction ls with
  | nil => simp
  | cons l ls ih =>
    simp only [find_row] at h
    split at h
    · simp at h
    · rename_i hm
      simp only [Option.map_eq_none'] at h
      intro x hx
      rcases List.mem_cons.mp hx with rfl | hx
      · simpa using hm
      · exact ih h x hx

theorem find_row_eq_some {ls : List Str} {key : Str} {kf i : Nat}
    (hi : i < ls.length) (hm : row_matches key kf (ls.getD i []) = true)
    (hlt : ∀ j, j < i → row_matches key kf (ls.getD j []) = false) :
    find_row ls key kf = some i := by
  induction ls generalizing i with
  | nil => simp at hi
  | cons l ls ih =>
    cases i with
    | zero =>
      simp only [List.getD_cons_zero] at hm
      simp [find_row, hm]
    | succ i =>
      have h0 := hlt 0 (by omega)
      simp only [List.getD_cons_zero] at h0
      have := ih (i := i) (by simpa using hi) (by simpa using hm)
        (fun j hj => by simpa using hlt (j + 1) (by omega))
      simp [find_row, h0, this]

theorem find_row_eq_none {ls : List Str} {key : Str} {kf : Nat}
    (h : ∀ l ∈ ls, row_matches key kf l = false) : find_row ls key kf = none := by
  induction ls with
  | nil => rfl
  | cons l ls ih =>
    simp [find_row, h l (by simp), ih (fun x hx => h x (by simp [hx]))]

theorem getD_set_self {ls : List Str} {i : Nat} (hi : i < ls.length) (x : Str) :
    (ls.set i x).getD i [] = x := by
  simp [List.getD_eq_getElem?_getD, hi]

theorem getD_set_ne {ls : List Str} {i j : Nat} (hij : i ≠ j) (x : Str) :
    (ls.set i x).getD j [] = ls.getD j [] := by
  simp [List.getD_eq_getElem?_getD, List.getElem?_set_ne hij]

theorem find_row_set {ls : List Str} {key : Str} {kf i : Nat} {x : Str}
    (h : find_row ls key kf = some i) (hx : row_matches key kf x = true) :
    find_row (ls.set i x) key kf = some i := by
  obtain ⟨h1, _, h3⟩ := find_row_some h
  apply find_row_eq_some
  · simpa using h1
  · rw [getD_set_self h1]; exact hx
  · intro j hj
    rw [getD_set_ne (by omega)]
    exact h3 j hj

theorem find_row_append_singleton {ls : List Str} {key : Str} {kf : Nat} {x : Str}
    (h : find_row ls key kf = none) (hx : row_matches key kf x = true) :
    find_row (ls ++ [x]) key kf = some ls.length := by
  apply find_row_eq_some
  · simp
  · simp [List.getD_eq_getElem?_getD, hx]
  · intro j hj
    have := find_row_none h (ls.getD j []) (by
      simp [List.getD_eq_getElem?_getD, hj])
    simpa [List.getD_eq_getElem?_getD, List.getElem?_append_left hj] using this

theorem getD_mem {ls : List Str} {i : Nat} (hi : i < ls.length) : ls.getD i [] ∈ ls := by
  simp [List.getD_eq_getElem?_getD, hi]

/-! ## Enrolment refused on a full course -/

/-- C1: when the first non-skip row keyed by `c` has four fields and its
filled count equals its seat limit, `student_enroll` answers `Course full`
and leaves the course file and the student file exactly as they were. -/
theorem enroll_full_refused (courses students user c : Str) (row : Nat)
    (f0 f1 f2 f3 : Str)
    (hrow : find_row (load courses) c 0 = some row)
    (hfld : split_line ((load courses).getD row []) = [f0, f1, f2, f3])
    (hfull : atoi f3 = atoi f2) :
    student_enroll courses students user c = some (Reply.courseFull, courses, students) := by
  unfold student_enroll
  simp only [hrow, hfld]
  simp [hfull]

/-- C1 (witness): `CS101` with two of two seats taken. -/
theorem enroll_full_refused_witness :
    student_enroll "CS101|Systems|2|2\n".toList "alice|pw1|1|CS101\n".toList
        "alice".toList "CS101".toList =
      some (Reply.courseFull, "CS101|Systems|2|2\n".toList, "alice|pw1|1|CS101\n".toList) :=
  enroll_full_refused _ _ _ _ 0 "CS101".toList "Systems".toList "2".toList "2".toList
    (by decide) (by decide) (by decide)

/-! ## Authentication -/

theorem auth_row_iff (u p l : Str) :
    auth_row u p l = true ↔
      is_skip_line l = false ∧ ∃ f0 f1 f2 rest, split_line l = f0 :: f1 :: f2 :: rest ∧
        f0 = u ∧ f1 = p ∧ f2.head? = some '1' := by
  unfold auth_row
  rcases hs : split_line l with _ | ⟨a, _ | ⟨b, _ | ⟨c, r⟩⟩⟩ <;> simp
  intro _
  constructor
  · rintro ⟨h1, h2, h3⟩
    exact ⟨_, _, _, ⟨rfl, rfl, rfl⟩, h1, h2, h3⟩
  · rintro ⟨_, _, _, ⟨rfl, rfl, rfl⟩, h⟩
    exact h

/-- C10 (amended): `auth_file` accepts if and only if some non-skip row has
at least three fields with first field exactly `u`, second field exactly `p`
and a third field whose first character is `1`; the file is not modified. -/
theorem auth_file_accepts_iff (content u p : Str) :
    ((auth_file content u p).1 = true ↔
      ∃ l ∈ load content, is_skip_line l = false ∧
        ∃ f0 f1 f2 rest, split_line l = f0 :: f1 :: f2 :: rest ∧
          f0 = u ∧ f1 = p ∧ f2.head? = some '1') ∧
      (auth_file content u p).2 = content := by
  refine ⟨?_, rfl⟩
  simp only [auth_file, List.any_eq_true]
  constructor
  · rintro ⟨l, hl, h⟩
    exact ⟨l, hl, (auth_row_iff u p l).mp h⟩
  · rintro ⟨l, hl, h⟩
    exact ⟨l, hl, (auth_row_iff u p l).mpr h⟩

/-- C10 (counterexample): a row whose third field is `10` is accepted,
although no row has a third field equal to `1`. -/
theorem auth_file_accepts_flag_prefix :
    (auth_file "alice|pw1|10|\n".toList "alice".toList "pw1".toList).1 = true ∧
      ¬ ∃ l ∈ load "alice|pw1|10|\n".toList, is_skip_line l = false ∧
        ∃ f0 f1 f2 rest, split_line l = f0 :: f1 :: f2 :: rest ∧
          f0 = "alice".toList ∧ f1 = "pw1".toList ∧ f2 = ['1'] := by
  refine ⟨by decide, ?_⟩
  rintro ⟨l, hl, -, f0, f1, f2, rest, hs, -, -, h2⟩
  have e : load "alice|pw1|10|\n".toList = ["alice|pw1|10|".toList] := by decide
  rw [e, List.mem_singleton] at hl
  subst hl
  have e2 : split_line "alice|pw1|10|".toList = ["alice".toList, "pw1".toList, "10".toList] := by
    decide
  rw [e2] at hs
  simp only [List.cons.injEq] at hs
  rw [← hs.2.2.1] at h2
  exact absurd h2 (by decide)

/-! ## Rows -/

theorem is_skip_line_key (u rest : Str) :
    is_skip_line (u ++ '|' :: rest) = is_comment_key u := by
  induction u with
  | nil => simp [is_skip_line, is_comment_key, is_blank]
  | cons c cs ih =>
    by_cases hc : is_blank c = true
    · simp only [is_skip_line, is_comment_key, List.cons_append, List.dropWhile_cons, hc,
        if_true] at ih ⊢
      exact ih
    · simp [is_skip_line, is_comment_key, List.dropWhile_cons, hc]

theorem take_append_sep {n : Nat} {a : Str} (h : a.length < n) (x : Char) (r : Str) :
    (a ++ x :: r).take n = a ++ x :: r.take (n - a.length - 1) := by
  rw [List.take_append_eq_append_take, List.take_of_length_le (by omega)]
  congr 1
  obtain ⟨k, hk⟩ : ∃ k, n - a.length = k + 1 := ⟨n - a.length - 1, by omega⟩
  rw [hk, List.take_succ_cons]
  simp

theorem split_line_cons {u : Str} (hne : u ≠ []) (hbar : '|' ∉ u) (hlen : u.length < MAX_LINE)
    (rest : Str) :
    ∃ r, split_line (u ++ '|' :: rest) = u :: r := by
  unfold split_line
  rw [take_append_sep hlen, tokens_append_sep hbar hne]
  exact ⟨_, List.take_succ_cons⟩

theorem split_line_of_short {s : Str} (h : s.length ≤ MAX_LINE) :
    split_line s = (tokens '|' s).take 4 := by
  unfold split_line
  rw [List.take_of_length_le h]

theorem row_key_of_row {u : Str} (hne : u ≠ []) (hbar : '|' ∉ u) (hlen : u.length < MAX_LINE)
    (rest : Str) :
    row_key (u ++ '|' :: rest) = none ∨ row_key (u ++ '|' :: rest) = some u := by
  unfold row_key
  obtain ⟨r, hr⟩ := split_line_cons hne hbar hlen rest
  split
  · exact Or.inl rfl
  · exact Or.inr (by simp [hr])

theorem row_matches_iff (key line : Str) :
    row_matches key 0 line = true ↔ row_key line = some key := by
  unfold row_matches row_key
  cases hs : split_line line with
  | nil => cases is_skip_line line <;> simp
  | cons a r => cases is_skip_line line <;> simp

theorem tokens_ne_nil {d : Char} {p : Str} (h : ∃ c ∈ p, c ≠ d) : tokens d p ≠ [] := by
  induction p with
  | nil => simp at h
  | cons x r ih =>
    by_cases hx : x = d
    · subst hx
      rw [tokens_cons_self]
      apply ih
      obtain ⟨c, hc, hcd⟩ := h
      rcases List.mem_cons.mp hc with e | e
      · exact absurd e hcd
      · exact ⟨c, e, hcd⟩
    · obtain ⟨t, ts, _, h2⟩ := splitOn_cons_ne hx r
      simp [tokens, h2]

/-! ## Decimal output -/

theorem digitChar_mem (n : Nat) : digitChar n ∈ "0123456789".toList := by
  unfold digitChar
  split <;> decide

theorem fmt_u_aux_chars (fuel n : Nat) : ∀ c ∈ fmt_u_aux fuel n, c ∈ "0123456789".toList := by
  induction fuel generalizing n with
  | zero => simp [fmt_u_aux]
  | succ f ih =>
    intro c hc
    simp only [fmt_u_aux] at hc
    split at hc
    · simp only [List.mem_singleton] at hc
      subst hc; exact digitChar_mem n
    · rcases List.mem_append.mp hc with h | h
      · exact ih _ c h
      · simp only [List.mem_singleton] at h
        subst h; exact digitChar_mem _

theorem fmt_d_chars (n : Int) : ∀ c ∈ fmt_d n, c ∈ "-0123456789".toList := by
  intro c hc
  unfold fmt_d at hc
  have key : ∀ x ∈ "0123456789".toList, x ∈ "-0123456789".toList := by decide
  split at hc
  · rcases List.mem_cons.mp hc with h | h
    · subst h; decide
    · exact key _ (fmt_u_aux_chars _ _ c h)
  · exact key _ (fmt_u_aux_chars _ _ c hc)

theorem fmt_u_aux_ne_nil (fuel n : Nat) : fmt_u_aux (fuel + 1) n ≠ [] := by
  simp only [fmt_u_aux]
  split <;> simp

theorem fmt_d_ne_nil (n : Int) : fmt_d n ≠ [] := by
  unfold fmt_d
  split
  · simp
  · exact fmt_u_aux_ne_nil _ _

theorem fmt_d_not_mem {c : Char} (h : c ∉ "-0123456789".toList) (n : Int) : c ∉ fmt_d n :=
  fun hc => h (fmt_d_chars n c hc)

/-! ## Adding a user -/

theorem admin_add_refuses {c1 u : Str} (p2 : Str) {i : Nat}
    (h1 : find_row (load c1) u 0 = some i)
    (h2 : 3 ≤ (split_line ((load c1).getD i [])).length) :
    admin_add c1 u p2 = (Reply.userExists, c1) := by
  simp only [admin_add, h1, h2, if_true]

theorem isLine_user_row {u p : Str} (hu : Received u) (hp : Received p) :
    IsLine (user_row u p) := by
  refine ⟨by simp [user_row], ?_, ?_⟩
  · simp only [user_row, List.mem_append, List.mem_cons, not_or]
    exact ⟨hu.1, by decide, hp.1, by decide⟩
  · simp only [user_row, List.mem_append, List.mem_cons, not_or]
    exact ⟨hu.2, by decide, hp.2, by decide⟩

theorem user_row_length (u p : Str) : (user_row u p).length = u.length + p.length + 4 := by
  simp [user_row]; omega

theorem snprintf_of_short {n : Nat} {s : Str} (h : s.length < n) : snprintf n s = s := by
  unfold snprintf
  exact List.take_of_length_le (by omega)

theorem user_row_matches {u : Str} (p : Str) (hne : u ≠ []) (hbar : '|' ∉ u)
    (hkey : is_comment_key u = false) (hlen : u.length < MAX_LINE) :
    row_matches u 0 (user_row u p) = true := by
  rw [row_matches_iff]
  unfold row_key user_row
  rw [is_skip_line_key, hkey]
  obtain ⟨r, hr⟩ := split_line_cons hne hbar hlen (p ++ ['|', '1', '|'])
  simp [hr]

theorem user_row_fields {u p : Str} (hne : u ≠ []) (hbar : '|' ∉ u)
    (hpw : ∃ c ∈ p, c ≠ '|') (hlen : u.length + p.length + 4 ≤ MAX_LINE) :
    3 ≤ (split_line (user_row u p)).length := by
  rw [split_line_of_short (by rw [user_row_length]; exact hlen)]
  unfold user_row
  rw [tokens_append_sep hbar hne, tokens_append_cons]
  have h1 := tokens_ne_nil hpw
  cases ht : tokens '|' p with
  | nil => exact absurd ht h1
  | cons t ts =>
    have : tokens '|' ['1', '|'] = [['1']] := by decide
    rw [this]
    simp

theorem isLine_set {ls : List Str} {i : Nat} {x : Str} (h : ∀ l ∈ ls, IsLine l)
    (hx : IsLine x) : ∀ l ∈ ls.set i x, IsLine l := by
  intro l hl
  rcases List.mem_or_eq_of_mem_set hl with h1 | h1
  · exact h l h1
  · exact h1 ▸ hx

theorem load_save_set {content : Str} {i : Nat} {x : Str} (hx : IsLine x) :
    load (save ((load content).set i x)) = (load content).set i x :=
  load_save (isLine_set (fun _ hl => isLine_of_mem_load hl) hx)

theorem admin_add_append_eq (content u p : Str) :
    content ++ (u ++ '|' :: (p ++ ['|', '1', '|', '\n'])) =
      content ++ (user_row u p ++ ['\n']) := by
  simp [user_row]

/-- C8 (amended): on a NUL-free user file that is empty or ends with a
newline, for a non-empty username without `|` that does not make the row a
comment line, and a password holding a character other than `|` (both as
received into their 64-byte buffers): if `admin_add u p` answers `[OK] Added`,
an immediately following `admin_add u p2` answers `User already exists` and
leaves the file unchanged. -/
theorem add_user_twice (content u p p2 : Str) (hterm : Terminated content)
    (hu : Received u) (hp : Received p) (hne : u ≠ []) (hbar : '|' ∉ u)
    (hkey : is_comment_key u = false) (hpw : ∃ c ∈ p, c ≠ '|')
    (hul : u.length < 64) (hpl : p.length < 64)
    (hok : (admin_add content u p).1 = Reply.added) :
    admin_add (admin_add content u p).2 u p2 =
      (Reply.userExists, (admin_add content u p).2) := by
  have hlen : u.length < MAX_LINE := by unfold MAX_LINE; omega
  have hrl : (user_row u p).length < MAX_LINE := by
    rw [user_row_length]; unfold MAX_LINE; omega
  have hm := user_row_matches p hne hbar hkey hlen
  have hf := user_row_fields hne hbar hpw (by unfold MAX_LINE; omega)
  have hline := isLine_user_row hu hp
  cases hfind : find_row (load content) u 0 with
  | none =>
    have e1 : (admin_add content u p).2 = content ++ (user_row u p ++ ['\n']) := by
      simp [admin_add, hfind, user_row]
    have e2 : load (admin_add content u p).2 = load content ++ [user_row u p] := by
      rw [e1]; exact load_append_row hterm hline
    have e3 := find_row_append_singleton hfind hm
    have e4 : (load content ++ [user_row u p]).getD (load content).length [] = user_row u p := by
      simp [List.getD_eq_getElem?_getD]
    apply admin_add_refuses p2 (i := (load content).length)
    · rw [e2]; exact e3
    · rw [e2, e4]; exact hf
  | some i =>
    obtain ⟨hi, _, _⟩ := find_row_some hfind
    by_cases hk : 3 ≤ (split_line ((load content).getD i [])).length
    · simp only [admin_add, hfind, hk, if_true] at hok
      exact absurd hok (by decide)
    · have e1 : (admin_add content u p).2 = save ((load content).set i (user_row u p)) := by
        have := snprintf_of_short hrl
        unfold user_row at this
        simp only [admin_add, hfind, hk, if_false, this]
        rfl
      have e2 : load (admin_add content u p).2 = (load content).set i (user_row u p) := by
        rw [e1]; exact load_save_set hline
      have e3 := find_row_set hfind hm
      have e4 := getD_set_self hi (user_row u p)
      apply admin_add_refuses p2 (i := i)
      · rw [e2]; exact e3
      · rw [e2, e4]; exact hf

/-- C8 (witness): adding `alice` to an empty student file. -/
theorem add_user_twice_witness :
    admin_add (admin_add [] "alice".toList "pw1".toList).2 "alice".toList "pw2".toList =
      (Reply.userExists, "alice|pw1|1|\n".toList) :=
  add_user_twice [] "alice".toList "pw1".toList "pw2".toList (by decide)
    (by decide) (by decide) (by decide) (by decide) (by decide) ⟨'p', by decide, by decide⟩
    (by decide) (by decide) (by decide)

/-- C8 (counterexample): with an empty username both calls answer `[OK] Added`
and the second one changes the file: the row `|pw1|1|` is keyed by `pw1`. -/
theorem add_user_twice_empty_name :
    (admin_add [] [] "pw1".toList).1 = Reply.added ∧
      admin_add (admin_add [] [] "pw1".toList).2 [] "pw2".toList =
        (Reply.added, "|pw1|1|\n|pw2|1|\n".toList) ∧
      (admin_add [] [] "pw1".toList).2 = "|pw1|1|\n".toList := by
  decide

/-- C9 (failing input): on a user file whose last line has no newline,
`admin_add` writes the new row right after the last byte: the file then holds
one line, the old row followed by the text of the new one, and no row keyed
by the new username. -/
theorem add_user_glued_to_last_line :
    admin_add "alice|pw1|1|".toList "bob".toList "pw2".toList =
        (Reply.added, "alice|pw1|1|bob|pw2|1|\n".toList) ∧
      load "alice|pw1|1|bob|pw2|1|\n".toList = ["alice|pw1|1|bob|pw2|1|".toList] ∧
      find_row (load "alice|pw1|1|bob|pw2|1|\n".toList) "bob".toList 0 = none := by
  decide

/-! ## Key uniqueness -/

theorem mem_filterMap_set {f : Str → Option Str} {ls : List Str} {i : Nat} {x : Str}
    (hi : i < ls.length) (hx : f x = none ∨ f x = f (ls.getD i [])) :
    ∀ k ∈ (ls.set i x).filterMap f, k ∈ ls.filterMap f := by
  intro k hk
  rw [List.mem_filterMap] at hk ⊢
  obtain ⟨a, ha, hfa⟩ := hk
  rcases List.mem_or_eq_of_mem_set ha with h | h
  · exact ⟨a, h, hfa⟩
  · subst h
    rcases hx with h0 | h0
    · rw [h0] at hfa; exact absurd hfa (by simp)
    · exact ⟨ls.getD i [], getD_mem hi, by rw [← h0]; exact hfa⟩

theorem nodup_filterMap_set {f : Str → Option Str} {ls : List Str} {i : Nat} {x : Str}
    (h : (ls.filterMap f).Nodup) (hi : i < ls.length)
    (hx : f x = none ∨ f x = f (ls.getD i [])) :
    ((ls.set i x).filterMap f).Nodup := by
  induction ls generalizing i with
  | nil => simp at hi
  | cons l ls ih =>
    cases i with
    | zero =>
      simp only [List.set_cons_zero, List.getD_cons_zero] at hx ⊢
      rcases hx with h0 | h0
      · rw [List.filterMap_cons, h0]
        rw [List.filterMap_cons] at h
        cases hl : f l with
        | none => rw [hl] at h; exact h
        | some k => rw [hl] at h; exact (List.nodup_cons.mp h).2
      · rw [List.filterMap_cons, h0]
        rw [List.filterMap_cons] at h
        exact h
    | succ i =>
      have hi2 : i < ls.length := by simpa using hi
      have hx2 : f x = none ∨ f x = f (ls.getD i []) := by simpa using hx
      rw [List.set_cons_succ, List.filterMap_cons]
      rw [List.filterMap_cons] at h
      cases hl : f l with
      | none =>
        rw [hl] at h
        exact ih h hi2 hx2
      | some k =>
        rw [hl] at h
        simp only
        obtain ⟨h1, h2⟩ := List.nodup_cons.mp h
        exact List.nodup_cons.mpr
          ⟨fun hm => h1 (mem_filterMap_set hi2 hx2 k hm), ih h2 hi2 hx2⟩

theorem nodup_filterMap_append_row {ls : List Str} {key row : Str}
    (h : (ls.filterMap row_key).Nodup) (hfind : find_row ls key 0 = none)
    (hrow : row_key row = none ∨ row_key row = some key) :
    ((ls ++ [row]).filterMap row_key).Nodup := by
  rw [List.filterMap_append]
  rcases hrow with h0 | h0
  · simpa [List.filterMap_cons, h0] using h
  · simp only [List.filterMap_cons, h0, List.filterMap_nil]
    rw [List.nodup_append]
    refine ⟨h, by simp, ?_⟩
    intro a ha hb
    simp only [List.mem_singleton] at hb
    subst hb
    rw [List.mem_filterMap] at ha
    obtain ⟨l, hl, hk⟩ := ha
    have := find_row_none hfind l hl
    rw [← row_matches_iff] at hk
    rw [hk] at this
    exact absurd this (by simp)

theorem isLine_fmt4 {a b c d : Str} (ha : Received a) (hb : Received b) (hc : Received c)
    (hd : Received d) : IsLine (fmt4 a b c d) := by
  refine ⟨by simp [fmt4], ?_, ?_⟩
  · simp only [fmt4, List.mem_append, List.mem_cons, not_or]
    exact ⟨ha.1, by decide, hb.1, by decide, hc.1, by decide, hd.1⟩
  · simp only [fmt4, List.mem_append, List.mem_cons, not_or]
    exact ⟨ha.2, by decide, hb.2, by decide, hc.2, by decide, hd.2⟩

theorem received_fmt_d (n : Int) : Received (fmt_d n) :=
  ⟨fmt_d_not_mem (by decide) n, fmt_d_not_mem (by decide) n⟩

/-- C7 (amended): key uniqueness is preserved by `admin_add` on a NUL-free
user file that is empty or ends with a newline, for a non-empty username
without `|`, and by `faculty_add_course` for a non-empty course id without
`|` (username, password, id and name as received into their buffers). -/
theorem insert_keeps_keys_unique (content u p : Str) (courses faculty who id name lim : Str)
    (hterm : Terminated content) (hu : Received u) (hp : Received p)
    (hune : u ≠ []) (hubar : '|' ∉ u) (hul : u.length < 64) (hpl : p.length < 64)
    (hid : Received id) (hname : Received name)
    (hine : id ≠ []) (hibar : '|' ∉ id) (hil : id.length < MAX_FIELD)
    (huniq : UniqueKeys content) (hcuniq : UniqueKeys courses) :
    UniqueKeys (admin_add content u p).2 ∧
      UniqueKeys (faculty_add_course courses faculty who id name lim).2.1 := by
  constructor
  · have hlen : u.length < MAX_LINE := by unfold MAX_LINE; omega
    have hrl : (user_row u p).length < MAX_LINE := by
      rw [user_row_length]; unfold MAX_LINE; omega
    have hline := isLine_user_row hu hp
    have hkey : row_key (user_row u p) = none ∨ row_key (user_row u p) = some u :=
      row_key_of_row hune hubar hlen _
    unfold UniqueKeys at huniq ⊢
    cases hfind : find_row (load content) u 0 with
    | none =>
      have e1 : (admin_add content u p).2 = content ++ (user_row u p ++ ['\n']) := by
        simp [admin_add, hfind, user_row]
      rw [e1, load_append_row hterm hline]
      exact nodup_filterMap_append_row huniq hfind hkey
    | some i =>
      obtain ⟨hi, hm, _⟩ := find_row_some hfind
      by_cases hk : 3 ≤ (split_line ((load content).getD i [])).length
      · simp only [admin_add, hfind, hk, if_true]
        exact huniq
      · have e1 : (admin_add content u p).2 = save ((load content).set i (user_row u p)) := by
          have := snprintf_of_short hrl
          unfold user_row at this
          simp only [admin_add, hfind, hk, if_false, this]
          rfl
        rw [e1, load_save_set hline]
        apply nodup_filterMap_set huniq hi
        rw [(row_matches_iff _ _).mp hm]
        exact hkey
  · unfold UniqueKeys at hcuniq ⊢
    cases hfind : find_row (load courses) id 0 with
    | some i =>
      simp only [faculty_add_course, hfind]
      rw [save_load_save]
      exact hcuniq
    | none =>
      simp only [faculty_add_course, hfind]
      have hline : IsLine (fmt4 id name (fmt_d (atoi lim)) ['0']) :=
        isLine_fmt4 hid hname (received_fmt_d _) (by decide)
      have hall : ∀ l ∈ load courses ++ [fmt4 id name (fmt_d (atoi lim)) ['0']], IsLine l := by
        intro l hl
        rcases List.mem_append.mp hl with h | h
        · exact isLine_of_mem_load h
        · simp only [List.mem_singleton] at h
          exact h ▸ hline
      rw [load_save hall]
      apply nodup_filterMap_append_row hcuniq hfind
      exact row_key_of_row hine hibar (by unfold MAX_FIELD at hil; unfold MAX_LINE; omega) _

/-- C7 (witness): adding `bob` next to `alice`, and course `CS102` next to
`CS101`. -/
theorem insert_keeps_keys_unique_witness :
    UniqueKeys (admin_add "alice|pw1|1|\n".toList "bob".toList "pw2".toList).2 ∧
      UniqueKeys (faculty_add_course "CS101|Systems|2|0\n".toList "carol|pw|1|\n".toList
        "carol".toList "CS102".toList "Networks".toList "30\n".toList).2.1 :=
  insert_keeps_keys_unique "alice|pw1|1|\n".toList "bob".toList "pw2".toList
    "CS101|Systems|2|0\n".toList "carol|pw|1|\n".toList "carol".toList "CS102".toList
    "Networks".toList "30\n".toList (by decide) (by decide) (by decide) (by decide)
    (by decide) (by decide) (by decide) (by decide) (by decide) (by decide) (by decide)
    (by decide) (by decide) (by decide)

/-- C7 (counterexample): a username holding `|`, or an empty username, is not
found by the scan, and the appended row is keyed by an existing username. -/
theorem insert_breaks_key_uniqueness :
    UniqueKeys "alice|pw1|1|\n".toList ∧
      ¬ UniqueKeys (admin_add "alice|pw1|1|\n".toList "alice|x".toList "pw2".toList).2 ∧
      ¬ UniqueKeys (admin_add "alice|pw1|1|\n".toList [] "alice".toList).2 := by
  decide

/-! ## Decimal input and output -/

theorem digit_roundtrip {k : Nat} (h : k < 10) :
    isdigit (digitChar k) = true ∧ digitVal (digitChar k) = k := by
  interval_cases k <;> exact ⟨by decide, by decide⟩

theorem strtol_digits_fmt_u_aux (fuel : Nat) :
    ∀ (n acc : Nat) (rest : Str), n < fuel →
      strtol_digits acc (fmt_u_aux fuel n ++ rest) =
        strtol_digits (acc * 10 ^ (fmt_u_aux fuel n).length + n) rest := by
  induction fuel with
  | zero => intro n acc rest h; omega
  | succ f ih =>
    intro n acc rest h
    simp only [fmt_u_aux]
    split
    · rename_i h10
      obtain ⟨h1, h2⟩ := digit_roundtrip h10
      simp [strtol_digits, h1, h2]
    · rename_i h10
      have hlt : n / 10 < f := by omega
      have hmod : n % 10 < 10 := Nat.mod_lt _ (by decide)
      obtain ⟨h1, h2⟩ := digit_roundtrip hmod
      rw [List.append_assoc, ih _ _ _ hlt]
      simp only [List.singleton_append, strtol_digits, h1, if_true, h2, List.length_append,
        List.length_singleton, pow_succ]
      congr 1
      have := Nat.div_add_mod n 10
      nlinarith [this]

theorem strtol_digits_fmt_u (n : Nat) : strtol_digits 0 (fmt_u n) = n := by
  have := strtol_digits_fmt_u_aux (n + 1) n 0 [] (by omega)
  simpa [fmt_u, strtol_digits] using this

theorem fmt_u_head (n : Nat) : ∃ c r, fmt_u n = c :: r ∧ isdigit c = true := by
  have hne : fmt_u n ≠ [] := fmt_u_aux_ne_nil _ _
  cases h : fmt_u n with
  | nil => exact absurd h hne
  | cons c r =>
    refine ⟨c, r, rfl, ?_⟩
    have hc : c ∈ "0123456789".toList := fmt_u_aux_chars (n + 1) n c (by
      have : c ∈ fmt_u n := by rw [h]; simp
      exact this)
    have key : ∀ x ∈ "0123456789".toList, isdigit x = true := by decide
    exact key c hc

theorem isdigit_not_space {c : Char} (h : isdigit c = true) :
    isspace c = false ∧ c ≠ '-' ∧ c ≠ '+' := by
  refine ⟨?_, ?_, ?_⟩
  · cases hs : isspace c with
    | false => rfl
    | true =>
      simp only [isspace, Bool.or_eq_true, decide_eq_true_eq] at hs
      rcases hs with ((((h1 | h1) | h1) | h1) | h1) | h1 <;> (subst h1; exact absurd h (by decide))
  · intro e; subst e; exact absurd h (by decide)
  · intro e; subst e; exact absurd h (by decide)

theorem strtol_of_digit {c : Char} {r : Str} (h : isdigit c = true) :
    strtol (c :: r) = max LONG_MIN (min LONG_MAX (strtol_digits 0 (c :: r) : Int)) := by
  obtain ⟨h1, h2, h3⟩ := isdigit_not_space h
  unfold strtol
  simp only [List.dropWhile_cons, h1, Bool.false_eq_true, if_false]
  split
  · rename_i heq; simp only [List.cons.injEq] at heq; exact absurd heq.1 h2
  · rename_i heq; simp only [List.cons.injEq] at heq; exact absurd heq.1 h3
  · rfl

theorem strtol_of_minus (r : Str) :
    strtol ('-' :: r) = max LONG_MIN (min LONG_MAX (-(strtol_digits 0 r : Int))) := by
  unfold strtol
  have : isspace '-' = false := by decide
  simp only [List.dropWhile_cons, this, Bool.false_eq_true, if_false]

/-- `atoi` reads back what `%d` printed, for every value of an `int`. -/
theorem atoi_fmt_d {n : Int} (h1 : -2147483648 ≤ n) (h2 : n < 2147483648) :
    atoi (fmt_d n) = n := by
  unfold atoi fmt_d
  split
  · rename_i hneg
    rw [strtol_of_minus, strtol_digits_fmt_u]
    unfold to_int LONG_MIN LONG_MAX
    have : (n.natAbs : Int) = -n := by omega
    rw [this]
    omega
  · rename_i hpos
    obtain ⟨c, r, hcr, hd⟩ := fmt_u_head n.natAbs
    have e := strtol_digits_fmt_u n.natAbs
    rw [hcr] at e ⊢
    rw [strtol_of_digit hd, e]
    unfold to_int LONG_MIN LONG_MAX
    have : (n.natAbs : Int) = n := by omega
    rw [this]
    omega

theorem atoi_range (s : Str) : -2147483648 ≤ atoi s ∧ atoi s < 2147483648 := by
  unfold atoi to_int
  omega

theorem fmt_u_aux_length (fuel : Nat) :
    ∀ (n k : Nat), n < 10 ^ (k + 1) → (fmt_u_aux fuel n).length ≤ k + 1 := by
  induction fuel with
  | zero => intro n k _; simp [fmt_u_aux]
  | succ f ih =>
    intro n k h
    simp only [fmt_u_aux]
    split
    · simp
    · rename_i h10
      cases k with
      | zero => simp at h; omega
      | succ k =>
        have : n / 10 < 10 ^ (k + 1) := by
          rw [Nat.div_lt_iff_lt_mul (by decide)]
          rw [pow_succ] at h
          exact h
        have := ih (n / 10) k this
        simp only [List.length_append, List.length_singleton]
        omega

theorem fmt_d_length {n : Int} (h1 : -2147483648 ≤ n) (h2 : n < 2147483648) :
    (fmt_d n).length ≤ 11 := by
  have hb : n.natAbs < 10 ^ (9 + 1) := by
    have : n.natAbs ≤ 2147483648 := by omega
    have : (2147483648 : Nat) < 10 ^ (9 + 1) := by norm_num
    omega
  have := fmt_u_aux_length (n.natAbs + 1) n.natAbs 9 hb
  unfold fmt_d fmt_u
  split
  · simp only [List.length_cons]; omega
  · omega

/-! ## Fields -/

theorem split_line_length_le (l : Str) : (split_line l).length ≤ 4 := by
  simp [split_line, List.length_take]

theorem mem_split_line {l f : Str} (h : f ∈ split_line l) :
    f ≠ [] ∧ '|' ∉ f ∧ ∀ c ∈ f, c ∈ l := by
  obtain ⟨h1, h2, h3⟩ := mem_tokens (List.mem_of_mem_take h)
  exact ⟨h1, h2, fun c hc => List.mem_of_mem_take (h3 c hc)⟩

theorem received_of_field {l f : Str} (hl : IsLine l) (h : f ∈ split_line l) : Received f := by
  obtain ⟨_, _, h3⟩ := mem_split_line h
  exact ⟨fun hc => hl.2.1 (h3 _ hc), fun hc => hl.2.2 (h3 _ hc)⟩

theorem isLine_getD_load {content : Str} {i : Nat} (hi : i < (load content).length) :
    IsLine ((load content).getD i []) :=
  isLine_of_mem_load (getD_mem hi)

theorem split_line_fmt4 {a b c d : Str} (ha : a ≠ [] ∧ '|' ∉ a) (hb : b ≠ [] ∧ '|' ∉ b)
    (hc : c ≠ [] ∧ '|' ∉ c) (hd : d ≠ [] ∧ '|' ∉ d)
    (hlen : (fmt4 a b c d).length ≤ MAX_LINE) :
    split_line (fmt4 a b c d) = [a, b, c, d] := by
  rw [split_line_of_short hlen]
  unfold fmt4
  rw [tokens_append_sep ha.2 ha.1, tokens_append_sep hb.2 hb.1, tokens_append_sep hc.2 hc.1,
    tokens_of_not_mem hd.2 hd.1]
  rfl

theorem split_line_fmt4_nil {a b c : Str} (ha : a ≠ [] ∧ '|' ∉ a) (hb : b ≠ [] ∧ '|' ∉ b)
    (hc : c ≠ [] ∧ '|' ∉ c) (hlen : (fmt4 a b c []).length ≤ MAX_LINE) :
    split_line (fmt4 a b c []) = [a, b, c] := by
  rw [split_line_of_short hlen]
  unfold fmt4
  rw [tokens_append_sep ha.2 ha.1, tokens_append_sep hb.2 hb.1, tokens_append_sep hc.2 hc.1,
    tokens_nil]
  rfl

theorem fmt4_length (a b c d : Str) :
    (fmt4 a b c d).length = a.length + b.length + c.length + d.length + 3 := by
  simp [fmt4]; omega

theorem is_skip_line_fmt4 (a b c d : Str) :
    is_skip_line (fmt4 a b c d) = is_comment_key a := by
  unfold fmt4
  exact is_skip_line_key a _

theorem fmt_d_field (n : Int) : fmt_d n ≠ [] ∧ '|' ∉ fmt_d n :=
  ⟨fmt_d_ne_nil n, fmt_d_not_mem (by decide) n⟩

theorem row_matches_of_fields {key : Str} {l : Str} {r : List Str}
    (hs : is_skip_line l = false) (hf : split_line l = key :: r) :
    row_matches key 0 l = true := by
  rw [row_matches_iff]
  simp [row_key, hs, hf]

theorem fields_of_row_matches {key l : Str} (h : row_matches key 0 l = true) :
    is_skip_line l = false ∧ ∃ r, split_line l = key :: r := by
  rw [row_matches_iff] at h
  unfold row_key at h
  split at h
  · exact absurd h (by simp)
  · rename_i hs
    refine ⟨by simpa using hs, ?_⟩
    cases hsl : split_line l with
    | nil => rw [hsl] at h; simp at h
    | cons a r =>
      rw [hsl] at h
      simp only [List.head?_cons, Option.some.injEq] at h
      exact ⟨r, by rw [h]⟩

/-! ## Enrolment -/

theorem received_appended {rest : List Str} {c : Str} (hr : ∀ f ∈ rest, Received f)
    (hc : Received c) : Received (appended rest c) := by
  cases rest with
  | nil => exact hc
  | cons s3 r =>
    have h3 := hr s3 (by simp)
    simp only [appended]
    constructor
    · simp only [List.mem_append, List.mem_cons, not_or]
      exact ⟨h3.1, by decide, hc.1⟩
    · simp only [List.mem_append, List.mem_cons, not_or]
      exact ⟨h3.2, by decide, hc.2⟩

theorem add_to_student_ok {students s c s0 s1 s2 : Str} {rest : List Str} {j : Nat}
    (hsrow : find_row (load students) s 0 = some j)
    (hsfld : split_line ((load students).getD j []) = s0 :: s1 :: s2 :: rest)
    (hc : Received c)
    (hfit : (fmt4 s0 s1 s2 (appended rest c)).length < MAX_LINE) :
    add_to_student students s c =
        some (save ((load students).set j (fmt4 s0 s1 s2 (appended rest c)))) ∧
      load (save ((load students).set j (fmt4 s0 s1 s2 (appended rest c)))) =
        (load students).set j (fmt4 s0 s1 s2 (appended rest c)) := by
  obtain ⟨hj, _, _⟩ := find_row_some hsrow
  have hl := isLine_getD_load hj
  have hrec : ∀ f ∈ s0 :: s1 :: s2 :: rest, Received f := by
    intro f hf
    rw [← hsfld] at hf
    exact received_of_field hl hf
  have hline : IsLine (fmt4 s0 s1 s2 (appended rest c)) :=
    isLine_fmt4 (hrec s0 (by simp)) (hrec s1 (by simp)) (hrec s2 (by simp))
      (received_appended (fun f hf => hrec f (by simp [hf])) hc)
  refine ⟨?_, load_save_set hline⟩
  have hlen4 := split_line_length_le ((load students).getD j [])
  rw [hsfld] at hlen4
  rcases rest with _ | ⟨s3, _ | ⟨s4, r⟩⟩
  · simp only [add_to_student, hsrow, hsfld]
    simp only [appended] at hfit
    simp [appended, snprintf_of_short hfit]
  · have h3 : s3 ≠ [] := by
      have : s3 ∈ split_line ((load students).getD j []) := by rw [hsfld]; simp
      exact (mem_split_line this).1
    have h3l : 0 < s3.length := List.length_pos.mpr h3
    have hlist : (s3 ++ ',' :: c).length < MAX_LIST := by
      rw [fmt4_length] at hfit
      simp only [appended] at hfit
      unfold MAX_LIST
      unfold MAX_LINE at hfit
      omega
    simp only [add_to_student, hsrow, hsfld]
    simp only [appended] at hfit
    simp [appended, h3l, snprintf_of_short hlist, snprintf_of_short hfit]
  · simp at hlen4

theorem enroll_refused_of_full {courses students user c f0 f1 f2 f3 : Str} {row : Nat}
    (hrow : find_row (load courses) c 0 = some row)
    (hfld : split_line ((load courses).getD row []) = [f0, f1, f2, f3])
    (hfull : atoi f2 ≤ atoi f3) :
    student_enroll courses students user c = some (Reply.courseFull, courses, students) := by
  unfold student_enroll
  simp only [hrow, hfld]
  simp [hfull]

theorem course_row_fits {c name : Str} (hfit : c.length + name.length + 25 < MAX_LINE)
    (a b : Str) : (fmt4 c name (fmt_d (atoi a)) (fmt_d (atoi b + 1))).length < MAX_LINE := by
  rw [fmt4_length]
  have h1 := fmt_d_length (atoi_range a).1 (atoi_range a).2
  by_cases hb : atoi b + 1 < 2147483648
  · have h2 := fmt_d_length (n := atoi b + 1) (by have := (atoi_range b).1; omega) hb
    omega
  · have : atoi b + 1 = 2147483648 := by have := (atoi_range b).2; omega
    rw [this]
    have : (fmt_d 2147483648).length = 10 := by decide
    omega

theorem enroll_ok {courses students s c name l f s0 s1 s2 : Str} {rest : List Str} {i j : Nat}
    (hrow : find_row (load courses) c 0 = some i)
    (hfld : split_line ((load courses).getD i []) = [c, name, l, f])
    (hlt : atoi f < atoi l)
    (hsrow : find_row (load students) s 0 = some j)
    (hsfld : split_line ((load students).getD j []) = s0 :: s1 :: s2 :: rest)
    (hfit : c.length + name.length + 25 < MAX_LINE)
    (hsfit : (fmt4 s0 s1 s2 (appended rest c)).length < MAX_LINE) :
    student_enroll courses students s c =
        some (Reply.enrolled,
          save ((load courses).set i (fmt4 c name (fmt_d (atoi l)) (fmt_d (atoi f + 1)))),
          save ((load students).set j (fmt4 s0 s1 s2 (appended rest c)))) ∧
      load (save ((load courses).set i (fmt4 c name (fmt_d (atoi l)) (fmt_d (atoi f + 1))))) =
        (load courses).set i (fmt4 c name (fmt_d (atoi l)) (fmt_d (atoi f + 1))) ∧
      load (save ((load students).set j (fmt4 s0 s1 s2 (appended rest c)))) =
        (load students).set j (fmt4 s0 s1 s2 (appended rest c)) := by
  obtain ⟨hi, _, _⟩ := find_row_some hrow
  have hl := isLine_getD_load hi
  have hrec : ∀ x ∈ [c, name, l, f], Received x := by
    intro x hx
    rw [← hfld] at hx
    exact received_of_field hl hx
  have hc := hrec c (by simp)
  obtain ⟨hs1, hs2⟩ := add_to_student_ok hsrow hsfld hc hsfit
  have hline : IsLine (fmt4 c name (fmt_d (atoi l)) (fmt_d (atoi f + 1))) :=
    isLine_fmt4 hc (hrec name (by simp)) (received_fmt_d _) (received_fmt_d _)
  refine ⟨?_, load_save_set hline, hs2⟩
  unfold student_enroll
  simp only [hrow, hfld]
  simp [hlt, hs1, snprintf_of_short (course_row_fits hfit l f)]

theorem course_row_after {courses c name l f : Str} {i : Nat}
    (hrow : find_row (load courses) c 0 = some i)
    (hfld : split_line ((load courses).getD i []) = [c, name, l, f])
    (hkey : is_comment_key c = false) (a b : Int)
    (hlen : (fmt4 c name (fmt_d a) (fmt_d b)).length < MAX_LINE) :
    find_row ((load courses).set i (fmt4 c name (fmt_d a) (fmt_d b))) c 0 = some i ∧
      split_line (((load courses).set i (fmt4 c name (fmt_d a) (fmt_d b))).getD i []) =
        [c, name, fmt_d a, fmt_d b] := by
  obtain ⟨hi, _, _⟩ := find_row_some hrow
  have hf : ∀ x ∈ [c, name, l, f], x ≠ [] ∧ '|' ∉ x := by
    intro x hx
    rw [← hfld] at hx
    exact ⟨(mem_split_line hx).1, (mem_split_line hx).2.1⟩
  have hsplit : split_line (fmt4 c name (fmt_d a) (fmt_d b)) = [c, name, fmt_d a, fmt_d b] :=
    split_line_fmt4 (hf c (by simp)) (hf name (by simp)) (fmt_d_field a) (fmt_d_field b)
      (by omega)
  refine ⟨find_row_set hrow (row_matches_of_fields ?_ hsplit), ?_⟩
  · rw [is_skip_line_fmt4]; exact hkey
  · rw [getD_set_self hi]; exact hsplit

theorem appended_field {rest : List Str} {c : Str} (hr : ∀ x ∈ rest, x ≠ [] ∧ '|' ∉ x)
    (hc : c ≠ [] ∧ '|' ∉ c) : appended rest c ≠ [] ∧ '|' ∉ appended rest c := by
  cases rest with
  | nil => exact hc
  | cons s3 r =>
    have h3 := hr s3 (by simp)
    simp only [appended]
    refine ⟨by simp, ?_⟩
    simp only [List.mem_append, List.mem_cons, not_or]
    exact ⟨h3.2, by decide, hc.2⟩

theorem student_row_after {students s c s0 s1 s2 : Str} {rest : List Str} {j : Nat}
    (hsrow : find_row (load students) s 0 = some j)
    (hsfld : split_line ((load students).getD j []) = s0 :: s1 :: s2 :: rest)
    (hkey : is_comment_key s = false) (hc : c ≠ [] ∧ '|' ∉ c)
    (hfit : (fmt4 s0 s1 s2 (appended rest c)).length < MAX_LINE) :
    find_row ((load students).set j (fmt4 s0 s1 s2 (appended rest c))) s 0 = some j ∧
      split_line (((load students).set j (fmt4 s0 s1 s2 (appended rest c))).getD j []) =
        [s0, s1, s2, appended rest c] := by
  obtain ⟨hj, hm, _⟩ := find_row_some hsrow
  obtain ⟨_, r, hr⟩ := fields_of_row_matches hm
  have hs0 : s0 = s := by
    rw [hsfld] at hr
    simp only [List.cons.injEq] at hr
    exact hr.1
  subst hs0
  have hf : ∀ x ∈ s0 :: s1 :: s2 :: rest, x ≠ [] ∧ '|' ∉ x := by
    intro x hx
    rw [← hsfld] at hx
    exact ⟨(mem_split_line hx).1, (mem_split_line hx).2.1⟩
  have hsplit : split_line (fmt4 s0 s1 s2 (appended rest c)) = [s0, s1, s2, appended rest c] :=
    split_line_fmt4 (hf s0 (by simp)) (hf s1 (by simp)) (hf s2 (by simp))
      (appended_field (fun x hx => hf x (by simp [hx])) hc) (by omega)
  refine ⟨find_row_set hsrow (row_matches_of_fields ?_ hsplit), ?_⟩
  · rw [is_skip_line_fmt4]; exact hkey
  · rw [getD_set_self hj]; exact hsplit

/-- C2 (amended): when course `c` has a four-field row with seat limit `L`
and filled count `F < L`, the student has a row of at least three fields, and
the rebuilt rows fit their `MAX_LINE` buffers, `student_enroll` answers
`[OK] Enrolled`, the course row becomes `c|name|L|F+1`, the student row keeps
its first three fields and has `c` appended to its comma list (just `c` when
it had none), and every other row of both files is unchanged in content and
order. If moreover neither `c` nor the username turns its row into a comment
line and the student row has room for two entries, then from `F = 0` and
`L = 2` two enrolments succeed, the filled count is 2 and a third one is
answered `Course full`. -/
theorem enroll_appends (courses students s c name l f s0 s1 s2 : Str) (rest : List Str)
    (i j : Nat)
    (hrow : find_row (load courses) c 0 = some i)
    (hfld : split_line ((load courses).getD i []) = [c, name, l, f])
    (hlt : atoi f < atoi l)
    (hsrow : find_row (load students) s 0 = some j)
    (hsfld : split_line ((load students).getD j []) = s0 :: s1 :: s2 :: rest)
    (hfit : c.length + name.length + 25 < MAX_LINE)
    (hsfit : (fmt4 s0 s1 s2 (appended rest c)).length < MAX_LINE) :
    (∃ courses1 students1,
      student_enroll courses students s c = some (Reply.enrolled, courses1, students1) ∧
      load courses1 =
        (load courses).set i (fmt4 c name (fmt_d (atoi l)) (fmt_d (atoi f + 1))) ∧
      load students1 = (load students).set j (fmt4 s0 s1 s2 (appended rest c))) ∧
    (atoi l = 2 → atoi f = 0 → is_comment_key c = false → is_comment_key s = false →
      (fmt4 s0 s1 s2 (appended [appended rest c] c)).length < MAX_LINE →
      ∃ courses1 students1 courses2 students2,
        student_enroll courses students s c = some (Reply.enrolled, courses1, students1) ∧
        student_enroll courses1 students1 s c = some (Reply.enrolled, courses2, students2) ∧
        find_row (load courses2) c 0 = some i ∧
        split_line ((load courses2).getD i []) = [c, name, ['2'], ['2']] ∧
        student_enroll courses2 students2 s c =
          some (Reply.courseFull, courses2, students2)) := by
  obtain ⟨h1, h2, h3⟩ := enroll_ok hrow hfld hlt hsrow hsfld hfit hsfit
  refine ⟨⟨_, _, h1, h2, h3⟩, ?_⟩
  intro hL hF hkc hks hsfit2
  have hcf : c ≠ [] ∧ '|' ∉ c := by
    have : c ∈ split_line ((load courses).getD i []) := by rw [hfld]; simp
    exact ⟨(mem_split_line this).1, (mem_split_line this).2.1⟩
  rw [hL, hF] at h1 h2
  obtain ⟨a1, a2⟩ := course_row_after hrow hfld hkc 2 (0 + 1)
    (by have := course_row_fits hfit l f; rwa [hL, hF] at this)
  obtain ⟨b1, b2⟩ := student_row_after hsrow hsfld hks hcf hsfit
  rw [← h2] at a1 a2
  rw [← h3] at b1 b2
  have hlt2 : atoi (fmt_d (0 + 1)) < atoi (fmt_d 2) := by
    rw [atoi_fmt_d (by norm_num) (by norm_num), atoi_fmt_d (by norm_num) (by norm_num)]
    norm_num
  obtain ⟨k1, k2, _⟩ := enroll_ok a1 a2 hlt2 b1 b2 hfit hsfit2
  rw [atoi_fmt_d (n := 2) (by norm_num) (by norm_num),
    atoi_fmt_d (n := 0 + 1) (by norm_num) (by norm_num)] at k1 k2
  obtain ⟨d1, d2⟩ := course_row_after a1 a2 hkc 2 (0 + 1 + 1)
    (by
      have := course_row_fits hfit (fmt_d 2) (fmt_d (0 + 1))
      rwa [atoi_fmt_d (n := 2) (by norm_num) (by norm_num),
        atoi_fmt_d (n := 0 + 1) (by norm_num) (by norm_num)] at this)
  rw [← k2] at d1 d2
  have e2 : fmt_d 2 = ['2'] := by decide
  have e3 : fmt_d (0 + 1 + 1) = ['2'] := by decide
  refine ⟨_, _, _, _, h1, k1, d1, ?_, ?_⟩
  · rw [d2, e2, e3]
  · exact enroll_refused_of_full d1 d2 (by rw [e2, e3])

/-- C2 (witness): `alice` enrols in `CS101` (limit 2, none taken) three
times. -/
theorem enroll_appends_witness :
    student_enroll "CS101|Systems|2|0\n".toList "alice|pw1|1|\n".toList
        "alice".toList "CS101".toList =
      some (Reply.enrolled, "CS101|Systems|2|1\n".toList, "alice|pw1|1|CS101\n".toList) ∧
    student_enroll "CS101|Systems|2|2\n".toList "alice|pw1|1|CS101,CS101\n".toList
        "alice".toList "CS101".toList =
      some (Reply.courseFull, "CS101|Systems|2|2\n".toList,
        "alice|pw1|1|CS101,CS101\n".toList) := by
  have h := enroll_appends "CS101|Systems|2|0\n".toList "alice|pw1|1|\n".toList
    "alice".toList "CS101".toList "Systems".toList "2".toList "0".toList
    "alice".toList "pw1".toList "1".toList [] 0 0
    (by decide) (by decide) (by decide) (by decide) (by decide) (by decide) (by decide)
  obtain ⟨c1, s1, c2, s2, h1, h2, -, -, h5⟩ :=
    h.2 (by decide) (by decide) (by decide) (by decide) (by decide)
  have e1 : student_enroll "CS101|Systems|2|0\n".toList "alice|pw1|1|\n".toList
      "alice".toList "CS101".toList =
      some (Reply.enrolled, "CS101|Systems|2|1\n".toList, "alice|pw1|1|CS101\n".toList) := by
    decide
  rw [e1] at h1
  simp only [Option.some.injEq, Prod.mk.injEq, true_and] at h1
  obtain ⟨rfl, rfl⟩ := h1
  have e2 : student_enroll "CS101|Systems|2|1\n".toList "alice|pw1|1|CS101\n".toList
      "alice".toList "CS101".toList =
      some (Reply.enrolled, "CS101|Systems|2|2\n".toList,
        "alice|pw1|1|CS101,CS101\n".toList) := by
    decide
  rw [e2] at h2
  simp only [Option.some.injEq, Prod.mk.injEq, true_and] at h2
  obtain ⟨rfl, rfl⟩ := h2
  exact ⟨e1, h5⟩

/-! ## Lengths of fields -/

theorem splitOn_length_sum (d : Char) (s : Str) :
    ((splitOn d s).map List.length).sum + (splitOn d s).length = s.length + 1 := by
  induction s with
  | nil => simp [splitOn]
  | cons c cs ih =>
    by_cases hc : c = d
    · subst hc
      rw [splitOn_cons_self]
      simp only [List.map_cons, List.sum_cons, List.length_cons, List.length_nil]
      omega
    · obtain ⟨t, ts, h1, h2⟩ := splitOn_cons_ne hc cs
      rw [h1] at ih
      rw [h2]
      simp only [List.map_cons, List.sum_cons, List.length_cons] at ih ⊢
      omega

theorem filter_length_sum (p : Str → Bool) (ls : List Str) :
    ((ls.filter p).map List.length).sum + (ls.filter p).length ≤
      (ls.map List.length).sum + ls.length := by
  induction ls with
  | nil => simp
  | cons l ls ih =>
    rw [List.filter_cons]
    split
    · simp only [List.map_cons, List.sum_cons, List.length_cons]; omega
    · simp only [List.map_cons, List.sum_cons, List.length_cons]; omega

theorem take_length_sum (n : Nat) (ls : List Str) :
    ((ls.take n).map List.length).sum + (ls.take n).length ≤
      (ls.map List.length).sum + ls.length := by
  induction ls generalizing n with
  | nil => simp
  | cons l ls ih =>
    cases n with
    | zero => simp
    | succ n =>
      have := ih n
      simp only [List.take_succ_cons, List.map_cons, List.sum_cons, List.length_cons]
      omega

theorem split_line_length_sum (l : Str) :
    ((split_line l).map List.length).sum + (split_line l).length ≤ l.length + 1 ∧
      ((split_line l).map List.length).sum + (split_line l).length ≤ MAX_LINE + 1 := by
  have h1 := take_length_sum 4 (tokens '|' (l.take MAX_LINE))
  have h2 := filter_length_sum (fun t => !t.isEmpty) (splitOn '|' (l.take MAX_LINE))
  have h3 := splitOn_length_sum '|' (l.take MAX_LINE)
  have h4 : (l.take MAX_LINE).length ≤ l.length := by simp [List.length_take]
  have h5 : (l.take MAX_LINE).length ≤ MAX_LINE := by simp [List.length_take]
  unfold split_line
  unfold tokens at h1 ⊢
  omega

theorem fields4_length {l f0 f1 f2 f3 : Str} (h : split_line l = [f0, f1, f2, f3]) :
    f0.length + f1.length + f2.length + f3.length + 3 ≤ l.length ∧
      f0.length + f1.length + f2.length + f3.length + 3 ≤ MAX_LINE ∧
      0 < f0.length ∧ 0 < f1.length ∧ 0 < f2.length ∧ 0 < f3.length := by
  have := split_line_length_sum l
  rw [h] at this
  simp only [List.map_cons, List.map_nil, List.sum_cons, List.sum_nil, List.length_cons,
    List.length_nil] at this
  have hne : ∀ x ∈ [f0, f1, f2, f3], 0 < x.length := by
    intro x hx
    rw [← h] at hx
    exact List.length_pos.mpr (mem_split_line hx).1
  have a0 := hne f0 (by simp)
  have a1 := hne f1 (by simp)
  have a2 := hne f2 (by simp)
  have a3 := hne f3 (by simp)
  omega

/-! ## Case analysis of the student operations -/

theorem split_line_four {l : Str} (h : ¬ (split_line l).length < 4) :
    ∃ f0 f1 f2 f3, split_line l = [f0, f1, f2, f3] := by
  have := split_line_length_le l
  rcases hs : split_line l with _ | ⟨a, _ | ⟨b, _ | ⟨c, _ | ⟨d, _ | ⟨e, r⟩⟩⟩⟩⟩ <;>
    rw [hs] at h this <;> simp at h this
  exact ⟨a, b, c, d, rfl⟩

theorem enroll_courses_cases {courses students user cid c1 s1 : Str} {r : Reply}
    (h : student_enroll courses students user cid = some (r, c1, s1)) :
    (c1 = courses ∧ s1 = students ∧
        (r = Reply.courseNotFound ∧ find_row (load courses) cid 0 = none ∨
          r = Reply.courseFull)) ∨
      ∃ i f0 f1 f2 f3, find_row (load courses) cid 0 = some i ∧
        split_line ((load courses).getD i []) = [f0, f1, f2, f3] ∧ atoi f3 < atoi f2 ∧
        r = Reply.enrolled ∧ add_to_student students user cid = some s1 ∧
        c1 = save ((load courses).set i
          (snprintf MAX_LINE (fmt4 f0 f1 (fmt_d (atoi f2)) (fmt_d (atoi f3 + 1))))) := by
  unfold student_enroll at h
  cases hfind : find_row (load courses) cid 0 with
  | none =>
    simp only [hfind, Option.some.injEq, Prod.mk.injEq] at h
    exact Or.inl ⟨h.2.1.symm, h.2.2.symm, Or.inl ⟨h.1.symm, rfl⟩⟩
  | some i =>
    simp only [hfind] at h
    by_cases hk : (split_line ((load courses).getD i [])).length < 4
    · simp [hk, -List.getD_eq_getElem?_getD] at h
    · obtain ⟨f0, f1, f2, f3, hf⟩ := split_line_four hk
      simp only [hf, List.length_cons, List.length_nil, List.getD_cons_succ,
        List.getD_cons_zero] at h
      by_cases hfull : atoi f3 ≥ atoi f2
      · simp only [hfull, if_true, Option.some.injEq, Prod.mk.injEq] at h
        simp at h
        exact Or.inl ⟨h.2.1.symm, h.2.2.symm, Or.inr h.1.symm⟩
      · cases hs : add_to_student students user cid with
        | none => simp [hfull, hs] at h
        | some s2 =>
          simp [hfull, hs] at h
          exact Or.inr ⟨i, f0, f1, f2, f3, rfl, hf, by omega, h.1.symm, by rw [h.2.2],
            h.2.1.symm⟩

theorem release_seat_cases {courses cid c1 : Str} (h : release_seat courses cid = some c1) :
    (find_row (load courses) cid 0 = none ∧ c1 = save (load courses)) ∨
      ∃ i f0 f1 f2 f3, find_row (load courses) cid 0 = some i ∧
        split_line ((load courses).getD i []) = [f0, f1, f2, f3] ∧
        c1 = save ((load courses).set i (snprintf MAX_LINE
          (fmt4 f0 f1 f2 (fmt_d (if atoi f3 > 0 then atoi f3 - 1 else atoi f3))))) := by
  unfold release_seat at h
  cases hfind : find_row (load courses) cid 0 with
  | none =>
    simp only [hfind, Option.some.injEq] at h
    exact Or.inl ⟨rfl, h.symm⟩
  | some i =>
    simp only [hfind] at h
    by_cases hk : (split_line ((load courses).getD i [])).length < 4
    · simp [hk, -List.getD_eq_getElem?_getD] at h
    · obtain ⟨f0, f1, f2, f3, hf⟩ := split_line_four hk
      simp only [hf, List.length_cons, List.length_nil, List.getD_cons_succ,
        List.getD_cons_zero] at h
      simp at h
      exact Or.inr ⟨i, f0, f1, f2, f3, rfl, hf, h.symm⟩

theorem unenroll_cases {courses students user cid c1 s1 : Str} {r : Reply}
    (h : student_unenroll courses students user cid = some (r, c1, s1)) :
    (c1 = courses ∧ s1 = students ∧ r ≠ Reply.unenrolled) ∨
      ∃ j s0 sf1 s2 s3, find_row (load students) user 0 = some j ∧
        split_line ((load students).getD j []) = [s0, sf1, s2, s3] ∧
        cid ∈ tokens ',' s3 ∧ r = Reply.unenrolled ∧ release_seat courses cid = some c1 ∧
        s1 = save ((load students).set j (snprintf MAX_LINE
          (fmt4 s0 sf1 s2 (join_comma ((tokens ',' s3).filter (fun t => t != cid)))))) := by
  unfold student_unenroll at h
  cases hfind : find_row (load students) user 0 with
  | none =>
    simp only [hfind, Option.some.injEq, Prod.mk.injEq] at h
    exact Or.inl ⟨h.2.1.symm, h.2.2.symm, by rw [← h.1]; decide⟩
  | some j =>
    simp only [hfind] at h
    by_cases hk : (split_line ((load students).getD j [])).length = 4
    · obtain ⟨s0, sf1, s2, s3, hf⟩ := split_line_four (l := (load students).getD j []) (by omega)
      simp only [hf, List.length_cons, List.length_nil, List.getD_cons_succ,
        List.getD_cons_zero] at h
      by_cases hhad : cid ∈ tokens ',' s3
      · cases hrel : release_seat courses cid with
        | none => simp [hhad, hrel] at h
        | some c2 =>
          simp [hhad, hrel] at h
          exact Or.inr ⟨j, s0, sf1, s2, s3, rfl, hf, hhad, h.1.symm, by rw [h.2.1],
            h.2.2.symm⟩
      · simp [hhad] at h
        exact Or.inl ⟨h.2.1.symm, h.2.2.symm, by rw [← h.1]; decide⟩
    · simp [hk, -List.getD_eq_getElem?_getD] at h
      exact Or.inl ⟨h.2.1.symm, h.2.2.symm, by rw [← h.1]; decide⟩

/-! ## Seat limits -/

theorem within_limit_of_fields {l f0 f1 f2 f3 : Str} (hs : split_line l = [f0, f1, f2, f3])
    (h : atoi f3 ≤ atoi f2) : row_within_limit l = true := by
  simp [row_within_limit, hs, h]

theorem within_limit_fields {l f0 f1 f2 f3 : Str} (hw : row_within_limit l = true)
    (hskip : is_skip_line l = false) (hs : split_line l = [f0, f1, f2, f3]) :
    atoi f3 ≤ atoi f2 := by
  simpa [row_within_limit, hs, hskip] using hw

theorem tokens_of_not_mem_ite {d : Char} {a : Str} (h : d ∉ a) :
    tokens d a = if a = [] then [] else [a] := by
  split
  · rename_i e; subst e; exact tokens_nil d
  · rename_i e; exact tokens_of_not_mem h e

theorem within_limit_new_course {id name : Str} {n : Int} (hid : '|' ∉ id)
    (hname : '|' ∉ name) (hil : id.length < MAX_FIELD) (hnl : name.length < MAX_FIELD)
    (h0 : 0 ≤ n) (h1 : n < 2147483648) :
    row_within_limit (fmt4 id name (fmt_d n) ['0']) = true := by
  have hlen : (fmt4 id name (fmt_d n) ['0']).length ≤ MAX_LINE := by
    rw [fmt4_length]
    have := fmt_d_length (n := n) (by omega) h1
    unfold MAX_FIELD at hil hnl
    unfold MAX_LINE
    simp only [List.length_singleton]
    omega
  have htok : tokens '|' (fmt4 id name (fmt_d n) ['0']) =
      (if id = [] then [] else [id]) ++ ((if name = [] then [] else [name]) ++
        [fmt_d n, ['0']]) := by
    unfold fmt4
    rw [tokens_append_cons, tokens_append_cons, tokens_append_cons, tokens_of_not_mem_ite hid,
      tokens_of_not_mem_ite hname, tokens_of_not_mem (fmt_d_field n).2 (fmt_d_field n).1]
    rfl
  have hz : atoi ['0'] = 0 := by decide
  unfold row_within_limit
  rw [split_line_of_short hlen, htok]
  by_cases e1 : id = [] <;> by_cases e2 : name = [] <;>
    simp [e1, e2, hz, atoi_fmt_d (n := n) (by omega) h1, h0]

theorem within_set {ls : List Str} {i : Nat} {x : Str}
    (h : ∀ l ∈ ls, row_within_limit l = true) (hx : row_within_limit x = true) :
    ∀ l ∈ ls.set i x, row_within_limit l = true := by
  intro l hl
  rcases List.mem_or_eq_of_mem_set hl with h1 | h1
  · exact h l h1
  · exact h1 ▸ hx

theorem course_fields_received {courses f0 f1 f2 f3 : Str} {i : Nat}
    (hi : i < (load courses).length)
    (hf : split_line ((load courses).getD i []) = [f0, f1, f2, f3]) :
    (Received f0 ∧ Received f1 ∧ Received f2 ∧ Received f3) ∧
      (f0 ≠ [] ∧ '|' ∉ f0) ∧ (f1 ≠ [] ∧ '|' ∉ f1) ∧ (f2 ≠ [] ∧ '|' ∉ f2) ∧
      (f3 ≠ [] ∧ '|' ∉ f3) := by
  have hl := isLine_getD_load hi
  have hrec : ∀ x ∈ [f0, f1, f2, f3], Received x ∧ x ≠ [] ∧ '|' ∉ x := by
    intro x hx
    rw [← hf] at hx
    exact ⟨received_of_field hl hx, (mem_split_line hx).1, (mem_split_line hx).2.1⟩
  exact ⟨⟨(hrec f0 (by simp)).1, (hrec f1 (by simp)).1, (hrec f2 (by simp)).1,
    (hrec f3 (by simp)).1⟩, (hrec f0 (by simp)).2, (hrec f1 (by simp)).2,
    (hrec f2 (by simp)).2, (hrec f3 (by simp)).2⟩

theorem enroll_keeps_limit {courses students user cid c1 s1 : Str} {r : Reply}
    (hinv : SeatsWithinLimit courses) (hshort : ∀ l ∈ load courses, l.length + 20 < MAX_LINE)
    (h : student_enroll courses students user cid = some (r, c1, s1)) :
    SeatsWithinLimit c1 := by
  rcases enroll_courses_cases h with ⟨rfl, _, _⟩ | ⟨i, f0, f1, f2, f3, hfind, hf, hlt, -, -, rfl⟩
  · exact hinv
  · obtain ⟨hi, hm, _⟩ := find_row_some hfind
    obtain ⟨⟨r0, r1, r2, r3⟩, g0, g1, g2, g3⟩ := course_fields_received hi hf
    have hlen := fields4_length hf
    have hsh := hshort _ (getD_mem hi)
    have hfit : (fmt4 f0 f1 (fmt_d (atoi f2)) (fmt_d (atoi f3 + 1))).length < MAX_LINE := by
      rw [fmt4_length]
      have a1 := fmt_d_length (atoi_range f2).1 (atoi_range f2).2
      have a2 := fmt_d_length (n := atoi f3 + 1) (by have := (atoi_range f3).1; omega)
        (by have := (atoi_range f2).2; omega)
      omega
    rw [snprintf_of_short hfit]
    have hline : IsLine (fmt4 f0 f1 (fmt_d (atoi f2)) (fmt_d (atoi f3 + 1))) :=
      isLine_fmt4 r0 r1 (received_fmt_d _) (received_fmt_d _)
    unfold SeatsWithinLimit
    rw [load_save_set hline]
    apply within_set hinv
    apply within_limit_of_fields
      (split_line_fmt4 g0 g1 (fmt_d_field _) (fmt_d_field _) (by omega))
    rw [atoi_fmt_d (atoi_range f2).1 (atoi_range f2).2,
      atoi_fmt_d (n := atoi f3 + 1) (by have := (atoi_range f3).1; omega)
        (by have := (atoi_range f2).2; omega)]
    omega

theorem release_seat_keeps_limit {courses cid c1 : Str}
    (hinv : SeatsWithinLimit courses) (hshort : ∀ l ∈ load courses, l.length + 20 < MAX_LINE)
    (h : release_seat courses cid = some c1) : SeatsWithinLimit c1 := by
  rcases release_seat_cases h with ⟨_, rfl⟩ | ⟨i, f0, f1, f2, f3, hfind, hf, rfl⟩
  · unfold SeatsWithinLimit
    rw [save_load_save]
    exact hinv
  · obtain ⟨hi, hm, _⟩ := find_row_some hfind
    obtain ⟨⟨r0, r1, r2, r3⟩, g0, g1, g2, g3⟩ := course_fields_received hi hf
    have hlen := fields4_length hf
    have hsh := hshort _ (getD_mem hi)
    have hold := within_limit_fields (hinv _ (getD_mem hi)) (fields_of_row_matches hm).1 hf
    have hr3 := atoi_range f3
    have hrange : -2147483648 ≤ (if atoi f3 > 0 then atoi f3 - 1 else atoi f3) ∧
        (if atoi f3 > 0 then atoi f3 - 1 else atoi f3) < 2147483648 ∧
        (if atoi f3 > 0 then atoi f3 - 1 else atoi f3) ≤ atoi f3 := by
      split <;> omega
    have hfit : (fmt4 f0 f1 f2
        (fmt_d (if atoi f3 > 0 then atoi f3 - 1 else atoi f3))).length < MAX_LINE := by
      rw [fmt4_length]
      have a1 := fmt_d_length hrange.1 hrange.2.1
      omega
    rw [snprintf_of_short hfit]
    have hline : IsLine (fmt4 f0 f1 f2 (fmt_d (if atoi f3 > 0 then atoi f3 - 1 else atoi f3))) :=
      isLine_fmt4 r0 r1 r2 (received_fmt_d _)
    unfold SeatsWithinLimit
    rw [load_save_set hline]
    apply within_set hinv
    apply within_limit_of_fields (split_line_fmt4 g0 g1 g2 (fmt_d_field _) (by omega))
    rw [atoi_fmt_d hrange.1 hrange.2.1]
    omega

/-! ## Where enrolment and unenrolment are defined -/

theorem add_to_student_some {students user cid : Str}
    (hs : ∀ j, find_row (load students) user 0 = some j →
      3 ≤ (split_line ((load students).getD j [])).length) :
    ∃ s1, add_to_student students user cid = some s1 := by
  unfold add_to_student
  dsimp only
  cases hf : find_row (load students) user 0 with
  | none => exact ⟨_, rfl⟩
  | some j =>
    have h3 := hs j hf
    simp only
    rw [if_neg (by omega)]
    exact ⟨_, rfl⟩

theorem student_enroll_some {courses students user cid : Str}
    (hc : ∀ i, find_row (load courses) cid 0 = some i →
      (split_line ((load courses).getD i [])).length = 4)
    (hs : ∀ j, find_row (load students) user 0 = some j →
      3 ≤ (split_line ((load students).getD j [])).length) :
    ∃ r c1 s1, student_enroll courses students user cid = some (r, c1, s1) := by
  unfold student_enroll
  dsimp only
  cases hf : find_row (load courses) cid 0 with
  | none => exact ⟨_, _, _, rfl⟩
  | some i =>
    have h4 := hc i hf
    simp only
    rw [if_neg (by omega)]
    split
    · exact ⟨_, _, _, rfl⟩
    · obtain ⟨s1, e⟩ := @add_to_student_some students user cid hs
      rw [e]
      exact ⟨_, _, _, rfl⟩

theorem release_seat_some {courses cid : Str}
    (hc : ∀ i, find_row (load courses) cid 0 = some i →
      (split_line ((load courses).getD i [])).length = 4) :
    ∃ c1, release_seat courses cid = some c1 := by
  unfold release_seat
  dsimp only
  cases hf : find_row (load courses) cid 0 with
  | none => exact ⟨_, rfl⟩
  | some i =>
    have h4 := hc i hf
    simp only
    rw [if_neg (by omega)]
    exact ⟨_, rfl⟩

theorem student_unenroll_some {courses students user cid : Str}
    (hc : ∀ i, find_row (load courses) cid 0 = some i →
      (split_line ((load courses).getD i [])).length = 4) :
    ∃ r c1 s1, student_unenroll courses students user cid = some (r, c1, s1) := by
  unfold student_unenroll
  dsimp only
  cases hf : find_row (load students) user 0 with
  | none => exact ⟨_, _, _, rfl⟩
  | some j =>
    obtain ⟨c1, e⟩ := @release_seat_some courses cid hc
    simp only [e]
    by_cases hh : (!(if (split_line ((load students).getD j [])).length = 4 then
        tokens ',' ((split_line ((load students).getD j [])).getD 3 []) else []).contains cid) =
        true
    · rw [if_pos hh]
      exact ⟨_, _, _, rfl⟩
    · rw [if_neg hh]
      exact ⟨_, _, _, rfl⟩

/-- C5 (amended): from a course file in which every course row has
`filled_count ≤ seat_limit` and every line leaves 20 bytes of room in the
`MAX_LINE` buffer, the same holds after `faculty_remove_course` with any
arguments; after `faculty_add_course` when the seat-limit text parses to a
non-negative number and the id and name, as received into their `MAX_FIELD`
buffers, hold no `|`; and `student_enroll` and `student_unenroll` with any
user and course id complete and leave a file in which it holds, when the
course row found for the id has four fields and, for `student_enroll`, the
row found for the student has at least three (the operations read these
fields unchecked). -/
theorem seats_within_limit_preserved (courses students faculty : Str)
    (hinv : SeatsWithinLimit courses)
    (hshort : ∀ l ∈ load courses, l.length + 20 < MAX_LINE) :
    (∀ who id name lim : Str, Received id → Received name → '|' ∉ id → '|' ∉ name →
        id.length < MAX_FIELD → name.length < MAX_FIELD → 0 ≤ atoi lim →
        SeatsWithinLimit (faculty_add_course courses faculty who id name lim).2.1) ∧
      (∀ who cid : Str,
        SeatsWithinLimit (faculty_remove_course courses faculty who cid).2.1) ∧
      (∀ user cid : Str,
        (∀ i, find_row (load courses) cid 0 = some i →
          (split_line ((load courses).getD i [])).length = 4) →
        (∀ j, find_row (load students) user 0 = some j →
          3 ≤ (split_line ((load students).getD j [])).length) →
        ∃ r c1 s1, student_enroll courses students user cid = some (r, c1, s1) ∧
          SeatsWithinLimit c1) ∧
      (∀ user cid : Str,
        (∀ i, find_row (load courses) cid 0 = some i →
          (split_line ((load courses).getD i [])).length = 4) →
        ∃ r c1 s1, student_unenroll courses students user cid = some (r, c1, s1) ∧
          SeatsWithinLimit c1) := by
  refine ⟨?_, ?_, ?_, ?_⟩
  · intro who id name lim hid hname hidbar hnamebar hil hnl hlim
    cases hfind : find_row (load courses) id 0 with
    | some i =>
      simp only [faculty_add_course, hfind]
      unfold SeatsWithinLimit
      rw [save_load_save]
      exact hinv
    | none =>
      simp only [faculty_add_course, hfind]
      have hline : IsLine (fmt4 id name (fmt_d (atoi lim)) ['0']) :=
        isLine_fmt4 hid hname (received_fmt_d _) (by decide)
      have hall : ∀ l ∈ load courses ++ [fmt4 id name (fmt_d (atoi lim)) ['0']], IsLine l := by
        intro l hl
        rcases List.mem_append.mp hl with h | h
        · exact isLine_of_mem_load h
        · simp only [List.mem_singleton] at h
          exact h ▸ hline
      unfold SeatsWithinLimit
      rw [load_save hall]
      intro l hl
      rcases List.mem_append.mp hl with h | h
      · exact hinv l h
      · simp only [List.mem_singleton] at h
        subst h
        exact within_limit_new_course hidbar hnamebar hil hnl hlim (atoi_range lim).2
  · intro who cid
    cases hfind : find_row (load courses) cid 0 with
    | none =>
      simp only [faculty_remove_course, hfind]
      exact hinv
    | some i =>
      simp only [faculty_remove_course, hfind]
      unfold SeatsWithinLimit
      rw [load_save (fun l hl => isLine_of_mem_load (List.mem_of_mem_eraseIdx hl))]
      exact fun l hl => hinv l (List.mem_of_mem_eraseIdx hl)
  · intro user cid hc hs
    obtain ⟨r, c1, s1, h⟩ := @student_enroll_some courses students user cid hc hs
    exact ⟨r, c1, s1, h, enroll_keeps_limit hinv hshort h⟩
  · intro user cid hc
    obtain ⟨r, c1, s1, h⟩ := @student_unenroll_some courses students user cid hc
    refine ⟨r, c1, s1, h, ?_⟩
    rcases unenroll_cases h with ⟨rfl, _, _⟩ | ⟨j, s0, sf1, s2, s3, _, _, _, _, hrel, _⟩
    · exact hinv
    · exact release_seat_keeps_limit hinv hshort hrel

/-- C5 (witness): the four operations on a catalogue holding `CS101` with one
of two seats taken by `alice`: `CS102` is added, `CS101` is removed, `alice`
enrols once more, `alice` drops the course. -/
theorem seats_within_limit_preserved_witness :
    SeatsWithinLimit (faculty_add_course "CS101|Systems|2|1\n".toList "bob|pw|1|CS101\n".toList
        "bob".toList "CS102".toList "Networks".toList "30\n".toList).2.1 ∧
      SeatsWithinLimit (faculty_remove_course "CS101|Systems|2|1\n".toList
        "bob|pw|1|CS101\n".toList "bob".toList "CS101".toList).2.1 ∧
      (student_enroll "CS101|Systems|2|1\n".toList "alice|pw1|1|CS101\n".toList
          "alice".toList "CS101".toList =
        some (Reply.enrolled, "CS101|Systems|2|2\n".toList,
          "alice|pw1|1|CS101,CS101\n".toList) ∧
        SeatsWithinLimit "CS101|Systems|2|2\n".toList) ∧
      (student_unenroll "CS101|Systems|2|1\n".toList "alice|pw1|1|CS101\n".toList
          "alice".toList "CS101".toList =
        some (Reply.unenrolled, "CS101|Systems|2|0\n".toList, "alice|pw1|1|\n".toList) ∧
        SeatsWithinLimit "CS101|Systems|2|0\n".toList) := by
  obtain ⟨h1, h2, h3, h4⟩ := seats_within_limit_preserved "CS101|Systems|2|1\n".toList
    "alice|pw1|1|CS101\n".toList "bob|pw|1|CS101\n".toList (by decide) (by decide)
  have hc : ∀ i, find_row (load "CS101|Systems|2|1\n".toList) "CS101".toList 0 = some i →
      (split_line ((load "CS101|Systems|2|1\n".toList).getD i [])).length = 4 := by
    intro i hi
    have e : find_row (load "CS101|Systems|2|1\n".toList) "CS101".toList 0 = some 0 := by
      decide
    rw [e] at hi
    simp only [Option.some.injEq] at hi
    subst hi
    decide
  have hs : ∀ j, find_row (load "alice|pw1|1|CS101\n".toList) "alice".toList 0 = some j →
      3 ≤ (split_line ((load "alice|pw1|1|CS101\n".toList).getD j [])).length := by
    intro j hj
    have e : find_row (load "alice|pw1|1|CS101\n".toList) "alice".toList 0 = some 0 := by
      decide
    rw [e] at hj
    simp only [Option.some.injEq] at hj
    subst hj
    decide
  obtain ⟨r, c1, s1, e3, k3⟩ := h3 "alice".toList "CS101".toList hc hs
  obtain ⟨r2, c2, s2, e4, k4⟩ := h4 "alice".toList "CS101".toList hc
  have d3 : student_enroll "CS101|Systems|2|1\n".toList "alice|pw1|1|CS101\n".toList
      "alice".toList "CS101".toList =
      some (Reply.enrolled, "CS101|Systems|2|2\n".toList,
        "alice|pw1|1|CS101,CS101\n".toList) := by decide
  have d4 : student_unenroll "CS101|Systems|2|1\n".toList "alice|pw1|1|CS101\n".toList
      "alice".toList "CS101".toList =
      some (Reply.unenrolled, "CS101|Systems|2|0\n".toList, "alice|pw1|1|\n".toList) := by
    decide
  rw [d3] at e3
  rw [d4] at e4
  simp only [Option.some.injEq, Prod.mk.injEq] at e3 e4
  obtain ⟨-, rfl, -⟩ := e3
  obtain ⟨-, rfl, -⟩ := e4
  exact ⟨h1 "bob".toList "CS102".toList "Networks".toList "30\n".toList (by decide)
      (by decide) (by decide) (by decide) (by decide) (by decide) (by decide),
    h2 "bob".toList "CS101".toList, ⟨d3, k3⟩, ⟨d4, k4⟩⟩

/-- C5 (counterexample): `faculty_add_course` with the seat-limit text `-1`
on an empty catalogue writes the row `CS101|Systems|-1|0`, whose filled count
0 exceeds its seat limit -1. -/
theorem add_course_negative_limit :
    SeatsWithinLimit [] ∧
      (faculty_add_course [] "bob|pw|1|\n".toList "bob".toList "CS101".toList
        "Systems".toList "-1\n".toList).2.1 = "CS101|Systems|-1|0\n".toList ∧
      ¬ SeatsWithinLimit (faculty_add_course [] "bob|pw|1|\n".toList "bob".toList
        "CS101".toList "Systems".toList "-1\n".toList).2.1 := by
  decide

/-! ## Comma lists -/

theorem join_comma_cons_cons (t t2 : Str) (ts : List Str) :
    join_comma (t :: t2 :: ts) = t ++ ',' :: join_comma (t2 :: ts) := rfl

theorem tokens_join_comma {ts : List Str} (h : ∀ t ∈ ts, t ≠ [] ∧ ',' ∉ t) :
    tokens ',' (join_comma ts) = ts := by
  induction ts with
  | nil => simp [join_comma, tokens_nil]
  | cons t ts ih =>
    have ht := h t (by simp)
    cases ts with
    | nil => simp [join_comma, tokens_of_not_mem ht.2 ht.1]
    | cons t2 ts2 =>
      rw [join_comma_cons_cons, tokens_append_sep ht.2 ht.1, ih (fun x hx => h x (by simp [hx]))]

theorem join_comma_length (ts : List Str) :
    (join_comma ts).length ≤ (ts.map List.length).sum + ts.length ∧
      (ts ≠ [] → (join_comma ts).length + 1 = (ts.map List.length).sum + ts.length) := by
  induction ts with
  | nil => simp [join_comma]
  | cons t ts ih =>
    cases ts with
    | nil => simp [join_comma]
    | cons t2 ts2 =>
      have := ih.2 (by simp)
      rw [join_comma_cons_cons]
      simp only [List.length_append, List.length_cons, List.map_cons, List.sum_cons] at this ⊢
      constructor
      · omega
      · intro _; omega

theorem join_comma_mem {ts : List Str} {x : Char} (h : x ∈ join_comma ts) :
    x = ',' ∨ ∃ t ∈ ts, x ∈ t := by
  induction ts with
  | nil => simp [join_comma] at h
  | cons t ts ih =>
    cases ts with
    | nil => exact Or.inr ⟨t, by simp, by simpa [join_comma] using h⟩
    | cons t2 ts2 =>
      rw [join_comma_cons_cons] at h
      rcases List.mem_append.mp h with h1 | h1
      · exact Or.inr ⟨t, by simp, h1⟩
      · rcases List.mem_cons.mp h1 with h2 | h2
        · exact Or.inl h2
        · rcases ih h2 with h3 | ⟨u, hu, hx⟩
          · exact Or.inl h3
          · exact Or.inr ⟨u, by simp [hu], hx⟩

theorem filter_removed_length_sum {ts : List Str} {c : Str} (hc : c ∈ ts) :
    ((ts.filter (fun t => t != c)).map List.length).sum +
        (ts.filter (fun t => t != c)).length + (c.length + 1) ≤
      (ts.map List.length).sum + ts.length := by
  induction ts with
  | nil => simp at hc
  | cons t ts ih =>
    rw [List.filter_cons]
    by_cases e : t = c
    · subst e
      have := filter_length_sum (fun x => x != t) ts
      simp only [bne_self_eq_false, Bool.false_eq_true, if_false, List.map_cons, List.sum_cons,
        List.length_cons]
      omega
    · have hc2 : c ∈ ts := by
        rcases List.mem_cons.mp hc with h | h
        · exact absurd h.symm e
        · exact h
      have := ih hc2
      have hne : (t != c) = true := by simpa using e
      simp only [hne, if_true, List.map_cons, List.sum_cons, List.length_cons]
      omega

theorem tokens_length_sum (d : Char) (s : Str) :
    ((tokens d s).map List.length).sum + (tokens d s).length ≤ s.length + 1 := by
  have h2 := filter_length_sum (fun t => !t.isEmpty) (splitOn d s)
  have h3 := splitOn_length_sum d s
  unfold tokens
  omega

/-! ## Counting rows -/

theorem countP_set (p : Str → Bool) {ls : List Str} {j : Nat} (hj : j < ls.length) (x : Str) :
    (ls.set j x).countP p + (if p (ls.getD j []) then 1 else 0) =
      ls.countP p + (if p x then 1 else 0) := by
  induction ls generalizing j with
  | nil => simp at hj
  | cons l ls ih =>
    cases j with
    | zero =>
      simp only [List.set_cons_zero, List.getD_cons_zero, List.countP_cons]
      omega
    | succ j =>
      have := ih (j := j) (by simpa using hj)
      simp only [List.set_cons_succ, List.getD_cons_succ, List.countP_cons]
      omega

theorem isLine_snprintf {n : Nat} {s : Str} (hs : IsLine s) (hn : 1 < n) :
    IsLine (snprintf n s) := by
  unfold snprintf
  refine ⟨?_, fun h => hs.2.1 (List.mem_of_mem_take h), fun h => hs.2.2 (List.mem_of_mem_take h)⟩
  cases s with
  | nil => exact absurd rfl hs.1
  | cons c cs =>
    obtain ⟨k, hk⟩ : ∃ k, n - 1 = k + 1 := ⟨n - 2, by omega⟩
    rw [hk]
    simp

theorem received_take {n : Nat} {s : Str} (hs : Received s) : Received (s.take n) :=
  ⟨fun h => hs.1 (List.mem_of_mem_take h), fun h => hs.2 (List.mem_of_mem_take h)⟩

/-! ## Steps of a sequence of calls -/

theorem row_after {courses c name l f : Str} {i : Nat}
    (hrow : find_row (load courses) c 0 = some i)
    (hfld : split_line ((load courses).getD i []) = [c, name, l, f])
    (hkey : is_comment_key c = false) {x y : Str} (hx : x ≠ [] ∧ '|' ∉ x)
    (hy : y ≠ [] ∧ '|' ∉ y) (hlen : (fmt4 c name x y).length < MAX_LINE) :
    find_row ((load courses).set i (fmt4 c name x y)) c 0 = some i ∧
      split_line (((load courses).set i (fmt4 c name x y)).getD i []) = [c, name, x, y] := by
  obtain ⟨hi, _, _⟩ := find_row_some hrow
  obtain ⟨_, g0, g1, _, _⟩ := course_fields_received hi hfld
  have hsplit : split_line (fmt4 c name x y) = [c, name, x, y] :=
    split_line_fmt4 g0 g1 hx hy (by omega)
  refine ⟨find_row_set hrow (row_matches_of_fields ?_ hsplit), ?_⟩
  · rw [is_skip_line_fmt4]; exact hkey
  · rw [getD_set_self hi]; exact hsplit

theorem add_to_student_load {students s c s1 : Str} (hc : Received c)
    (h : add_to_student students s c = some s1) :
    load s1 = load students ∨
      ∃ j x, j < (load students).length ∧ load s1 = (load students).set j x := by
  unfold add_to_student at h
  cases hfind : find_row (load students) s 0 with
  | none =>
    simp only [hfind, Option.some.injEq] at h
    rw [← h]
    exact Or.inl save_load_save
  | some j =>
    obtain ⟨hj, _, _⟩ := find_row_some hfind
    have hl := isLine_getD_load hj
    simp only [hfind] at h
    rcases hs : split_line ((load students).getD j []) with
      _ | ⟨s0, _ | ⟨sf1, _ | ⟨s2, rest⟩⟩⟩
    · simp [hs, -List.getD_eq_getElem?_getD] at h
    · simp [hs, -List.getD_eq_getElem?_getD] at h
    · simp [hs, -List.getD_eq_getElem?_getD] at h
    · have hrec : ∀ f ∈ s0 :: sf1 :: s2 :: rest, Received f := by
        intro f hf
        rw [← hs] at hf
        exact received_of_field hl hf
      rw [hs] at h
      simp only [List.length_cons, List.getD_cons_succ, List.getD_cons_zero] at h
      have hlist : ∀ list, Received list →
          IsLine (snprintf MAX_LINE (fmt4 s0 sf1 s2 list)) := fun list hlr =>
        isLine_snprintf (isLine_fmt4 (hrec s0 (by simp)) (hrec sf1 (by simp))
          (hrec s2 (by simp)) hlr) (by decide)
      split at h
      · rename_i hlong
        omega
      · split at h
        · simp only [Option.some.injEq] at h
          have h3 : Received (rest.getD 0 []) := by
            cases rest with
            | nil => simp [Received]
            | cons s3 r => simpa using hrec s3 (by simp)
          have hr : Received (snprintf MAX_LIST (rest.getD 0 [] ++ ',' :: c)) := by
            apply received_take
            constructor
            · simp only [List.mem_append, List.mem_cons, not_or]
              exact ⟨h3.1, by decide, hc.1⟩
            · simp only [List.mem_append, List.mem_cons, not_or]
              exact ⟨h3.2, by decide, hc.2⟩
          rw [← h]
          exact Or.inr ⟨j, _, hj, load_save_set (hlist _ hr)⟩
        · simp only [Option.some.injEq] at h
          rw [← h]
          exact Or.inr ⟨j, _, hj, load_save_set (hlist _ hc)⟩

theorem enrolled_count_after_add {students s c s1 : Str} (hc : Received c)
    (h : add_to_student students s c = some s1) :
    enrolled_count s1 c ≤ enrolled_count students c + 1 := by
  unfold enrolled_count
  rcases add_to_student_load hc h with e | ⟨j, x, hj, e⟩
  · rw [e]; omega
  · rw [e]
    have := countP_set (student_holds c) hj x
    split at this <;> split at this <;> omega

theorem unenroll_student_row {students user cid s0 sf1 s2 s3 : Str} {j : Nat}
    (hfind : find_row (load students) user 0 = some j)
    (hf : split_line ((load students).getD j []) = [s0, sf1, s2, s3])
    (hhad : cid ∈ tokens ',' s3) :
    load (save ((load students).set j (snprintf MAX_LINE
        (fmt4 s0 sf1 s2 (join_comma ((tokens ',' s3).filter (fun t => t != cid))))))) =
      (load students).set j
        (fmt4 s0 sf1 s2 (join_comma ((tokens ',' s3).filter (fun t => t != cid)))) ∧
    student_holds cid ((load students).getD j []) = true ∧
    student_holds cid
      (fmt4 s0 sf1 s2 (join_comma ((tokens ',' s3).filter (fun t => t != cid)))) = false := by
  obtain ⟨hj, hm, _⟩ := find_row_some hfind
  obtain ⟨⟨r0, r1, r2, r3⟩, g0, g1, g2, g3⟩ := course_fields_received hj hf
  have hlen := fields4_length hf
  have htl := tokens_length_sum ',' s3
  have hrem := filter_removed_length_sum hhad
  have hjl := join_comma_length ((tokens ',' s3).filter (fun t => t != cid))
  have hcl : 0 < cid.length := List.length_pos.mpr (mem_tokens hhad).1
  have hfit : (fmt4 s0 sf1 s2
      (join_comma ((tokens ',' s3).filter (fun t => t != cid)))).length < MAX_LINE := by
    rw [fmt4_length]
    omega
  have hmem : ∀ x ∈ join_comma ((tokens ',' s3).filter (fun t => t != cid)),
      x = ',' ∨ x ∈ s3 := by
    intro x hx
    rcases join_comma_mem hx with h | ⟨t, ht, hxt⟩
    · exact Or.inl h
    · exact Or.inr ((mem_tokens (List.mem_of_mem_filter ht)).2.2 x hxt)
  have hnl : Received (join_comma ((tokens ',' s3).filter (fun t => t != cid))) := by
    constructor
    · intro h
      rcases hmem _ h with e | e
      · exact absurd e (by decide)
      · exact r3.1 e
    · intro h
      rcases hmem _ h with e | e
      · exact absurd e (by decide)
      · exact r3.2 e
  have hbar : '|' ∉ join_comma ((tokens ',' s3).filter (fun t => t != cid)) := by
    intro h
    rcases hmem _ h with e | e
    · exact absurd e (by decide)
    · exact g3.2 e
  rw [snprintf_of_short hfit]
  refine ⟨load_save_set (isLine_fmt4 r0 r1 r2 hnl), ?_, ?_⟩
  · simp [student_holds, (fields_of_row_matches hm).1, hf, hhad, -List.getD_eq_getElem?_getD]
  · unfold student_holds
    by_cases hnil : join_comma ((tokens ',' s3).filter (fun t => t != cid)) = []
    · rw [hnil, split_line_fmt4_nil g0 g1 g2 (by rw [hnil] at hfit; omega)]
      simp
    · rw [split_line_fmt4 g0 g1 g2 ⟨hnil, hbar⟩ (by omega)]
      have htok : tokens ',' (join_comma ((tokens ',' s3).filter (fun t => t != cid))) =
          (tokens ',' s3).filter (fun t => t != cid) :=
        tokens_join_comma (fun t ht =>
          ⟨(mem_tokens (List.mem_of_mem_filter ht)).1,
            (mem_tokens (List.mem_of_mem_filter ht)).2.1⟩)
      simp [htok]

theorem enroll_step {c name s c1 s1 : Str} {i lmax n : Nat} {st : Str × Str} {r : Reply}
    (hkey : is_comment_key c = false) (hfit : c.length + name.length + lmax + 14 < MAX_LINE)
    (hl11 : 11 ≤ lmax) (hJ : seq_inv c name i lmax st n)
    (h : student_enroll st.1 st.2 s c = some (r, c1, s1)) (hr : r ≠ Reply.courseFull) :
    r = Reply.enrolled ∧ seq_inv c name i lmax (c1, s1) (n + 1) := by
  obtain ⟨ha, ⟨l, f, hb, hn, hll⟩, hcnt⟩ := hJ
  rcases enroll_courses_cases h with
    ⟨_, _, (⟨_, hnone⟩ | hfull)⟩ | ⟨i2, f0, f1, f2, f3, hfind, hf, hlt, hre, hadd, hc1⟩
  · rw [ha] at hnone; exact absurd hnone (by simp)
  · exact absurd hfull hr
  · rw [ha] at hfind
    simp only [Option.some.injEq] at hfind
    subst hfind
    rw [hb] at hf
    simp only [List.cons.injEq, and_true] at hf
    obtain ⟨rfl, rfl, rfl, rfl⟩ := hf
    obtain ⟨hi, _, _⟩ := find_row_some ha
    obtain ⟨⟨r0, r1, r2, r3⟩, g0, g1, g2, g3⟩ := course_fields_received hi hb
    have hrl := atoi_range l
    have hrf := atoi_range f
    have a1 := fmt_d_length hrl.1 hrl.2
    have a2 := fmt_d_length (n := atoi f + 1) (by omega) (by omega)
    have hfit2 : (fmt4 c name (fmt_d (atoi l)) (fmt_d (atoi f + 1))).length < MAX_LINE := by
      rw [fmt4_length]; omega
    rw [snprintf_of_short hfit2] at hc1
    obtain ⟨b1, b2⟩ := row_after ha hb hkey (fmt_d_field (atoi l)) (fmt_d_field (atoi f + 1))
      hfit2
    have hload : load c1 =
        (load st.1).set i (fmt4 c name (fmt_d (atoi l)) (fmt_d (atoi f + 1))) := by
      rw [hc1]
      exact load_save_set (isLine_fmt4 r0 r1 (received_fmt_d _) (received_fmt_d _))
    refine ⟨hre, ?_, ⟨fmt_d (atoi l), fmt_d (atoi f + 1), ?_, ?_, by omega⟩, ?_⟩
    · show find_row (load c1) c 0 = some i
      rw [hload]; exact b1
    · show split_line ((load c1).getD i []) = _
      rw [hload]; exact b2
    · rw [atoi_fmt_d (by omega) (by omega), hn]
      push_cast
      ring
    · have := enrolled_count_after_add r0 hadd
      show enrolled_count s1 c ≤ n + 1
      omega

theorem unenroll_step {c name s c1 s1 : Str} {i lmax n : Nat} {st : Str × Str} {r : Reply}
    (hkey : is_comment_key c = false) (hfit : c.length + name.length + lmax + 14 < MAX_LINE)
    (hJ : seq_inv c name i lmax st n)
    (h : student_unenroll st.1 st.2 s c = some (r, c1, s1)) :
    (r = Reply.unenrolled ∧ 1 ≤ n ∧ seq_inv c name i lmax (c1, s1) (n - 1)) ∨
      (r ≠ Reply.unenrolled ∧ (c1, s1) = st) := by
  obtain ⟨ha, ⟨l, f, hb, hn, hll⟩, hcnt⟩ := hJ
  rcases unenroll_cases h with
    ⟨e1, e2, hr⟩ | ⟨j, s0, sf1, s2, s3, hfind, hf, hhad, hr, hrel, hs1⟩
  · exact Or.inr ⟨hr, by rw [e1, e2]⟩
  · left
    obtain ⟨hj, _, _⟩ := find_row_some hfind
    obtain ⟨k1, k2, k3⟩ := unenroll_student_row hfind hf hhad
    rw [← hs1] at k1
    have hcount := countP_set (student_holds c) hj
      (fmt4 s0 sf1 s2 (join_comma ((tokens ',' s3).filter (fun t => t != c))))
    rw [k2, k3] at hcount
    simp only [if_true, Bool.false_eq_true, if_false, add_zero] at hcount
    have hcnt2 : enrolled_count s1 c + 1 = enrolled_count st.2 c := by
      unfold enrolled_count
      rw [k1]
      exact hcount
    have hn1 : 1 ≤ n := by omega
    rcases release_seat_cases hrel with ⟨hnone, _⟩ | ⟨i2, f0, f1, f2, f3, hfind2, hf2, hc1⟩
    · rw [ha] at hnone; exact absurd hnone (by simp)
    · rw [ha] at hfind2
      simp only [Option.some.injEq] at hfind2
      subst hfind2
      rw [hb] at hf2
      simp only [List.cons.injEq, and_true] at hf2
      obtain ⟨rfl, rfl, rfl, rfl⟩ := hf2
      obtain ⟨hi, _, _⟩ := find_row_some ha
      obtain ⟨⟨r0, r1, r2, r3⟩, g0, g1, g2, g3⟩ := course_fields_received hi hb
      have hpos : atoi f > 0 := by omega
      simp only [hpos, if_true] at hc1
      have hrf := atoi_range f
      have a2 := fmt_d_length (n := atoi f - 1) (by omega) (by omega)
      have hfit2 : (fmt4 c name l (fmt_d (atoi f - 1))).length < MAX_LINE := by
        rw [fmt4_length]; omega
      rw [snprintf_of_short hfit2] at hc1
      obtain ⟨b1, b2⟩ := row_after ha hb hkey g2 (fmt_d_field (atoi f - 1)) hfit2
      have hload : load c1 = (load st.1).set i (fmt4 c name l (fmt_d (atoi f - 1))) := by
        rw [hc1]
        exact load_save_set (isLine_fmt4 r0 r1 r2 (received_fmt_d _))
      refine ⟨hr, hn1, ?_, ⟨l, fmt_d (atoi f - 1), ?_, ?_, hll⟩, ?_⟩
      · show find_row (load c1) c 0 = some i
        rw [hload]; exact b1
      · show split_line ((load c1).getD i []) = _
        rw [hload]; exact b2
      · rw [atoi_fmt_d (by omega) (by omega), hn]
        omega
      · show enrolled_count s1 c ≤ n - 1
        omega

theorem run_calls_inv {c name : Str} {i lmax : Nat}
    (hkey : is_comment_key c = false) (hfit : c.length + name.length + lmax + 14 < MAX_LINE)
    (hl11 : 11 ≤ lmax) (calls : List Call) :
    ∀ (st : Str × Str) (n : Nat) (final : Str × Str) (replies : List Reply),
      seq_inv c name i lmax st n → run_calls c st calls = some (final, replies) →
      Reply.courseFull ∉ replies →
      replies.count Reply.unenrolled ≤ n + enroll_calls calls ∧
        seq_inv c name i lmax final (n + enroll_calls calls - replies.count Reply.unenrolled) := by
  induction calls with
  | nil =>
    intro st n final replies hJ hrun _
    simp only [run_calls, Option.some.injEq, Prod.mk.injEq] at hrun
    obtain ⟨rfl, rfl⟩ := hrun
    simpa [enroll_calls] using hJ
  | cons call rest ih =>
    intro st n final replies hJ hrun hfull
    cases call with
    | enroll s =>
      simp only [run_calls] at hrun
      cases h1 : student_enroll st.1 st.2 s c with
      | none => simp [h1] at hrun
      | some res =>
        obtain ⟨r, c1, s1⟩ := res
        cases h2 : run_calls c (c1, s1) rest with
        | none => simp [h1, h2] at hrun
        | some res2 =>
          obtain ⟨fin, rs⟩ := res2
          simp only [h1, h2, Option.some.injEq, Prod.mk.injEq] at hrun
          obtain ⟨rfl, rfl⟩ := hrun
          have hr : r ≠ Reply.courseFull := fun e => hfull (by simp [e])
          obtain ⟨hre, hJ2⟩ := enroll_step hkey hfit hl11 hJ h1 hr
          obtain ⟨k1, k2⟩ := ih (c1, s1) (n + 1) fin rs hJ2 h2
            (fun hm => hfull (List.mem_cons_of_mem _ hm))
          subst hre
          have hc : (Reply.enrolled :: rs).count Reply.unenrolled = rs.count Reply.unenrolled := by
            simp [List.count_cons]
          rw [hc]
          simp only [enroll_calls]
          have e : n + (enroll_calls rest + 1) = n + 1 + enroll_calls rest := by omega
          rw [e]
          exact ⟨k1, k2⟩
    | unenroll s =>
      simp only [run_calls] at hrun
      cases h1 : student_unenroll st.1 st.2 s c with
      | none => simp [h1] at hrun
      | some res =>
        obtain ⟨r, c1, s1⟩ := res
        cases h2 : run_calls c (c1, s1) rest with
        | none => simp [h1, h2] at hrun
        | some res2 =>
          obtain ⟨fin, rs⟩ := res2
          simp only [h1, h2, Option.some.injEq, Prod.mk.injEq] at hrun
          obtain ⟨rfl, rfl⟩ := hrun
          simp only [enroll_calls]
          rcases unenroll_step hkey hfit hJ h1 with ⟨hre, hn1, hJ2⟩ | ⟨hre, hst⟩
          · obtain ⟨k1, k2⟩ := ih (c1, s1) (n - 1) fin rs hJ2 h2
              (fun hm => hfull (List.mem_cons_of_mem _ hm))
            subst hre
            have hc : (Reply.unenrolled :: rs).count Reply.unenrolled =
                rs.count Reply.unenrolled + 1 := by simp [List.count_cons]
            rw [hc]
            have e : n + enroll_calls rest - (rs.count Reply.unenrolled + 1) =
                n - 1 + enroll_calls rest - rs.count Reply.unenrolled := by omega
            rw [e]
            exact ⟨by omega, k2⟩
          · rw [hst] at h2
            obtain ⟨k1, k2⟩ := ih st n fin rs hJ h2
              (fun hm => hfull (List.mem_cons_of_mem _ hm))
            have hc : (r :: rs).count Reply.unenrolled = rs.count Reply.unenrolled := by
              rw [List.count_cons]
              simp [hre]
            rw [hc]
            exact ⟨k1, k2⟩

/-- C3 (counterexample): course `#x` has the row `|#x|n|5|0` and no student
holds it. The first `enroll` rewrites the row as the comment line `#x|n|5|1`,
the second is answered `Course not found`: after two enroll calls, none
refused as `Course full`, course `#x` has no filled count at all (and the
line that was its row reads 1, not 2). -/
theorem filled_count_lost_comment_key :
    find_row (load "|#x|n|5|0\n".toList) "#x".toList 0 = some 0 ∧
      filled_count "|#x|n|5|0\n".toList "#x".toList = some 0 ∧
      enrolled_count "alice|pw1|1|\n".toList "#x".toList = 0 ∧
      run_calls "#x".toList ("|#x|n|5|0\n".toList, "alice|pw1|1|\n".toList)
          [Call.enroll "alice".toList, Call.enroll "alice".toList] =
        some (("#x|n|5|1\n".toList, "alice|pw1|1|#x\n".toList),
          [Reply.enrolled, Reply.courseNotFound]) ∧
      filled_count "#x|n|5|1\n".toList "#x".toList ≠ some (max 0 (2 - 0)) := by
  decide

/-! ## Seat counts and enrollment lists -/

theorem forall_mem_set {P : Str → Prop} {ls : List Str} {i : Nat} {x : Str}
    (hx : P x) (h : ∀ k, k ≠ i → k < ls.length → P (ls.getD k [])) :
    ∀ l ∈ ls.set i x, P l := by
  intro l hl
  obtain ⟨k, hk, rfl⟩ := List.getElem_of_mem hl
  rw [List.length_set] at hk
  by_cases e : k = i
  · subst e
    simpa using hx
  · have := h k e hk
    rw [List.getElem_set_ne (Ne.symm e)]
    simpa [List.getD_eq_getElem?_getD, hk] using this

theorem key_index_unique {ls : List Str} (h : (ls.filterMap row_key).Nodup) {i k : Nat}
    {a : Str} (hi : i < ls.length) (hk : k < ls.length)
    (h1 : row_key (ls.getD i []) = some a) (h2 : row_key (ls.getD k []) = some a) : i = k := by
  induction ls generalizing i k with
  | nil => simp at hi
  | cons l ls ih =>
    rw [List.filterMap_cons] at h
    have hmem : ∀ m, m < ls.length → row_key (ls.getD m []) = some a →
        a ∈ ls.filterMap row_key := fun m hm hrk =>
      List.mem_filterMap.mpr ⟨ls.getD m [], getD_mem hm, hrk⟩
    have htail : (ls.filterMap row_key).Nodup := by
      cases hl : row_key l with
      | none => rw [hl] at h; exact h
      | some b => rw [hl] at h; exact (List.nodup_cons.mp h).2
    cases i with
    | zero =>
      cases k with
      | zero => rfl
      | succ k =>
        simp only [List.getD_cons_zero] at h1
        simp only [List.getD_cons_succ] at h2
        rw [h1] at h
        exact absurd (hmem k (by simpa using hk) h2) (List.nodup_cons.mp h).1
    | succ i =>
      cases k with
      | zero =>
        simp only [List.getD_cons_zero] at h2
        simp only [List.getD_cons_succ] at h1
        rw [h2] at h
        exact absurd (hmem i (by simpa using hi) h1) (List.nodup_cons.mp h).1
      | succ k =>
        simp only [List.getD_cons_succ] at h1 h2
        rw [ih htail (by simpa using hi) (by simpa using hk) h1 h2]

theorem row_key_of_fields {l c : Str} {r : List Str} (hs : is_skip_line l = false)
    (hf : split_line l = c :: r) : row_key l = some c := by
  simp [row_key, hs, hf]

theorem holds_of_not_four {c l : Str} (h : (split_line l).length ≠ 4) :
    student_holds c l = false := by
  unfold student_holds
  rcases hs : split_line l with _ | ⟨a, _ | ⟨b, _ | ⟨x, _ | ⟨d, _ | ⟨e, r⟩⟩⟩⟩⟩ <;>
    simp_all

theorem holds_of_fields4 {c l a b x lst : Str} (hs : is_skip_line l = false)
    (hf : split_line l = [a, b, x, lst]) :
    student_holds c l = (tokens ',' lst).contains c := by
  simp [student_holds, hs, hf]

theorem fields3_length {l f0 f1 f2 : Str} (h : split_line l = [f0, f1, f2]) :
    f0.length + f1.length + f2.length + 2 ≤ l.length ∧
      0 < f0.length ∧ 0 < f1.length ∧ 0 < f2.length := by
  have := split_line_length_sum l
  rw [h] at this
  simp only [List.map_cons, List.map_nil, List.sum_cons, List.sum_nil, List.length_cons,
    List.length_nil] at this
  have hne : ∀ x ∈ [f0, f1, f2], 0 < x.length := by
    intro x hx
    rw [← h] at hx
    exact List.length_pos.mpr (mem_split_line hx).1
  have a0 := hne f0 (by simp)
  have a1 := hne f1 (by simp)
  have a2 := hne f2 (by simp)
  omega

theorem fields_facts {content l : Str} (hl : l ∈ load content) :
    ∀ x ∈ split_line l, Received x ∧ x ≠ [] ∧ '|' ∉ x ∧ x.length ≤ l.length := by
  intro x hx
  have hil := isLine_of_mem_load hl
  refine ⟨received_of_field hil hx, (mem_split_line hx).1, (mem_split_line hx).2.1, ?_⟩
  have h1 := split_line_length_sum l
  have h2 : x.length ≤ ((split_line l).map List.length).sum :=
    List.single_le_sum (by simp) _ (List.mem_map_of_mem _ hx)
  have h3 : 0 < (split_line l).length := List.length_pos_of_mem hx
  omega

theorem flag_field (activate : Bool) :
    Received [if activate then '1' else '0'] ∧
      ([if activate then '1' else '0'] ≠ [] ∧ '|' ∉ [if activate then '1' else '0']) := by
  cases activate <;> exact ⟨by decide, by decide, by decide⟩

theorem tokens_appended {rest : List Str} {cid : Str} (hne : cid ≠ []) (hcomma : ',' ∉ cid) :
    tokens ',' (appended rest cid) =
      (match rest with | [] => [] | s3 :: _ => tokens ',' s3) ++ [cid] := by
  cases rest with
  | nil => simp [appended, tokens_of_not_mem hcomma hne]
  | cons s3 r =>
    simp only [appended]
    rw [tokens_append_cons, tokens_of_not_mem hcomma hne]

theorem long_row_facts (n : Nat) (hn : n + 8 ≤ MAX_LINE) (hn0 : 0 < n)
    (tail : Str) (htail : tail = [] ∨ tail = [',']) :
    IsLine (fmt4 ['a'] ['b'] ['1'] (List.replicate n 'x' ++ tail)) ∧
      is_skip_line (fmt4 ['a'] ['b'] ['1'] (List.replicate n 'x' ++ tail)) = false ∧
      split_line (fmt4 ['a'] ['b'] ['1'] (List.replicate n 'x' ++ tail)) =
        [['a'], ['b'], ['1'], List.replicate n 'x' ++ tail] := by
  have hx : ∀ c : Char, c ≠ 'x' → c ≠ ',' → c ∉ List.replicate n 'x' ++ tail := by
    intro c h1 h2 hm
    rcases List.mem_append.mp hm with h | h
    · exact h1 (List.eq_of_mem_replicate h)
    · rcases htail with e | e <;> rw [e] at h <;> simp at h
      exact h2 h
  have hne : List.replicate n 'x' ++ tail ≠ [] := by
    intro e
    have := congrArg List.length e
    simp only [List.length_append, List.length_replicate, List.length_nil] at this
    omega
  have hrec : Received (List.replicate n 'x' ++ tail) :=
    ⟨hx _ (by decide) (by decide), hx _ (by decide) (by decide)⟩
  refine ⟨isLine_fmt4 (by decide) (by decide) (by decide) hrec, ?_, ?_⟩
  · rw [is_skip_line_fmt4]; decide
  · apply split_line_fmt4 (by decide) (by decide) (by decide)
      ⟨hne, hx _ (by decide) (by decide)⟩
    rw [fmt4_length]
    rcases htail with e | e <;> rw [e] <;>
      simp only [List.length_append, List.length_replicate, List.length_cons, List.length_nil,
        List.length_singleton] <;> omega

theorem enroll_truncates (n : Nat) (hn : n + 8 = MAX_LINE) :
    find_row (load (fmt4 ['a'] ['b'] ['1'] (List.replicate n 'x') ++ ['\n'])) ['a'] 0 =
        some 0 ∧
      split_line ((load (fmt4 ['a'] ['b'] ['1'] (List.replicate n 'x') ++ ['\n'])).getD 0 [])
        = [['a'], ['b'], ['1'], List.replicate n 'x'] ∧
      student_enroll "c|n|2|0\n".toList
          (fmt4 ['a'] ['b'] ['1'] (List.replicate n 'x') ++ ['\n']) ['a'] ['c'] =
        some (Reply.enrolled, "c|n|2|1\n".toList,
          fmt4 ['a'] ['b'] ['1'] (List.replicate n 'x' ++ [',']) ++ ['\n']) ∧
      load (fmt4 ['a'] ['b'] ['1'] (List.replicate n 'x' ++ [',']) ++ ['\n']) =
        [fmt4 ['a'] ['b'] ['1'] (List.replicate n 'x' ++ [','])] ∧
      student_holds ['c'] (fmt4 ['a'] ['b'] ['1'] (List.replicate n 'x' ++ [','])) =
        false := by
  obtain ⟨l1, k1, f1⟩ := long_row_facts n (by omega) (by unfold MAX_LINE at hn; omega) [] (Or.inl rfl)
  obtain ⟨l2, k2, f2⟩ := long_row_facts n (by omega) (by unfold MAX_LINE at hn; omega) [','] (Or.inr rfl)
  rw [List.append_nil] at l1 k1 f1
  have hsave : ∀ r : Str, r ++ ['\n'] = save [r] := fun r => by simp [save]
  have hload1 : load (fmt4 ['a'] ['b'] ['1'] (List.replicate n 'x') ++ ['\n']) =
      [fmt4 ['a'] ['b'] ['1'] (List.replicate n 'x')] := by
    rw [hsave]
    exact load_save (by simpa using l1)
  have hload2 : load (fmt4 ['a'] ['b'] ['1'] (List.replicate n 'x' ++ [',']) ++ ['\n']) =
      [fmt4 ['a'] ['b'] ['1'] (List.replicate n 'x' ++ [','])] := by
    rw [hsave]
    exact load_save (by simpa using l2)
  have hfind : find_row (load (fmt4 ['a'] ['b'] ['1'] (List.replicate n 'x') ++ ['\n']))
      ['a'] 0 = some 0 := by
    rw [hload1]
    simp [find_row, row_matches_of_fields k1 f1]
  have hget : (load (fmt4 ['a'] ['b'] ['1'] (List.replicate n 'x') ++ ['\n'])).getD 0 [] =
      fmt4 ['a'] ['b'] ['1'] (List.replicate n 'x') := by
    rw [hload1]; rfl
  have htok : tokens ',' (List.replicate n 'x' ++ [',']) = [List.replicate n 'x'] := by
    have : List.replicate n 'x' ++ [','] = List.replicate n 'x' ++ ',' :: [] := rfl
    rw [this, tokens_append_sep (fun h => absurd (List.eq_of_mem_replicate h) (by decide))
      (by
        intro e
        have := congrArg List.length e
        simp only [List.length_replicate, List.length_nil] at this
        unfold MAX_LINE at hn
        omega), tokens_nil]
  have hcut : snprintf MAX_LINE
      (fmt4 ['a'] ['b'] ['1'] (snprintf MAX_LIST (List.replicate n 'x' ++ ',' :: ['c']))) =
      fmt4 ['a'] ['b'] ['1'] (List.replicate n 'x' ++ [',']) := by
    have e1 : snprintf MAX_LIST (List.replicate n 'x' ++ ',' :: ['c']) =
        List.replicate n 'x' ++ ',' :: ['c'] :=
      snprintf_of_short (by
        simp only [List.length_append, List.length_replicate, List.length_cons, List.length_nil]
        unfold MAX_LIST
        unfold MAX_LINE at hn
        omega)
    have e2 : fmt4 ['a'] ['b'] ['1'] (List.replicate n 'x' ++ ',' :: ['c']) =
        fmt4 ['a'] ['b'] ['1'] (List.replicate n 'x' ++ [',']) ++ ['c'] := by
      simp [fmt4]
    rw [e1, e2]
    unfold snprintf
    apply List.take_left'
    rw [fmt4_length]
    simp only [List.length_append, List.length_replicate, List.length_cons, List.length_nil]
    unfold MAX_LINE at hn ⊢
    omega
  have hadd : add_to_student (fmt4 ['a'] ['b'] ['1'] (List.replicate n 'x') ++ ['\n'])
      ['a'] ['c'] =
      some (fmt4 ['a'] ['b'] ['1'] (List.replicate n 'x' ++ [',']) ++ ['\n']) := by
    unfold add_to_student
    simp only [hfind, hget, f1]
    have hpos : 0 < (List.replicate n 'x').length := by
      simp only [List.length_replicate]
      unfold MAX_LINE at hn
      omega
    simp only [List.length_cons, List.length_nil, List.getD_cons_succ, List.getD_cons_zero]
    simp only [hload1, hpos, decide_True, Bool.and_self, if_true, hcut]
    simp [save]
  refine ⟨hfind, by rw [hget]; exact f1, ?_, hload2, ?_⟩
  · have c1 : find_row (load "c|n|2|0\n".toList) ['c'] 0 = some 0 := by decide
    have c2 : split_line ((load "c|n|2|0\n".toList).getD 0 []) =
        [['c'], ['n'], ['2'], ['0']] := by decide
    have c3 : save ((load "c|n|2|0\n".toList).set 0 (snprintf MAX_LINE
        (fmt4 ['c'] ['n'] (fmt_d (atoi ['2'])) (fmt_d (atoi ['0'] + 1))))) =
        "c|n|2|1\n".toList := by decide
    have c4 : ¬ (atoi ['0'] ≥ atoi ['2']) := by decide
    unfold student_enroll
    simp only [c1, c2, hadd, List.length_cons, List.length_nil, List.getD_cons_succ,
      List.getD_cons_zero]
    rw [if_neg (by decide), if_neg c4, c3]
  · rw [holds_of_fields4 k2 f2, htok]
    have hne : ['c'] ≠ List.replicate n 'x' := by
      intro e
      have hm : 'c' ∈ List.replicate n 'x' := by rw [← e]; simp
      exact absurd (List.eq_of_mem_replicate hm) (by decide)
    simp [hne]

/-- C2 (counterexample): two states in which course `c` has a four-field
row with `F < L` and the student a well-formed row. First, the student row
`a|b|1|x...x` has 1022 bytes: `student_enroll` answers `[OK] Enrolled`, but
the rebuilt row `a|b|1|x...x,c` has 1024 bytes and `snprintf` keeps 1023 of
them, so the row written is `a|b|1|x...x,` and `c` is not in its list.
Second, course `#x` has the row `|#x|n|2|0`: the first enrolment rewrites it
as the comment line `#x|n|2|1`, so the second enrolment is answered
`Course not found` instead of succeeding. -/
theorem enroll_claim_fails :
    (find_row (load (fmt4 ['a'] ['b'] ['1'] (List.replicate 1016 'x') ++ ['\n'])) ['a'] 0 =
        some 0 ∧
      split_line ((load (fmt4 ['a'] ['b'] ['1'] (List.replicate 1016 'x') ++ ['\n'])).getD 0 [])
        = [['a'], ['b'], ['1'], List.replicate 1016 'x'] ∧
      student_enroll "c|n|2|0\n".toList
          (fmt4 ['a'] ['b'] ['1'] (List.replicate 1016 'x') ++ ['\n']) ['a'] ['c'] =
        some (Reply.enrolled, "c|n|2|1\n".toList,
          fmt4 ['a'] ['b'] ['1'] (List.replicate 1016 'x' ++ [',']) ++ ['\n']) ∧
      load (fmt4 ['a'] ['b'] ['1'] (List.replicate 1016 'x' ++ [',']) ++ ['\n']) =
        [fmt4 ['a'] ['b'] ['1'] (List.replicate 1016 'x' ++ [','])] ∧
      student_holds ['c'] (fmt4 ['a'] ['b'] ['1'] (List.replicate 1016 'x' ++ [','])) =
        false) ∧
    (find_row (load "|#x|n|2|0\n".toList) "#x".toList 0 = some 0 ∧
      split_line ((load "|#x|n|2|0\n".toList).getD 0 []) =
        ["#x".toList, "n".toList, "2".toList, "0".toList] ∧
      student_enroll "|#x|n|2|0\n".toList "alice|pw1|1|\n".toList "alice".toList "#x".toList =
        some (Reply.enrolled, "#x|n|2|1\n".toList, "alice|pw1|1|#x\n".toList) ∧
      student_enroll "#x|n|2|1\n".toList "alice|pw1|1|#x\n".toList "alice".toList "#x".toList =
        some (Reply.courseNotFound, "#x|n|2|1\n".toList, "alice|pw1|1|#x\n".toList)) :=
  ⟨enroll_truncates 1016 (by decide), by decide⟩

/-! ## A sequence of calls is defined on well-formed rows -/

theorem trunc_fields {s0 s1 s2 : Str} (h0 : s0 ≠ [] ∧ '|' ∉ s0) (h1 : s1 ≠ [] ∧ '|' ∉ s1)
    (h2 : s2 ≠ [] ∧ '|' ∉ s2) (hlen : s0.length + s1.length + s2.length + 2 < MAX_LINE)
    (list : Str) :
    3 ≤ (split_line (snprintf MAX_LINE (fmt4 s0 s1 s2 list))).length := by
  have hshort : (snprintf MAX_LINE (fmt4 s0 s1 s2 list)).length ≤ MAX_LINE := by
    unfold snprintf
    rw [List.length_take]
    omega
  rw [split_line_of_short hshort]
  have e : fmt4 s0 s1 s2 list = (s0 ++ '|' :: (s1 ++ '|' :: s2)) ++ '|' :: list := by
    simp [fmt4]
  have hl : (s0 ++ '|' :: (s1 ++ '|' :: s2)).length ≤ MAX_LINE - 1 := by
    simp only [List.length_append, List.length_cons]
    omega
  have e2 : snprintf MAX_LINE (fmt4 s0 s1 s2 list) =
      (s0 ++ '|' :: (s1 ++ '|' :: s2)) ++
        ('|' :: list).take (MAX_LINE - 1 - (s0 ++ '|' :: (s1 ++ '|' :: s2)).length) := by
    unfold snprintf
    rw [e, List.take_append_eq_append_take, List.take_of_length_le hl]
  rw [e2]
  cases hk : MAX_LINE - 1 - (s0 ++ '|' :: (s1 ++ '|' :: s2)).length with
  | zero =>
    rw [List.take_zero, List.append_nil, tokens_append_sep h0.2 h0.1,
      tokens_append_sep h1.2 h1.1, tokens_of_not_mem h2.2 h2.1]
    simp
  | succ k =>
    rw [List.take_succ_cons]
    have e3 : (s0 ++ '|' :: (s1 ++ '|' :: s2)) ++ '|' :: list.take k =
        s0 ++ '|' :: (s1 ++ '|' :: (s2 ++ '|' :: list.take k)) := by simp
    rw [e3, tokens_append_sep h0.2 h0.1, tokens_append_sep h1.2 h1.1,
      tokens_append_sep h2.2 h2.1]
    simp

theorem snprintf_length (s : Str) : (snprintf MAX_LINE s).length < MAX_LINE := by
  unfold snprintf
  rw [List.length_take]
  unfold MAX_LINE
  omega

theorem rebuilt_student_row {students : Str} {j : Nat} {s0 s1 s2 : Str} {rest : List Str}
    (hwf : StudentsWellFormed students) (hj : j < (load students).length)
    (hs : split_line ((load students).getD j []) = s0 :: s1 :: s2 :: rest)
    {list : Str} (hlist : Received list) :
    StudentsWellFormed
      (save ((load students).set j (snprintf MAX_LINE (fmt4 s0 s1 s2 list)))) := by
  have hl := isLine_getD_load hj
  have hff : ∀ x ∈ s0 :: s1 :: s2 :: rest, Received x ∧ x ≠ [] ∧ '|' ∉ x := by
    intro x hx
    rw [← hs] at hx
    exact ⟨received_of_field hl hx, (mem_split_line hx).1, (mem_split_line hx).2.1⟩
  have g0 := hff s0 (by simp)
  have g1 := hff s1 (by simp)
  have g2 := hff s2 (by simp)
  have hsum := split_line_length_sum ((load students).getD j [])
  rw [hs] at hsum
  simp only [List.map_cons, List.sum_cons, List.length_cons] at hsum
  have hlt := (hwf _ (getD_mem hj)).1
  have hline : IsLine (snprintf MAX_LINE (fmt4 s0 s1 s2 list)) :=
    isLine_snprintf (isLine_fmt4 g0.1 g1.1 g2.1 hlist) (by decide)
  unfold StudentsWellFormed
  rw [load_save_set hline]
  intro l hlm
  rcases List.mem_or_eq_of_mem_set hlm with h | h
  · exact hwf l h
  · subst h
    exact ⟨snprintf_length _, fun _ => trunc_fields g0.2 g1.2 g2.2 (by omega) list⟩

theorem add_to_student_defined {students s c : Str} (hwf : StudentsWellFormed students)
    (hc : Received c) :
    ∃ s1, add_to_student students s c = some s1 ∧ StudentsWellFormed s1 := by
  cases hfind : find_row (load students) s 0 with
  | none =>
    refine ⟨save (load students), by simp only [add_to_student, hfind], ?_⟩
    unfold StudentsWellFormed
    rw [save_load_save]
    exact hwf
  | some j =>
    obtain ⟨hj, hm, _⟩ := find_row_some hfind
    have hl := isLine_getD_load hj
    have h3 := (hwf _ (getD_mem hj)).2 (fields_of_row_matches hm).1
    rcases hs : split_line ((load students).getD j []) with
      _ | ⟨s0, _ | ⟨sf1, _ | ⟨s2, rest⟩⟩⟩
    · rw [hs] at h3; simp at h3
    · rw [hs] at h3; simp at h3
    · rw [hs] at h3; simp at h3
    · have hrec : ∀ f ∈ s0 :: sf1 :: s2 :: rest, Received f := by
        intro f hf
        rw [← hs] at hf
        exact received_of_field hl hf
      have h3r : Received (rest.getD 0 []) := by
        cases rest with
        | nil => simp [Received]
        | cons s3 r => simpa using hrec s3 (by simp)
      have hr : Received (snprintf MAX_LIST (rest.getD 0 [] ++ ',' :: c)) := by
        apply received_take
        constructor
        · simp only [List.mem_append, List.mem_cons, not_or]
          exact ⟨h3r.1, by decide, hc.1⟩
        · simp only [List.mem_append, List.mem_cons, not_or]
          exact ⟨h3r.2, by decide, hc.2⟩
      simp only [add_to_student, hfind, hs, List.length_cons, List.getD_cons_succ,
        List.getD_cons_zero]
      rw [if_neg (by omega)]
      split
      · exact ⟨_, rfl, rebuilt_student_row hwf hj hs hr⟩
      · exact ⟨_, rfl, rebuilt_student_row hwf hj hs hc⟩

theorem enroll_defined {c name s : Str} {i lmax : Nat} {courses students : Str}
    (hkey : is_comment_key c = false) (hfit : c.length + name.length + lmax + 14 < MAX_LINE)
    (hl11 : 11 ≤ lmax) (hct : course_tracked c name i lmax courses)
    (hwf : StudentsWellFormed students) :
    ∃ r c1 s1, student_enroll courses students s c = some (r, c1, s1) ∧
      course_tracked c name i lmax c1 ∧ StudentsWellFormed s1 := by
  obtain ⟨ha, l, f, hb, hll⟩ := hct
  obtain ⟨hi, _, _⟩ := find_row_some ha
  obtain ⟨⟨r0, r1, r2, r3⟩, g0, g1, g2, g3⟩ := course_fields_received hi hb
  by_cases hfull : atoi l ≤ atoi f
  · exact ⟨_, _, _, enroll_refused_of_full ha hb hfull, ⟨ha, l, f, hb, hll⟩, hwf⟩
  · obtain ⟨s1, hadd, hwf1⟩ := add_to_student_defined (s := s) hwf r0
    have hrl := atoi_range l
    have hrf := atoi_range f
    have a1 := fmt_d_length hrl.1 hrl.2
    have a2 := fmt_d_length (n := atoi f + 1) (by omega) (by omega)
    have hfit2 : (fmt4 c name (fmt_d (atoi l)) (fmt_d (atoi f + 1))).length < MAX_LINE := by
      rw [fmt4_length]; omega
    obtain ⟨b1, b2⟩ := row_after ha hb hkey (fmt_d_field (atoi l)) (fmt_d_field (atoi f + 1))
      hfit2
    have hload : load (save ((load courses).set i
        (fmt4 c name (fmt_d (atoi l)) (fmt_d (atoi f + 1))))) =
        (load courses).set i (fmt4 c name (fmt_d (atoi l)) (fmt_d (atoi f + 1))) :=
      load_save_set (isLine_fmt4 r0 r1 (received_fmt_d _) (received_fmt_d _))
    have hct1 : course_tracked c name i lmax (save ((load courses).set i
        (fmt4 c name (fmt_d (atoi l)) (fmt_d (atoi f + 1))))) := by
      unfold course_tracked
      rw [hload]
      exact ⟨b1, fmt_d (atoi l), fmt_d (atoi f + 1), b2, by omega⟩
    refine ⟨Reply.enrolled, save ((load courses).set i
      (fmt4 c name (fmt_d (atoi l)) (fmt_d (atoi f + 1)))), s1, ?_, hct1, hwf1⟩
    unfold student_enroll
    simp only [ha, hb, hadd]
    simp [hfull, snprintf_of_short hfit2]

theorem release_seat_defined {c name : Str} {i lmax : Nat} {courses : Str}
    (hkey : is_comment_key c = false) (hfit : c.length + name.length + lmax + 14 < MAX_LINE)
    (hct : course_tracked c name i lmax courses) :
    ∃ c1, release_seat courses c = some c1 ∧ course_tracked c name i lmax c1 := by
  obtain ⟨ha, l, f, hb, hll⟩ := hct
  obtain ⟨hi, _, _⟩ := find_row_some ha
  obtain ⟨⟨r0, r1, r2, r3⟩, g0, g1, g2, g3⟩ := course_fields_received hi hb
  have hrf := atoi_range f
  have hrange : -2147483648 ≤ (if atoi f > 0 then atoi f - 1 else atoi f) ∧
      (if atoi f > 0 then atoi f - 1 else atoi f) < 2147483648 := by
    split <;> omega
  have a2 := fmt_d_length hrange.1 hrange.2
  have hfit2 : (fmt4 c name l
      (fmt_d (if atoi f > 0 then atoi f - 1 else atoi f))).length < MAX_LINE := by
    rw [fmt4_length]; omega
  obtain ⟨b1, b2⟩ := row_after ha hb hkey g2
    (fmt_d_field (if atoi f > 0 then atoi f - 1 else atoi f)) hfit2
  have hload : load (save ((load courses).set i
      (fmt4 c name l (fmt_d (if atoi f > 0 then atoi f - 1 else atoi f))))) =
      (load courses).set i (fmt4 c name l (fmt_d (if atoi f > 0 then atoi f - 1 else atoi f))) :=
    load_save_set (isLine_fmt4 r0 r1 r2 (received_fmt_d _))
  have hct1 : course_tracked c name i lmax (save ((load courses).set i
      (fmt4 c name l (fmt_d (if atoi f > 0 then atoi f - 1 else atoi f))))) := by
    unfold course_tracked
    rw [hload]
    exact ⟨b1, l, _, b2, hll⟩
  refine ⟨save ((load courses).set i
    (fmt4 c name l (fmt_d (if atoi f > 0 then atoi f - 1 else atoi f)))), ?_, hct1⟩
  unfold release_seat
  simp only [ha, hb]
  simp [snprintf_of_short hfit2]

theorem unenroll_defined {c name s : Str} {i lmax : Nat} {courses students : Str}
    (hkey : is_comment_key c = false) (hfit : c.length + name.length + lmax + 14 < MAX_LINE)
    (hct : course_tracked c name i lmax courses) (hwf : StudentsWellFormed students) :
    ∃ r c1 s1, student_unenroll courses students s c = some (r, c1, s1) ∧
      course_tracked c name i lmax c1 ∧ StudentsWellFormed s1 := by
  cases hfind : find_row (load students) s 0 with
  | none =>
    exact ⟨Reply.silent, courses, students, by simp only [student_unenroll, hfind], hct, hwf⟩
  | some j =>
    obtain ⟨hj, hm, _⟩ := find_row_some hfind
    obtain ⟨c1, hrel, hct1⟩ := release_seat_defined hkey hfit hct
    by_cases hk : (split_line ((load students).getD j [])).length = 4
    · obtain ⟨s0, sf1, s2, s3, hf⟩ :=
        split_line_four (l := (load students).getD j []) (by omega)
      by_cases hhad : c ∈ tokens ',' s3
      · have hff := fields_facts (getD_mem hj)
        rw [hf] at hff
        have hmem : ∀ x ∈ join_comma ((tokens ',' s3).filter (fun t => t != c)),
            x = ',' ∨ x ∈ s3 := by
          intro x hx
          rcases join_comma_mem hx with h | ⟨t, ht, hxt⟩
          · exact Or.inl h
          · exact Or.inr ((mem_tokens (List.mem_of_mem_filter ht)).2.2 x hxt)
        have r3 := (hff s3 (by simp)).1
        have hnl : Received (join_comma ((tokens ',' s3).filter (fun t => t != c))) := by
          constructor
          · intro h
            rcases hmem _ h with e | e
            · exact absurd e (by decide)
            · exact r3.1 e
          · intro h
            rcases hmem _ h with e | e
            · exact absurd e (by decide)
            · exact r3.2 e
        refine ⟨Reply.unenrolled, c1, _, ?_, hct1, rebuilt_student_row hwf hj hf hnl⟩
        unfold student_unenroll
        simp only [hfind, hf, hrel]
        simp [hhad]
      · refine ⟨Reply.notEnrolled, courses, students, ?_, hct, hwf⟩
        unfold student_unenroll
        simp only [hfind, hf]
        simp [hhad]
    · refine ⟨Reply.notEnrolled, courses, students, ?_, hct, hwf⟩
      unfold student_unenroll
      simp only [hfind]
      simp [hk, -List.getD_eq_getElem?_getD]

theorem run_calls_defined {c name : Str} {i lmax : Nat}
    (hkey : is_comment_key c = false) (hfit : c.length + name.length + lmax + 14 < MAX_LINE)
    (hl11 : 11 ≤ lmax) (calls : List Call) :
    ∀ courses students, course_tracked c name i lmax courses → StudentsWellFormed students →
      ∃ final replies, run_calls c (courses, students) calls = some (final, replies) := by
  induction calls with
  | nil => intro courses students _ _; exact ⟨_, _, rfl⟩
  | cons call rest ih =>
    intro courses students hct hwf
    cases call with
    | enroll s =>
      obtain ⟨r, c1, s1, h1, hct1, hwf1⟩ := enroll_defined (s := s) hkey hfit hl11 hct hwf
      obtain ⟨final, rs, h2⟩ := ih c1 s1 hct1 hwf1
      exact ⟨final, r :: rs, by simp only [run_calls, h1, h2]⟩
    | unenroll s =>
      obtain ⟨r, c1, s1, h1, hct1, hwf1⟩ := unenroll_defined (s := s) hkey hfit hct hwf
      obtain ⟨final, rs, h2⟩ := ih c1 s1 hct1 hwf1
      exact ⟨final, r :: rs, by simp only [run_calls, h1, h2]⟩

/-- C3 (amended): start where course `c` has the four-field row
`c|name|l|f` with filled count 0 and no student's enrollment list contains
`c`, where `c` does not turn its row into a comment line and the row leaves
25 bytes of room in the `MAX_LINE` buffer. Every finite sequence of
`enroll(s, c)` and `unenroll(s, c)` calls runs to a result when every
non-skip student row has at least three fields and every student line is
shorter than `MAX_LINE`; and whenever the sequence runs to a result in which
no enroll is refused as `Course full`, the filled count of `c` afterwards
equals max(0, number of enroll calls minus number of unenroll calls answered
`[OK] Unenrolled`). -/
theorem filled_count_after_calls (courses students c name l f : Str) (i : Nat)
    (calls : List Call)
    (hrow : find_row (load courses) c 0 = some i)
    (hfld : split_line ((load courses).getD i []) = [c, name, l, f])
    (hzero : atoi f = 0)
    (hnone : enrolled_count students c = 0)
    (hkey : is_comment_key c = false)
    (hfit : c.length + name.length + l.length + 25 < MAX_LINE) :
    (StudentsWellFormed students →
      ∃ final replies, run_calls c (courses, students) calls = some (final, replies)) ∧
    (∀ final replies, run_calls c (courses, students) calls = some (final, replies) →
      Reply.courseFull ∉ replies →
      filled_count final.1 c =
        some (max 0 ((enroll_calls calls : Int) - (replies.count Reply.unenrolled : Int)))) := by
  constructor
  · intro hwf
    have hct : course_tracked c name i (l.length + 11) courses :=
      ⟨hrow, l, f, hfld, by omega⟩
    exact run_calls_defined hkey (by omega) (by omega) calls courses students hct hwf
  · intro final replies hrun hfull
    have hJ : seq_inv c name i (l.length + 11) (courses, students) 0 :=
      ⟨hrow, ⟨l, f, hfld, by simpa using hzero, by omega⟩, by simp [hnone]⟩
    obtain ⟨k1, ha, ⟨l2, f2, hb, hn, _⟩, _⟩ :=
      run_calls_inv hkey (by omega) (by omega) calls (courses, students) 0 final replies hJ
        hrun hfull
    unfold filled_count
    simp only [ha, hb, hn, Option.some.injEq]
    omega

/-- C3 (witness): `alice` and `bob` enrol in `CS101`, then `alice` drops it
twice; the second drop is answered `Not enrolled in that course`. -/
theorem filled_count_after_calls_witness :
    run_calls "CS101".toList
        ("CS101|Systems|2|0\n".toList, "alice|pw1|1|\nbob|pw2|1|\n".toList)
        [Call.enroll "alice".toList, Call.enroll "bob".toList, Call.unenroll "alice".toList,
          Call.unenroll "alice".toList] =
      some (("CS101|Systems|2|1\n".toList, "alice|pw1|1|\nbob|pw2|1|CS101\n".toList),
        [Reply.enrolled, Reply.enrolled, Reply.unenrolled, Reply.notEnrolled]) ∧
    filled_count "CS101|Systems|2|1\n".toList "CS101".toList = some 1 := by
  have h := filled_count_after_calls "CS101|Systems|2|0\n".toList
    "alice|pw1|1|\nbob|pw2|1|\n".toList "CS101".toList "Systems".toList "2".toList "0".toList 0
    [Call.enroll "alice".toList, Call.enroll "bob".toList, Call.unenroll "alice".toList,
      Call.unenroll "alice".toList]
    (by decide) (by decide) (by decide) (by decide) (by decide) (by decide)
  have hrun : run_calls "CS101".toList
      ("CS101|Systems|2|0\n".toList, "alice|pw1|1|\nbob|pw2|1|\n".toList)
      [Call.enroll "alice".toList, Call.enroll "bob".toList, Call.unenroll "alice".toList,
        Call.unenroll "alice".toList] =
      some (("CS101|Systems|2|1\n".toList, "alice|pw1|1|\nbob|pw2|1|CS101\n".toList),
        [Reply.enrolled, Reply.enrolled, Reply.unenrolled, Reply.notEnrolled]) := by
    decide
  exact ⟨hrun, h.2 _ _ hrun (by decide)⟩

/-! ## Side conditions

Each fact below runs the code on a small input on which one hypothesis of a
theorem above fails, and with it the conclusion. -/

/-- A NUL byte ends what `load` reads of the file: the bytes after it are not
written back by `save`. -/
theorem load_save_stops_at_nul :
    save (load ['a', '\x00', 'b', '\n']) = ['a', '\n'] := by
  decide

/-- A username with a `|` is stored under its first part only, so the second
`admin_add` does not find it and appends a second row. -/
theorem add_user_twice_bar_in_name :
    admin_add (admin_add [] "a|b".toList "pw1".toList).2 "a|b".toList "pw2".toList =
      (Reply.added, "a|b|pw1|1|\na|b|pw2|1|\n".toList) := by
  decide

/-- A username that starts with `#` gives a row that every lookup skips, so
the second `admin_add` appends a second row. -/
theorem add_user_twice_comment_name :
    admin_add (admin_add [] "#bob".toList "pw1".toList).2 "#bob".toList "pw2".toList =
      (Reply.added, "#bob|pw1|1|\n#bob|pw2|1|\n".toList) := by
  decide

/-- An empty password gives a row with two fields, which the second
`admin_add` overwrites. -/
theorem add_user_twice_empty_password :
    admin_add (admin_add [] "bob".toList []).2 "bob".toList "pw2".toList =
      (Reply.added, "bob|pw2|1|\n".toList) := by
  decide

/-- A course name with a `|` shifts the fields of the new row: its seat limit
reads as 0 and its filled count as 5. -/
theorem add_course_bar_in_name :
    (faculty_add_course [] "bob|pw|1|\n".toList "bob".toList "CS101".toList
        "a|b".toList "5\n".toList).2.1 = "CS101|a|b|5|0\n".toList ∧
      ¬ SeatsWithinLimit "CS101|a|b|5|0\n".toList := by
  decide

/-- A new course whose id a student row already lists starts with a filled
count of 0 while one student holds it. -/
theorem add_course_of_held_id :
    SeatsMatchEnrollment [] "alice|pw1|1|CS101\n".toList ∧
      (faculty_add_course [] [] "bob".toList "CS101".toList "Systems".toList
        "5\n".toList).2.1 = "CS101|Systems|5|0\n".toList ∧
      ¬ SeatsMatchEnrollment "CS101|Systems|5|0\n".toList "alice|pw1|1|CS101\n".toList := by
  decide

/-- An empty new password leaves a row with three fields, whose course list is
no longer read as one. -/
theorem set_empty_password_loses_list :
    SeatsMatchEnrollment "CS101|Systems|5|1\n".toList "alice|pw1|1|CS101\n".toList ∧
      admin_setpwd "alice|pw1|1|CS101\n".toList "alice".toList [] =
        (Reply.ok, "alice||1|CS101\n".toList) ∧
      ¬ SeatsMatchEnrollment "CS101|Systems|5|1\n".toList "alice||1|CS101\n".toList := by
  decide

/-! ## Blocking a user -/

theorem tokens_take_of_not_mem {d : Char} {a : Str} (h : d ∉ a) (n : Nat) :
    (tokens d (a.take n)).length ≤ 1 := by
  have h2 : d ∉ a.take n := fun hm => h (List.mem_of_mem_take hm)
  rw [tokens_of_not_mem_ite h2]
  split <;> simp

theorem third_field_of_take {a b : Str} (ha : a ≠ [] ∧ '|' ∉ a) (hb : b ≠ [] ∧ '|' ∉ b)
    (x : Char) (hx : x ≠ '|') (tail : Str) (n : Nat) :
    ∀ t, (tokens '|' ((fmt4 a b [x] tail).take n))[2]? = some t → t = [x] := by
  intro t ht
  have e : fmt4 a b [x] tail = a ++ '|' :: (b ++ '|' :: ([x] ++ '|' :: tail)) := by
    simp [fmt4]
  rw [e] at ht
  by_cases h1 : a.length < n
  · rw [take_append_sep h1, tokens_append_sep ha.2 ha.1] at ht
    by_cases h2 : b.length < n - a.length - 1
    · rw [take_append_sep h2, tokens_append_sep hb.2 hb.1] at ht
      have hx1 : '|' ∉ [x] := by simpa using hx.symm
      by_cases h3 : ([x] : Str).length < n - a.length - 1 - b.length - 1
      · rw [take_append_sep h3, tokens_append_sep hx1 (by simp)] at ht
        simpa using ht.symm
      · have h4 : n - a.length - 1 - b.length - 1 ≤ 1 := by simpa using h3
        have hl := tokens_take_of_not_mem (d := '|') (a := [x] ++ '|' :: tail |>.take 1) (by
          simpa using hx.symm) (n - a.length - 1 - b.length - 1)
        rw [List.take_take, Nat.min_eq_left h4] at hl
        rcases hk : tokens '|' (([x] ++ '|' :: tail).take (n - a.length - 1 - b.length - 1))
          with _ | ⟨y, _ | ⟨z, r⟩⟩
        · rw [hk] at ht; simp at ht
        · rw [hk] at ht
          simp only [List.getElem?_cons_succ, List.getElem?_cons_zero, Option.some.injEq] at ht
          rw [← ht]
          have hm : y ∈ tokens '|' (([x] ++ '|' :: tail).take
              (n - a.length - 1 - b.length - 1)) := by rw [hk]; simp
          interval_cases hq : n - a.length - 1 - b.length - 1
          · simp [tokens_nil] at hm
          · simp at hm
            rw [tokens_of_not_mem (by simpa using hx.symm) (by simp)] at hm
            simpa using hm
        · rw [hk] at hl; simp at hl
    · have hl := tokens_take_of_not_mem hb.2 (n - a.length - 1)
      have e2 : (b ++ '|' :: ([x] ++ '|' :: tail)).take (n - a.length - 1) =
          b.take (n - a.length - 1) := by
        rw [List.take_append_of_le_length (by omega)]
      rw [e2] at ht
      rcases hk : tokens '|' (b.take (n - a.length - 1)) with _ | ⟨y, _ | ⟨z, r⟩⟩
      · rw [hk] at ht; simp at ht
      · rw [hk] at ht; simp at ht
      · rw [hk] at hl; simp at hl
  · have hl := tokens_take_of_not_mem ha.2 n
    have e2 : (a ++ '|' :: (b ++ '|' :: ([x] ++ '|' :: tail))).take n = a.take n := by
      rw [List.take_append_of_le_length (by omega)]
    rw [e2] at ht
    rcases hk : tokens '|' (a.take n) with _ | ⟨y, _ | ⟨z, r⟩⟩
    · rw [hk] at ht; simp at ht
    · rw [hk] at ht; simp at ht
    · rw [hk] at hl; simp at hl

theorem blocked_row_rejected {a b : Str} (ha : a ≠ [] ∧ '|' ∉ a) (hb : b ≠ [] ∧ '|' ∉ b)
    (tail u p : Str) :
    auth_row u p (snprintf MAX_LINE (fmt4 a b ['0'] tail)) = false := by
  cases h : auth_row u p (snprintf MAX_LINE (fmt4 a b ['0'] tail)) with
  | false => rfl
  | true =>
    obtain ⟨-, g0, g1, g2, rest, hs, -, -, hflag⟩ := (auth_row_iff _ _ _).mp h
    have hshort : (snprintf MAX_LINE (fmt4 a b ['0'] tail)).length ≤ MAX_LINE :=
      Nat.le_of_lt (snprintf_length _)
    rw [split_line_of_short hshort] at hs
    have h2 : (tokens '|' (snprintf MAX_LINE (fmt4 a b ['0'] tail)))[2]? = some g2 := by
      have := congrArg (fun l => l[2]?) hs
      simpa [List.getElem?_take] using this
    have := third_field_of_take ha hb '0' (by decide) tail (MAX_LINE - 1) g2 h2
    rw [this] at hflag
    simp at hflag

theorem rest_cases {l f0 f1 f2 : Str} {rest : List Str}
    (hs : split_line l = f0 :: f1 :: f2 :: rest) : rest = [] ∨ ∃ f3, rest = [f3] := by
  have h := split_line_length_le l
  rw [hs] at h
  rcases rest with _ | ⟨f3, _ | ⟨e, r⟩⟩
  · exact Or.inl rfl
  · exact Or.inr ⟨f3, rfl⟩
  · simp at h

theorem admin_toggle_ok {content u : Str} (activate : Bool) {i : Nat} {f0 f1 f2 : Str}
    {rest : List Str} (hfind : find_row (load content) u 0 = some i)
    (hs : split_line ((load content).getD i []) = f0 :: f1 :: f2 :: rest) :
    admin_toggle content u activate =
      (Reply.ok, save ((load content).set i
        (snprintf MAX_LINE (fmt4 f0 f1 [if activate then '1' else '0'] (rest.headD []))))) := by
  rcases rest_cases hs with rfl | ⟨f3, rfl⟩
  · simp only [admin_toggle, hfind, hs]
    simp
  · simp only [admin_toggle, hfind, hs]
    simp

theorem admin_toggle_malformed {content u : Str} (activate : Bool) {i : Nat}
    (hfind : find_row (load content) u 0 = some i)
    (hs : (split_line ((load content).getD i [])).length < 3) :
    admin_toggle content u activate = (Reply.malformed, content) := by
  simp only [admin_toggle, hfind]
  simp [-List.getD_eq_getElem?_getD, hs]

theorem admin_toggle_not_found {content u : Str} (activate : Bool)
    (hfind : find_row (load content) u 0 = none) :
    admin_toggle content u activate = (Reply.userNotFound, content) := by
  simp only [admin_toggle, hfind]

theorem received_headD {rest : List Str} (h : ∀ x ∈ rest, Received x) :
    Received (rest.headD []) := by
  cases rest with
  | nil => exact ⟨by simp, by simp⟩
  | cons a r => exact h a (by simp)

/-- C11: on a student file with unique usernames, once `admin_toggle` has
blocked `u` (it answered `[OK]`), `auth_file` on the resulting file rejects
`u` with every password. -/
theorem blocked_user_rejected (content u p : Str) (huniq : UniqueKeys content)
    (hok : (admin_toggle content u false).1 = Reply.ok) :
    (auth_file (admin_toggle content u false).2 u p).1 = false := by
  cases hfind : find_row (load content) u 0 with
  | none => rw [admin_toggle_not_found false hfind] at hok; simp at hok
  | some i =>
    obtain ⟨hi, hm, -⟩ := find_row_some hfind
    have hff := fields_facts (getD_mem hi)
    by_cases hlen : (split_line ((load content).getD i [])).length < 3
    · rw [admin_toggle_malformed false hfind hlen] at hok; simp at hok
    · rcases hs : split_line ((load content).getD i []) with
        _ | ⟨f0, _ | ⟨f1, _ | ⟨f2, rest⟩⟩⟩
      · rw [hs] at hlen; simp at hlen
      · rw [hs] at hlen; simp at hlen
      · rw [hs] at hlen; simp at hlen
      · rw [hs] at hff
        have h0 := hff f0 (by simp)
        have h1 := hff f1 (by simp)
        have hrest : Received (rest.headD []) :=
          received_headD (fun x hx => (hff x (by simp [hx])).1)
        have hline : IsLine (snprintf MAX_LINE (fmt4 f0 f1 ['0'] (rest.headD []))) :=
          isLine_snprintf (isLine_fmt4 h0.1 h1.1 (by decide) hrest) (by decide)
        rw [admin_toggle_ok false hfind hs]
        simp only [auth_file, Bool.if_false_right, Bool.false_eq_true, if_false]
        rw [load_save_set hline]
        rw [List.any_eq_false]
        intro l hl
        have key : ∀ l ∈ (load content).set i
            (snprintf MAX_LINE (fmt4 f0 f1 ['0'] (rest.headD []))), auth_row u p l = false := by
          refine forall_mem_set (P := fun l => auth_row u p l = false)
            (blocked_row_rejected ⟨h0.2.1, h0.2.2.1⟩ ⟨h1.2.1, h1.2.2.1⟩ _ u p) ?_
          intro k hki hk
          cases ha : auth_row u p ((load content).getD k []) with
          | false => rfl
          | true =>
            obtain ⟨hskip, g0, g1, g2, r, hg, rfl, -, -⟩ := (auth_row_iff _ _ _).mp ha
            have k1 : row_key ((load content).getD k []) = some g0 :=
              row_key_of_fields hskip hg
            have k2 : row_key ((load content).getD i []) = some g0 :=
              (row_matches_iff _ _).mp hm
            exact absurd (key_index_unique huniq hi hk k2 k1).symm hki
        simpa using key l hl

/-- C11 (witness): `alice` is blocked and her password no longer
authenticates. -/
theorem blocked_user_rejected_witness :
    (auth_file "bob|pw2|1|\nalice|pw1|1|CS101\n".toList "alice".toList "pw1".toList).1 = true ∧
      (auth_file (admin_toggle "bob|pw2|1|\nalice|pw1|1|CS101\n".toList "alice".toList
        false).2 "alice".toList "pw1".toList).1 = false :=
  ⟨by decide, blocked_user_rejected "bob|pw2|1|\nalice|pw1|1|CS101\n".toList "alice".toList
    "pw1".toList (by decide) (by decide)⟩

/-! ## Rebuilt rows -/

theorem is_skip_line_snprintf {a : Str} (ha : a.length + 1 < MAX_LINE) (b c d : Str) :
    is_skip_line (snprintf MAX_LINE (fmt4 a b c d)) = is_comment_key a := by
  have e : fmt4 a b c d = a ++ '|' :: (b ++ '|' :: (c ++ '|' :: d)) := rfl
  unfold snprintf
  rw [e, take_append_sep (by omega), is_skip_line_key]

theorem split_line_rebuilt {a b c : Str} {rest : List Str} (ha : a ≠ [] ∧ '|' ∉ a)
    (hb : b ≠ [] ∧ '|' ∉ b) (hc : c ≠ [] ∧ '|' ∉ c) (hrest : ∀ x ∈ rest, x ≠ [] ∧ '|' ∉ x)
    (hr : rest.length ≤ 1)
    (hlen : a.length + b.length + c.length + (rest.headD []).length + rest.length + 2
      < MAX_LINE) :
    split_line (snprintf MAX_LINE (fmt4 a b c (rest.headD []))) = a :: b :: c :: rest := by
  rcases rest with _ | ⟨d, _ | ⟨e, r⟩⟩
  · simp only [List.headD_nil, List.length_nil] at hlen ⊢
    have h3 := trunc_fields ha hb hc (by omega) []
    have hshort : (snprintf MAX_LINE (fmt4 a b c [])).length ≤ MAX_LINE :=
      Nat.le_of_lt (snprintf_length _)
    by_cases hfit : (fmt4 a b c []).length < MAX_LINE
    · rw [snprintf_of_short hfit]
      exact split_line_fmt4_nil ha hb hc (Nat.le_of_lt hfit)
    · have hl := fmt4_length a b c []
      simp only [List.length_nil] at hl
      have e1 : fmt4 a b c [] = (a ++ '|' :: (b ++ '|' :: c)) ++ ['|'] := by simp [fmt4]
      have e2 : snprintf MAX_LINE (fmt4 a b c []) = a ++ '|' :: (b ++ '|' :: c) := by
        unfold snprintf
        rw [e1, List.take_append_of_le_length (by
          simp only [List.length_append, List.length_cons]; omega)]
        apply List.take_of_length_le
        simp only [List.length_append, List.length_cons]
        omega
      rw [split_line_of_short hshort, e2, tokens_append_sep ha.2 ha.1,
        tokens_append_sep hb.2 hb.1, tokens_of_not_mem hc.2 hc.1]
      rfl
  · simp only [List.headD_cons, List.length_singleton] at hlen ⊢
    have hfit : (fmt4 a b c d).length < MAX_LINE := by rw [fmt4_length]; omega
    rw [snprintf_of_short hfit]
    exact split_line_fmt4 ha hb hc (hrest d (by simp)) (Nat.le_of_lt hfit)
  · simp at hr

theorem rest_length_sum {l f0 f1 f2 : Str} {rest : List Str}
    (hs : split_line l = f0 :: f1 :: f2 :: rest) :
    f0.length + f1.length + f2.length + (rest.headD []).length + rest.length + 2 ≤ l.length ∧
      rest.length ≤ 1 ∧ 0 < f0.length ∧ 0 < f1.length ∧ 0 < f2.length := by
  rcases rest_cases hs with rfl | ⟨f3, rfl⟩
  · have := fields3_length hs
    simp only [List.headD_nil, List.length_nil]
    omega
  · have := fields4_length hs
    simp only [List.headD_cons, List.length_singleton]
    omega

/-! ## Activating and blocking -/

theorem toggled_row {content u : Str} (activate : Bool) {i : Nat} {f0 f1 f2 : Str}
    {rest : List Str} (hfind : find_row (load content) u 0 = some i)
    (hs : split_line ((load content).getD i []) = f0 :: f1 :: f2 :: rest)
    (hshort : ((load content).getD i []).length < MAX_LINE) :
    IsLine (snprintf MAX_LINE (fmt4 f0 f1 [if activate then '1' else '0'] (rest.headD []))) ∧
      split_line (snprintf MAX_LINE
          (fmt4 f0 f1 [if activate then '1' else '0'] (rest.headD []))) =
        f0 :: f1 :: [if activate then '1' else '0'] :: rest ∧
      is_skip_line (snprintf MAX_LINE
          (fmt4 f0 f1 [if activate then '1' else '0'] (rest.headD []))) = is_comment_key u ∧
      f0 = u := by
  obtain ⟨hi, hm, -⟩ := find_row_some hfind
  obtain ⟨-, r, hr⟩ := fields_of_row_matches hm
  have hff := fields_facts (getD_mem hi)
  rw [hs] at hff hr
  simp only [List.cons.injEq] at hr
  obtain ⟨rfl, -⟩ := hr
  have h0 := hff f0 (by simp)
  have h1 := hff f1 (by simp)
  obtain ⟨fr, ff⟩ := flag_field activate
  have hl := rest_length_sum hs
  refine ⟨isLine_snprintf (isLine_fmt4 h0.1 h1.1 fr
      (received_headD (fun x hx => (hff x (by simp [hx])).1))) (by decide), ?_, ?_, rfl⟩
  · apply split_line_rebuilt ⟨h0.2.1, h0.2.2.1⟩ ⟨h1.2.1, h1.2.2.1⟩ ff
      (fun x hx => ⟨(hff x (by simp [hx])).2.1, (hff x (by simp [hx])).2.2.1⟩) hl.2.1
    simp only [List.length_singleton]
    omega
  · exact is_skip_line_snprintf (by omega) _ _ _

/-- C12 (amended): `admin_toggle` answers `User not found` when no row is keyed by `u`
and `Malformed record` when the first such row has fewer than three fields,
leaving the file as it is; otherwise, on a row shorter than `MAX_LINE`, it
answers `[OK]`, the row at the same index then reads username, password, the
new flag and the old course list, and the other rows are unchanged. Applying
it a second time leaves the file of the first application when `u` is not a
comment key or the usernames are unique. -/
theorem set_active_effect (content u : Str) (activate : Bool) :
    (find_row (load content) u 0 = none →
      admin_toggle content u activate = (Reply.userNotFound, content)) ∧
    (∀ i, find_row (load content) u 0 = some i →
      (split_line ((load content).getD i [])).length < 3 →
      admin_toggle content u activate = (Reply.malformed, content)) ∧
    (∀ i f0 f1 f2 rest, find_row (load content) u 0 = some i →
      split_line ((load content).getD i []) = f0 :: f1 :: f2 :: rest →
      ((load content).getD i []).length < MAX_LINE →
      ∃ x c1, admin_toggle content u activate = (Reply.ok, c1) ∧
        load c1 = (load content).set i x ∧
        split_line x = u :: f1 :: [if activate then '1' else '0'] :: rest ∧ f0 = u) ∧
    ((is_comment_key u = false ∨ UniqueKeys content) →
      (∀ l ∈ load content, l.length < MAX_LINE) →
      (admin_toggle (admin_toggle content u activate).2 u activate).2 =
        (admin_toggle content u activate).2) := by
  refine ⟨admin_toggle_not_found activate, fun i hf hl => admin_toggle_malformed activate hf hl,
    ?_, ?_⟩
  · intro i f0 f1 f2 rest hfind hs hshort
    obtain ⟨hline, hsplit, -, rfl⟩ := toggled_row activate hfind hs hshort
    exact ⟨_, _, admin_toggle_ok activate hfind hs, load_save_set hline, hsplit, rfl⟩
  · intro hcond hshort
    cases hfind : find_row (load content) u 0 with
    | none =>
      rw [admin_toggle_not_found activate hfind]
      simp only
      rw [admin_toggle_not_found activate hfind]
    | some i =>
      obtain ⟨hi, hm, hbefore⟩ := find_row_some hfind
      by_cases hlen : (split_line ((load content).getD i [])).length < 3
      · rw [admin_toggle_malformed activate hfind hlen]
        simp only
        rw [admin_toggle_malformed activate hfind hlen]
      · rcases hs : split_line ((load content).getD i []) with
          _ | ⟨f0, _ | ⟨f1, _ | ⟨f2, rest⟩⟩⟩
        · rw [hs] at hlen; simp at hlen
        · rw [hs] at hlen; simp at hlen
        · rw [hs] at hlen; simp at hlen
        · obtain ⟨hline, hsplit, hskip, rfl⟩ :=
            toggled_row activate hfind hs (hshort _ (getD_mem hi))
          rw [admin_toggle_ok activate hfind hs]
          simp only
          have hload := @load_save_set content i _ hline
          by_cases hck : is_comment_key f0 = false
          · have hfind2 : find_row (load (save ((load content).set i (snprintf MAX_LINE
                (fmt4 f0 f1 [if activate then '1' else '0'] (rest.headD [])))))) f0 0 =
                some i := by
              rw [hload]
              exact find_row_set hfind (row_matches_of_fields (by rw [hskip, hck]) hsplit)
            have hs2 : split_line ((load (save ((load content).set i (snprintf MAX_LINE
                (fmt4 f0 f1 [if activate then '1' else '0'] (rest.headD [])))))).getD i []) =
                f0 :: f1 :: [if activate then '1' else '0'] :: rest := by
              rw [hload, getD_set_self hi]
              exact hsplit
            rw [admin_toggle_ok activate hfind2 hs2]
            simp only
            rw [hload, List.set_set]
          · have huniq : UniqueKeys content := by
              rcases hcond with h | h
              · exact absurd h hck
              · exact h
            have hfind2 : find_row (load (save ((load content).set i (snprintf MAX_LINE
                (fmt4 f0 f1 [if activate then '1' else '0'] (rest.headD [])))))) f0 0 =
                none := by
              rw [hload]
              apply find_row_eq_none
              refine forall_mem_set (P := fun l => row_matches f0 0 l = false) ?_ ?_
              · simp only [row_matches, hskip]
                simp at hck
                simp [hck]
              · intro k hki hk
                cases ha : row_matches f0 0 ((load content).getD k []) with
                | false => rfl
                | true =>
                  exact absurd (key_index_unique huniq hi hk ((row_matches_iff _ _).mp hm)
                    ((row_matches_iff _ _).mp ha)).symm hki
            rw [admin_toggle_not_found activate hfind2]

/-- C12 (witness): blocking `alice` twice gives the file of blocking her once. -/
theorem set_active_effect_witness :
    (admin_toggle (admin_toggle "bob|pw2|1|\nalice|pw1|1|CS101\n".toList "alice".toList
        false).2 "alice".toList false).2 =
      (admin_toggle "bob|pw2|1|\nalice|pw1|1|CS101\n".toList "alice".toList false).2 ∧
    (admin_toggle "bob|pw2|1|\nalice|pw1|1|CS101\n".toList "alice".toList false).2 =
      "bob|pw2|1|\nalice|pw1|0|CS101\n".toList :=
  ⟨(set_active_effect "bob|pw2|1|\nalice|pw1|1|CS101\n".toList "alice".toList false).2.2.2
    (Or.inl (by decide)) (by decide), by decide⟩

/-- C12 (counterexample): two rows are keyed by `#x`; the first `admin_toggle`
rewrites the first of them as the comment line `#x|a|0|`, so the second call
finds and rewrites the other row: the file after two calls differs from the
file after one. -/
theorem set_active_twice_differs :
    admin_toggle "|#x|a|1|\n|#x|b|1|\n".toList "#x".toList false =
        (Reply.ok, "#x|a|0|\n|#x|b|1|\n".toList) ∧
      admin_toggle "#x|a|0|\n|#x|b|1|\n".toList "#x".toList false =
        (Reply.ok, "#x|a|0|\n#x|b|0|\n".toList) := by
  decide

/-! ## Setting a password -/

theorem admin_setpwd_ok {content u : Str} (p : Str) {i : Nat} {f0 f1 f2 : Str}
    {rest : List Str} (hfind : find_row (load content) u 0 = some i)
    (hs : split_line ((load content).getD i []) = f0 :: f1 :: f2 :: rest) :
    admin_setpwd content u p =
      (Reply.ok, save ((load content).set i
        (snprintf MAX_LINE (fmt4 f0 p f2 (rest.headD []))))) := by
  rcases rest_cases hs with rfl | ⟨f3, rfl⟩
  · simp only [admin_setpwd, hfind, hs]
    simp
  · simp only [admin_setpwd, hfind, hs]
    simp

theorem admin_setpwd_not_found {content u : Str} (p : Str)
    (hfind : find_row (load content) u 0 = none) :
    admin_setpwd content u p = (Reply.userNotFound, content) := by
  simp only [admin_setpwd, hfind]

theorem mem_set_self {ls : List Str} {i : Nat} (hi : i < ls.length) (x : Str) :
    x ∈ ls.set i x := by
  have h := @getD_mem (ls.set i x) i (by simpa using hi)
  rwa [getD_set_self hi] at h

/-- C13 (amended): with a non-empty new password `p` without `|`, on a row keyed by `u`
with at least three fields that leaves room for `p` in `MAX_LINE` bytes,
`admin_setpwd` answers `[OK]`; the row at the same index then reads username,
`p`, the old flag and the old course list, the other rows are unchanged, and
an active user whose name is not a comment key authenticates with `p`. With
no row keyed by `u` it answers `User not found` and leaves the file as it
is. -/
theorem set_password_effect (content u p : Str) (hp : Received p) (hpne : p ≠ [])
    (hpbar : '|' ∉ p) :
    (find_row (load content) u 0 = none →
      admin_setpwd content u p = (Reply.userNotFound, content)) ∧
    (∀ i f0 f1 f2 rest, find_row (load content) u 0 = some i →
      split_line ((load content).getD i []) = f0 :: f1 :: f2 :: rest →
      ((load content).getD i []).length + p.length < MAX_LINE →
      ∃ x c1, admin_setpwd content u p = (Reply.ok, c1) ∧
        load c1 = (load content).set i x ∧
        split_line x = u :: p :: f2 :: rest ∧ f0 = u ∧
        (is_comment_key u = false → f2.head? = some '1' →
          (auth_file c1 u p).1 = true)) := by
  refine ⟨admin_setpwd_not_found p, ?_⟩
  intro i f0 f1 f2 rest hfind hs hfit
  obtain ⟨hi, hm, -⟩ := find_row_some hfind
  obtain ⟨-, r, hr⟩ := fields_of_row_matches hm
  have hff := fields_facts (getD_mem hi)
  rw [hs] at hff hr
  simp only [List.cons.injEq] at hr
  obtain ⟨rfl, -⟩ := hr
  have h0 := hff f0 (by simp)
  have h2 := hff f2 (by simp)
  have hl := rest_length_sum hs
  have hline : IsLine (snprintf MAX_LINE (fmt4 f0 p f2 (rest.headD []))) :=
    isLine_snprintf (isLine_fmt4 h0.1 hp h2.1
      (received_headD (fun x hx => (hff x (by simp [hx])).1))) (by decide)
  have hsplit : split_line (snprintf MAX_LINE (fmt4 f0 p f2 (rest.headD []))) =
      f0 :: p :: f2 :: rest :=
    split_line_rebuilt ⟨h0.2.1, h0.2.2.1⟩ ⟨hpne, hpbar⟩ ⟨h2.2.1, h2.2.2.1⟩
      (fun x hx => ⟨(hff x (by simp [hx])).2.1, (hff x (by simp [hx])).2.2.1⟩) hl.2.1
      (by omega)
  have hskip : is_skip_line (snprintf MAX_LINE (fmt4 f0 p f2 (rest.headD []))) =
      is_comment_key f0 := is_skip_line_snprintf (by omega) _ _ _
  have hload := @load_save_set content i _ hline
  refine ⟨_, _, admin_setpwd_ok p hfind hs, hload, hsplit, rfl, ?_⟩
  intro hkey hflag
  simp only [auth_file]
  rw [hload, List.any_eq_true]
  refine ⟨_, mem_set_self hi _, ?_⟩
  exact (auth_row_iff _ _ _).mpr
    ⟨by rw [hskip, hkey], f0, p, f2, rest, hsplit, rfl, rfl, hflag⟩

/-- C13 (witness): `alice` gets the password `pw2` and authenticates with it. -/
theorem set_password_effect_witness :
    admin_setpwd "bob|pw|1|\nalice|pw1|1|CS101\n".toList "alice".toList "pw2".toList =
        (Reply.ok, "bob|pw|1|\nalice|pw2|1|CS101\n".toList) ∧
      (auth_file "bob|pw|1|\nalice|pw2|1|CS101\n".toList "alice".toList "pw2".toList).1 =
        true := by
  obtain ⟨x, c1, h1, -, -, -, h5⟩ :=
    (set_password_effect "bob|pw|1|\nalice|pw1|1|CS101\n".toList "alice".toList
      "pw2".toList (by decide) (by decide) (by decide)).2 1 "alice".toList "pw1".toList
      "1".toList ["CS101".toList] (by decide) (by decide) (by decide)
  have e : admin_setpwd "bob|pw|1|\nalice|pw1|1|CS101\n".toList "alice".toList
      "pw2".toList = (Reply.ok, "bob|pw|1|\nalice|pw2|1|CS101\n".toList) := by decide
  rw [e] at h1
  simp only [Prod.mk.injEq, true_and] at h1
  subst h1
  exact ⟨e, h5 (by decide) (by decide)⟩

/-- C13 (counterexample): the empty password holds no `|` and no newline;
`admin_setpwd` answers `[OK]` and writes `alice||1|CS101`, which `split_line`
reads as the three fields `alice`, `1`, `CS101`: the password is not the empty
one, the flag is not `1`, the course list is gone and `alice` no longer
authenticates. -/
theorem set_password_empty :
    admin_setpwd "alice|pw1|1|CS101\n".toList "alice".toList [] =
        (Reply.ok, "alice||1|CS101\n".toList) ∧
      split_line "alice||1|CS101".toList = ["alice".toList, "1".toList, "CS101".toList] ∧
      (auth_file "alice||1|CS101\n".toList "alice".toList []).1 = false := by
  decide

/-! ## Adding a course twice -/

theorem course_row_matches {id : Str} (name lim : Str) (hine : id ≠ []) (hibar : '|' ∉ id)
    (hkey : is_comment_key id = false) (hil : id.length < MAX_LINE) :
    row_matches id 0 (fmt4 id name lim ['0']) = true := by
  obtain ⟨r, hr⟩ := split_line_cons hine hibar hil (name ++ '|' :: (lim ++ '|' :: ['0']))
  exact row_matches_of_fields (by rw [is_skip_line_fmt4, hkey]) hr

theorem add_course_catalogue (courses faculty who id name lim : Str) :
    (faculty_add_course courses faculty who id name lim).2.1 =
      save (match find_row (load courses) id 0 with
        | none => load courses ++ [fmt4 id name (fmt_d (atoi lim)) ['0']]
        | some _ => load courses) := rfl

theorem load_catalogue_append {courses id name : Str} (hid : Received id)
    (hname : Received name) (n : Int) :
    load (save (load courses ++ [fmt4 id name (fmt_d n) ['0']])) =
      load courses ++ [fmt4 id name (fmt_d n) ['0']] := by
  apply load_save
  intro l hl
  rcases List.mem_append.mp hl with h | h
  · exact isLine_of_mem_load h
  · simp only [List.mem_singleton] at h
    rw [h]
    exact isLine_fmt4 hid hname (received_fmt_d n) (by decide)

/-- C14 (amended): for a non-empty course id without `|` that is not a comment key, a
second `faculty_add_course` with the same id leaves the course file of the
first one as it is; and when the catalogue had no row keyed by the id before
the first call, it then holds exactly one such row, which reads the id, the
first name and the first seat limit; when it had such a row, the rows of the
catalogue are after each of the two calls what they were. -/
theorem add_course_twice (courses faculty who id n1 n2 l1 l2 : Str)
    (hid : Received id) (hn1 : Received n1) (hine : id ≠ []) (hibar : '|' ∉ id)
    (hkey : is_comment_key id = false) (hil : id.length < MAX_FIELD) :
    (faculty_add_course (faculty_add_course courses faculty who id n1 l1).2.1
        (faculty_add_course courses faculty who id n1 l1).2.2 who id n2 l2).2.1 =
      (faculty_add_course courses faculty who id n1 l1).2.1 ∧
    (find_row (load courses) id 0 = none → n1 ≠ [] → '|' ∉ n1 → n1.length < MAX_FIELD →
      ((load (faculty_add_course courses faculty who id n1 l1).2.1).filter
          (fun l => row_matches id 0 l)).length = 1 ∧
        ∃ i lim f,
          find_row (load (faculty_add_course courses faculty who id n1 l1).2.1) id 0 =
            some i ∧
          split_line ((load (faculty_add_course courses faculty who id n1 l1).2.1).getD i [])
            = [id, n1, lim, f] ∧
          atoi lim = atoi l1 ∧ f = ['0']) ∧
    (∀ i, find_row (load courses) id 0 = some i →
      load (faculty_add_course courses faculty who id n1 l1).2.1 = load courses ∧
        load (faculty_add_course (faculty_add_course courses faculty who id n1 l1).2.1
          (faculty_add_course courses faculty who id n1 l1).2.2 who id n2 l2).2.1 =
          load courses) := by
  have hil2 : id.length < MAX_LINE := by unfold MAX_FIELD at hil; unfold MAX_LINE; omega
  have hmatch := fun name lim => course_row_matches name lim hine hibar hkey hil2
  refine ⟨?_, ?_, ?_⟩
  · rw [add_course_catalogue, add_course_catalogue]
    cases hfind : find_row (load courses) id 0 with
    | some i =>
      simp only
      rw [save_load_save, hfind]
    | none =>
      simp only
      rw [load_catalogue_append hid hn1, find_row_append_singleton hfind (hmatch _ _)]
  · intro hfind hne hbar hnl
    rw [add_course_catalogue, hfind]
    simp only
    rw [load_catalogue_append hid hn1]
    have hnone := find_row_none hfind
    refine ⟨?_, (load courses).length, fmt_d (atoi l1), ['0'],
      find_row_append_singleton hfind (hmatch _ _), ?_,
      atoi_fmt_d (atoi_range l1).1 (atoi_range l1).2, rfl⟩
    · rw [List.filter_append, List.filter_eq_nil_iff.mpr (fun l hl => by simp [hnone l hl])]
      simp [hmatch]
    · have e : (load courses ++ [fmt4 id n1 (fmt_d (atoi l1)) ['0']]).getD
          (load courses).length [] = fmt4 id n1 (fmt_d (atoi l1)) ['0'] := by
        simp
      rw [e]
      apply split_line_fmt4 ⟨hine, hibar⟩ ⟨hne, hbar⟩ (fmt_d_field _) (by decide)
      rw [fmt4_length]
      have := fmt_d_length (atoi_range l1).1 (atoi_range l1).2
      simp only [List.length_singleton]
      unfold MAX_FIELD at hil hnl
      unfold MAX_LINE
      omega
  · intro i hfind
    have e1 : load (faculty_add_course courses faculty who id n1 l1).2.1 = load courses := by
      rw [add_course_catalogue, hfind]
      simp only
      rw [save_load_save]
    refine ⟨e1, ?_⟩
    rw [add_course_catalogue, e1, hfind]
    simp only
    rw [save_load_save]

/-- C14 (witness): `CS101` is added with limit 2 and then again with limit 9;
the catalogue keeps the row of the first call. -/
theorem add_course_twice_witness :
    (faculty_add_course "CS101|Systems|2|0\n".toList "bob|pw|1|CS101\n".toList "bob".toList
        "CS101".toList "Networks".toList "9\n".toList).2.1 = "CS101|Systems|2|0\n".toList ∧
      (faculty_add_course [] "bob|pw|1|\n".toList "bob".toList "CS101".toList
        "Systems".toList "2\n".toList) =
        (Reply.courseAdded, "CS101|Systems|2|0\n".toList, "bob|pw|1|CS101\n".toList) := by
  have h := (add_course_twice [] "bob|pw|1|\n".toList "bob".toList "CS101".toList
    "Systems".toList "Networks".toList "2\n".toList "9\n".toList (by decide) (by decide)
    (by decide) (by decide) (by decide) (by decide)).1
  have e : faculty_add_course [] "bob|pw|1|\n".toList "bob".toList "CS101".toList
      "Systems".toList "2\n".toList =
      (Reply.courseAdded, "CS101|Systems|2|0\n".toList, "bob|pw|1|CS101\n".toList) := by
    decide
  rw [e] at h
  exact ⟨h, e⟩

/-- C14 (counterexample): when the catalogue already holds `CS101` with seat
limit 5, adding it with limit 7 and again with limit 9 leaves the limit at 5,
not 7; and with an empty course id the second call appends a second row, so
the course file changes. -/
theorem add_course_twice_fails :
    ((faculty_add_course "CS101|Systems|5|0\n".toList "bob|pw|1|\n".toList "bob".toList
        "CS101".toList "Networks".toList "7\n".toList) =
        (Reply.courseAdded, "CS101|Systems|5|0\n".toList, "bob|pw|1|CS101\n".toList) ∧
      (faculty_add_course "CS101|Systems|5|0\n".toList "bob|pw|1|CS101\n".toList "bob".toList
        "CS101".toList "Networks".toList "9\n".toList).2.1 = "CS101|Systems|5|0\n".toList) ∧
    ((faculty_add_course [] "bob|pw|1|\n".toList "bob".toList [] "Systems".toList
        "5\n".toList) = (Reply.courseAdded, "|Systems|5|0\n".toList, "bob|pw|1|\n".toList) ∧
      (faculty_add_course "|Systems|5|0\n".toList "bob|pw|1|\n".toList "bob".toList []
        "Networks".toList "7\n".toList).2.1 = "|Systems|5|0\n|Networks|7|0\n".toList) := by
  decide

/-! ## Adding a course: the owner's row -/

theorem add_to_owner_ok {faculty who id f0 f1 f2 : Str} {rest : List Str} {j : Nat}
    (hprow : find_row (load faculty) who 0 = some j)
    (hfld : split_line ((load faculty).getD j []) = f0 :: f1 :: f2 :: rest)
    (hact : f2.head? = some '1') (hid : Received id)
    (hfit : (fmt4 f0 f1 f2 (appended rest id)).length < MAX_LINE) :
    add_to_owner faculty who id =
        save ((load faculty).set j (fmt4 f0 f1 f2 (appended rest id))) ∧
      load (save ((load faculty).set j (fmt4 f0 f1 f2 (appended rest id)))) =
        (load faculty).set j (fmt4 f0 f1 f2 (appended rest id)) := by
  obtain ⟨hj, _, _⟩ := find_row_some hprow
  have hff := fields_facts (getD_mem hj)
  rw [hfld] at hff
  have hline : IsLine (fmt4 f0 f1 f2 (appended rest id)) :=
    isLine_fmt4 (hff f0 (by simp)).1 (hff f1 (by simp)).1 (hff f2 (by simp)).1
      (received_appended (fun f hf => (hff f (by simp [hf])).1) hid)
  refine ⟨?_, load_save_set hline⟩
  rcases rest_cases hfld with rfl | ⟨f3, rfl⟩
  · simp only [add_to_owner, hprow, hfld]
    simp only [appended] at hfit
    simp [appended, snprintf_of_short hfit, hact]
  · have h3l : 0 < f3.length := List.length_pos.mpr (hff f3 (by simp)).2.1
    have hlist : (f3 ++ ',' :: id).length < MAX_LIST := by
      rw [fmt4_length] at hfit
      simp only [appended] at hfit
      unfold MAX_LIST
      unfold MAX_LINE at hfit
      omega
    simp only [add_to_owner, hprow, hfld]
    simp only [appended] at hfit
    simp [appended, h3l, snprintf_of_short hlist, snprintf_of_short hfit, hact]

theorem filtered_list_facts {s3 : Str} (hr : Received s3) (hbar : '|' ∉ s3) (cid : Str) :
    Received (join_comma ((tokens ',' s3).filter (fun t => t != cid))) ∧
      '|' ∉ join_comma ((tokens ',' s3).filter (fun t => t != cid)) ∧
      (join_comma ((tokens ',' s3).filter (fun t => t != cid))).length ≤ s3.length ∧
      tokens ',' (join_comma ((tokens ',' s3).filter (fun t => t != cid))) =
        (tokens ',' s3).filter (fun t => t != cid) := by
  have hmem : ∀ x ∈ join_comma ((tokens ',' s3).filter (fun t => t != cid)),
      x = ',' ∨ x ∈ s3 := by
    intro x hx
    rcases join_comma_mem hx with h | ⟨t, ht, hxt⟩
    · exact Or.inl h
    · exact Or.inr ((mem_tokens (List.mem_of_mem_filter ht)).2.2 x hxt)
  have hnot : ∀ c : Char, c ≠ ',' → c ∉ s3 →
      c ∉ join_comma ((tokens ',' s3).filter (fun t => t != cid)) := by
    intro c hc hs h
    rcases hmem _ h with e | e
    · exact hc e
    · exact hs e
  refine ⟨⟨hnot _ (by decide) hr.1, hnot _ (by decide) hr.2⟩, hnot _ (by decide) hbar, ?_, ?_⟩
  · have h1 := join_comma_length ((tokens ',' s3).filter (fun t => t != cid))
    have h2 := filter_length_sum (fun t => t != cid) (tokens ',' s3)
    have h3 := tokens_length_sum ',' s3
    by_cases hnil : (tokens ',' s3).filter (fun t => t != cid) = []
    · rw [hnil]; simp [join_comma]
    · have := h1.2 hnil
      omega
  · exact tokens_join_comma (fun t ht =>
      ⟨(mem_tokens (List.mem_of_mem_filter ht)).1, (mem_tokens (List.mem_of_mem_filter ht)).2.1⟩)

theorem split_line_fmt4_list {a b c list : Str} (ha : a ≠ [] ∧ '|' ∉ a)
    (hb : b ≠ [] ∧ '|' ∉ b) (hc : c ≠ [] ∧ '|' ∉ c) (hl : '|' ∉ list)
    (hlen : (fmt4 a b c list).length ≤ MAX_LINE) :
    split_line (fmt4 a b c list) = a :: b :: c :: (if list = [] then [] else [list]) := by
  by_cases hnil : list = []
  · rw [if_pos hnil, hnil]
    rw [hnil] at hlen
    exact split_line_fmt4_nil ha hb hc hlen
  · rw [if_neg hnil]
    exact split_line_fmt4 ha hb hc ⟨hnil, hl⟩ hlen

/-! ## Removing a course -/

theorem remove_from_owner_ok {faculty who cid f0 f1 f2 f3 : Str} {j : Nat}
    (hprow : find_row (load faculty) who 0 = some j)
    (hfld : split_line ((load faculty).getD j []) = [f0, f1, f2, f3])
    (hact : f2.head? = some '1')
    (hshort : ((load faculty).getD j []).length < MAX_LINE) :
    remove_from_owner faculty who cid =
        save ((load faculty).set j
          (fmt4 f0 f1 f2 (join_comma ((tokens ',' f3).filter (fun t => t != cid))))) ∧
      load (save ((load faculty).set j
          (fmt4 f0 f1 f2 (join_comma ((tokens ',' f3).filter (fun t => t != cid)))))) =
        (load faculty).set j
          (fmt4 f0 f1 f2 (join_comma ((tokens ',' f3).filter (fun t => t != cid)))) ∧
      split_line (fmt4 f0 f1 f2 (join_comma ((tokens ',' f3).filter (fun t => t != cid)))) =
        f0 :: f1 :: f2 ::
          (if join_comma ((tokens ',' f3).filter (fun t => t != cid)) = [] then []
            else [join_comma ((tokens ',' f3).filter (fun t => t != cid))]) := by
  obtain ⟨hj, _, _⟩ := find_row_some hprow
  obtain ⟨⟨r0, r1, r2, r3⟩, g0, g1, g2, g3⟩ := course_fields_received hj hfld
  have hlen := fields4_length hfld
  obtain ⟨hnl, hbar, hle, -⟩ := filtered_list_facts r3 g3.2 cid
  have hfit : (fmt4 f0 f1 f2
      (join_comma ((tokens ',' f3).filter (fun t => t != cid)))).length < MAX_LINE := by
    rw [fmt4_length]
    omega
  refine ⟨?_, load_save_set (isLine_fmt4 r0 r1 r2 hnl),
    split_line_fmt4_list g0 g1 g2 hbar (Nat.le_of_lt hfit)⟩
  simp only [remove_from_owner, hprow, hfld]
  simp [snprintf_of_short hfit, hact]

/-- C16 (amended): when the catalogue has a row keyed by `cid`,
`faculty_remove_course` answers `[OK] Course removed` and writes the course
file anew: the lines that `load` reads from the old file (its non-empty
lines, comment and blank lines among them; empty lines are not read), in
order, without the first row keyed by `cid`, each followed by a newline; the
active owner's row (four fields, shorter than `MAX_LINE`) keeps its username,
password and flag and its list becomes the old entries other than `cid`, in
order. When no row is keyed by `cid` it answers `Course not found` and both
files stay as they are. On no path does the operation call `load`, `save` or
`release` on the student file, which so stays as it is. -/
theorem remove_course_effect (courses faculty who cid : Str) :
    (find_row (load courses) cid 0 = none →
      faculty_remove_course courses faculty who cid =
        (Reply.courseNotFound, courses, faculty)) ∧
    (∀ i, find_row (load courses) cid 0 = some i →
      ∃ fa1, faculty_remove_course courses faculty who cid =
          (Reply.courseRemoved, save ((load courses).eraseIdx i), fa1) ∧
        load (save ((load courses).eraseIdx i)) = (load courses).eraseIdx i ∧
        (∀ j f0 f1 f2 f3, find_row (load faculty) who 0 = some j →
          split_line ((load faculty).getD j []) = [f0, f1, f2, f3] →
          f2.head? = some '1' → ((load faculty).getD j []).length < MAX_LINE →
          ∃ list, fa1 = save ((load faculty).set j (fmt4 f0 f1 f2 list)) ∧
            load fa1 = (load faculty).set j (fmt4 f0 f1 f2 list) ∧
            split_line (fmt4 f0 f1 f2 list) =
              f0 :: f1 :: f2 :: (if list = [] then [] else [list]) ∧
            tokens ',' list = (tokens ',' f3).filter (fun t => t != cid) ∧
            cid ∉ tokens ',' list)) ∧
    ('\x00' ∉ courses →
      load courses = (splitOn '\n' courses).filter (fun t => !t.isEmpty)) ∧
    (∀ e ∈ faculty_remove_course_events courses cid,
      e ≠ FileEvent.load FileName.student ∧ e ≠ FileEvent.save FileName.student ∧
        e ≠ FileEvent.release FileName.student) := by
  refine ⟨?_, ?_, ?_, ?_⟩
  · intro hfind
    simp only [faculty_remove_course, hfind]
  · intro i hfind
    refine ⟨remove_from_owner faculty who cid,
      by simp only [faculty_remove_course, hfind], ?_, ?_⟩
    · apply load_save
      intro l hl
      exact isLine_of_mem_load (List.mem_of_mem_eraseIdx hl)
    · intro j f0 f1 f2 f3 hprow hfld hact hshort
      obtain ⟨hj, _, _⟩ := find_row_some hprow
      obtain ⟨⟨r0, r1, r2, r3⟩, g0, g1, g2, g3⟩ := course_fields_received hj hfld
      obtain ⟨e1, e2, e3⟩ :=
        @remove_from_owner_ok faculty who cid f0 f1 f2 f3 j hprow hfld hact hshort
      obtain ⟨-, -, -, htok⟩ := filtered_list_facts r3 g3.2 cid
      refine ⟨_, e1, ?_, e3, htok, ?_⟩
      · rw [e1, e2]
      · rw [htok]
        simp
  · intro hnul
    rw [load_of_no_nul hnul]
    rfl
  · intro e he
    unfold faculty_remove_course_events at he
    split at he
    · simp only [List.mem_cons, List.mem_singleton, List.not_mem_nil, or_false] at he
      rcases he with rfl | rfl <;> simp
    · simp only [List.mem_cons, List.mem_singleton, List.not_mem_nil, or_false] at he
      rcases he with rfl | rfl | rfl | rfl <;> simp

/-- C16 (witness): `bob` removes `CS101`; the catalogue keeps its comment line
and `CS102`, and his list `CS101,CS102,CS101` becomes `CS102`. -/
theorem remove_course_effect_witness :
    faculty_remove_course "# courses\nCS101|Systems|2|1\nCS102|Networks|9|0\n".toList
        "bob|pw|1|CS101,CS102,CS101\n".toList "bob".toList "CS101".toList =
        (Reply.courseRemoved,
          save ((load "# courses\nCS101|Systems|2|1\nCS102|Networks|9|0\n".toList).eraseIdx 1),
          "bob|pw|1|CS102\n".toList) ∧
      save ((load "# courses\nCS101|Systems|2|1\nCS102|Networks|9|0\n".toList).eraseIdx 1) =
        "# courses\nCS102|Networks|9|0\n".toList ∧
      ∃ list, "bob|pw|1|CS102\n".toList =
          save ((load "bob|pw|1|CS101,CS102,CS101\n".toList).set 0
            (fmt4 "bob".toList "pw".toList "1".toList list)) ∧
        tokens ',' list =
          (tokens ',' "CS101,CS102,CS101".toList).filter (fun t => t != "CS101".toList) ∧
        "CS101".toList ∉ tokens ',' list := by
  obtain ⟨fa1, h1, -, h3⟩ :=
    (remove_course_effect "# courses\nCS101|Systems|2|1\nCS102|Networks|9|0\n".toList
      "bob|pw|1|CS101,CS102,CS101\n".toList "bob".toList "CS101".toList).2.1 1 (by decide)
  have e : faculty_remove_course "# courses\nCS101|Systems|2|1\nCS102|Networks|9|0\n".toList
      "bob|pw|1|CS101,CS102,CS101\n".toList "bob".toList "CS101".toList =
      (Reply.courseRemoved, "# courses\nCS102|Networks|9|0\n".toList,
        "bob|pw|1|CS102\n".toList) := by decide
  have h1b := h1
  rw [e] at h1b
  simp only [Prod.mk.injEq, true_and] at h1b
  obtain ⟨-, rfl⟩ := h1b
  obtain ⟨list, a1, -, -, a4, a5⟩ :=
    h3 0 "bob".toList "pw".toList "1".toList "CS101,CS102,CS101".toList
      (by decide) (by decide) (by decide) (by decide)
  exact ⟨h1, by decide, list, a1, a4, a5⟩

/-- C16 (counterexample): the catalogue holds a comment line, an empty line
(a skip line) and two rows. `bob` removes `CS101`: the file written back has
lost the empty line too, so it is not the old row sequence with only the row
of `CS101` deleted. -/
theorem remove_course_drops_empty_line :
    find_row (load "# c\n\nCS101|S|2|1\nCS102|N|9|0\n".toList) "CS101".toList 0 = some 1 ∧
      is_skip_line [] = true ∧
      faculty_remove_course "# c\n\nCS101|S|2|1\nCS102|N|9|0\n".toList
          "bob|pw|1|CS101\n".toList "bob".toList "CS101".toList =
        (Reply.courseRemoved, "# c\nCS102|N|9|0\n".toList, "bob|pw|1|\n".toList) ∧
      "# c\nCS102|N|9|0\n".toList ≠ "# c\n\nCS102|N|9|0\n".toList := by
  decide

/-! ## Dropping a course -/

theorem release_seat_ok {courses cid f0 f1 f2 f3 : Str} {i : Nat}
    (hrow : find_row (load courses) cid 0 = some i)
    (hfld : split_line ((load courses).getD i []) = [f0, f1, f2, f3])
    (hroom : ((load courses).getD i []).length + 10 < MAX_LINE) :
    release_seat courses cid = some (save ((load courses).set i
        (fmt4 f0 f1 f2 (fmt_d (if atoi f3 > 0 then atoi f3 - 1 else atoi f3))))) ∧
      load (save ((load courses).set i
          (fmt4 f0 f1 f2 (fmt_d (if atoi f3 > 0 then atoi f3 - 1 else atoi f3))))) =
        (load courses).set i
          (fmt4 f0 f1 f2 (fmt_d (if atoi f3 > 0 then atoi f3 - 1 else atoi f3))) ∧
      split_line (fmt4 f0 f1 f2 (fmt_d (if atoi f3 > 0 then atoi f3 - 1 else atoi f3))) =
        [f0, f1, f2, fmt_d (if atoi f3 > 0 then atoi f3 - 1 else atoi f3)] ∧
      atoi (fmt_d (if atoi f3 > 0 then atoi f3 - 1 else atoi f3)) =
        (if atoi f3 > 0 then atoi f3 - 1 else atoi f3) := by
  obtain ⟨hi, _, _⟩ := find_row_some hrow
  obtain ⟨⟨r0, r1, r2, r3⟩, g0, g1, g2, g3⟩ := course_fields_received hi hfld
  have hlen := fields4_length hfld
  have hr := atoi_range f3
  have hrange : -2147483648 ≤ (if atoi f3 > 0 then atoi f3 - 1 else atoi f3) ∧
      (if atoi f3 > 0 then atoi f3 - 1 else atoi f3) < 2147483648 := by
    split <;> omega
  have hd := fmt_d_length hrange.1 hrange.2
  have hfit : (fmt4 f0 f1 f2
      (fmt_d (if atoi f3 > 0 then atoi f3 - 1 else atoi f3))).length < MAX_LINE := by
    rw [fmt4_length]
    omega
  refine ⟨?_, load_save_set (isLine_fmt4 r0 r1 r2 (received_fmt_d _)),
    split_line_fmt4 g0 g1 g2 (fmt_d_field _) (Nat.le_of_lt hfit),
    atoi_fmt_d hrange.1 hrange.2⟩
  simp only [release_seat, hrow, hfld]
  simp [snprintf_of_short hfit]

theorem holds_cases {courses students user cid : Str} {j : Nat}
    (hfind : find_row (load students) user 0 = some j) :
    (student_holds cid ((load students).getD j []) = true ∧
        ∃ s0 s1 s2 s3, split_line ((load students).getD j []) = [s0, s1, s2, s3] ∧
          cid ∈ tokens ',' s3) ∨
      (student_holds cid ((load students).getD j []) = false ∧
        student_unenroll courses students user cid =
          some (Reply.notEnrolled, courses, students)) := by
  obtain ⟨hj, hm, _⟩ := find_row_some hfind
  have hskip := (fields_of_row_matches hm).1
  rcases hs : split_line ((load students).getD j []) with
    _ | ⟨s0, _ | ⟨s1, _ | ⟨s2, _ | ⟨s3, _ | ⟨e, r⟩⟩⟩⟩⟩
  · right
    refine ⟨holds_of_not_four (by rw [hs]; simp), ?_⟩
    simp only [student_unenroll, hfind, hs]
    simp
  · right
    refine ⟨holds_of_not_four (by rw [hs]; simp), ?_⟩
    simp only [student_unenroll, hfind, hs]
    simp
  · right
    refine ⟨holds_of_not_four (by rw [hs]; simp), ?_⟩
    simp only [student_unenroll, hfind, hs]
    simp
  · right
    refine ⟨holds_of_not_four (by rw [hs]; simp), ?_⟩
    simp only [student_unenroll, hfind, hs]
    simp
  · by_cases hc : cid ∈ tokens ',' s3
    · left
      refine ⟨?_, s0, s1, s2, s3, rfl, hc⟩
      rw [holds_of_fields4 hskip hs]
      simpa using hc
    · right
      refine ⟨by rw [holds_of_fields4 hskip hs]; simpa using hc, ?_⟩
      simp only [student_unenroll, hfind, hs]
      simp [hc]
  · have := split_line_length_le ((load students).getD j [])
    rw [hs] at this
    simp at this

theorem unenroll_ok {courses students user cid s0 s1 s2 s3 c1 : Str} {j : Nat}
    (hfind : find_row (load students) user 0 = some j)
    (hs : split_line ((load students).getD j []) = [s0, s1, s2, s3])
    (hc : cid ∈ tokens ',' s3) (hrel : release_seat courses cid = some c1) :
    student_unenroll courses students user cid =
      some (Reply.unenrolled, c1, save ((load students).set j (snprintf MAX_LINE
        (fmt4 s0 s1 s2 (join_comma ((tokens ',' s3).filter (fun t => t != cid))))))) := by
  simp only [student_unenroll, hfind, hs, hrel]
  simp [hc]

/-- C18 (amended): when the student has a row, `student_unenroll` answers
`Not enrolled in that course` and leaves both files as they are unless `cid`
is a whole entry of the row's comma list. When it is, and the course row for
`cid` (if any) has four fields and leaves 10 bytes of room in `MAX_LINE`, it
answers `[OK] Unenrolled`; the student row keeps its first three fields and
its list becomes the old entries other than `cid`, in order; the course row
keeps id, name and seat limit and its filled count `n` becomes `n - 1` when
`n > 0` and stays `n` otherwise, which is `max (n - 1) 0` for `n ≥ 0`; the
other rows of both files are unchanged. -/
theorem unenroll_effect (courses students user cid : Str) (j : Nat)
    (hfind : find_row (load students) user 0 = some j) :
    (student_holds cid ((load students).getD j []) = false →
      student_unenroll courses students user cid =
        some (Reply.notEnrolled, courses, students)) ∧
    (student_holds cid ((load students).getD j []) = true →
      ∃ s0 s1 s2 s3 list, split_line ((load students).getD j []) = [s0, s1, s2, s3] ∧
        tokens ',' list = (tokens ',' s3).filter (fun t => t != cid) ∧
        split_line (fmt4 s0 s1 s2 list) =
          s0 :: s1 :: s2 :: (if list = [] then [] else [list]) ∧
        (find_row (load courses) cid 0 = none →
          ∃ c1 st1, student_unenroll courses students user cid =
              some (Reply.unenrolled, c1, st1) ∧
            load c1 = load courses ∧
            load st1 = (load students).set j (fmt4 s0 s1 s2 list)) ∧
        (∀ i f0 f1 f2 f3, find_row (load courses) cid 0 = some i →
          split_line ((load courses).getD i []) = [f0, f1, f2, f3] →
          ((load courses).getD i []).length + 10 < MAX_LINE →
          ∃ c1 st1 f, student_unenroll courses students user cid =
              some (Reply.unenrolled, c1, st1) ∧
            load c1 = (load courses).set i (fmt4 f0 f1 f2 f) ∧
            split_line (fmt4 f0 f1 f2 f) = [f0, f1, f2, f] ∧
            atoi f = (if atoi f3 > 0 then atoi f3 - 1 else atoi f3) ∧
            (0 ≤ atoi f3 → atoi f = max (atoi f3 - 1) 0) ∧
            load st1 = (load students).set j (fmt4 s0 s1 s2 list))) := by
  constructor
  · intro hno
    rcases @holds_cases courses students user cid j hfind with ⟨h, -⟩ | ⟨-, h⟩
    · rw [h] at hno; simp at hno
    · exact h
  · intro hyes
    rcases @holds_cases courses students user cid j hfind with
      ⟨-, s0, s1, s2, s3, hs, hc⟩ | ⟨h, -⟩
    · obtain ⟨hj, _, _⟩ := find_row_some hfind
      obtain ⟨⟨r0, r1, r2, r3⟩, g0, g1, g2, g3⟩ := course_fields_received hj hs
      obtain ⟨-, hbar, hle, htok⟩ := filtered_list_facts r3 g3.2 cid
      obtain ⟨hload, -, -⟩ := unenroll_student_row hfind hs hc
      have hlen := fields4_length hs
      have hfit : (fmt4 s0 s1 s2
          (join_comma ((tokens ',' s3).filter (fun t => t != cid)))).length ≤ MAX_LINE := by
        rw [fmt4_length]
        omega
      refine ⟨s0, s1, s2, s3, _, hs, htok, split_line_fmt4_list g0 g1 g2 hbar hfit, ?_, ?_⟩
      · intro hnone
        have hrel : release_seat courses cid = some (save (load courses)) := by
          simp only [release_seat, hnone]
        exact ⟨_, _, unenroll_ok hfind hs hc hrel, save_load_save, hload⟩
      · intro i f0 f1 f2 f3 hrow hfld hroom
        obtain ⟨e1, e2, e3, e4⟩ := release_seat_ok hrow hfld hroom
        refine ⟨_, _, _, unenroll_ok hfind hs hc e1, e2, e3, e4, ?_, hload⟩
        intro h0
        rw [e4]
        split <;> omega
    · rw [h] at hyes; simp at hyes

/-- C18 (witness): `alice` drops `CS101`, which her list holds twice; the list
becomes `CS102` and the filled count of `CS101` goes from 2 to 1. -/
theorem unenroll_effect_witness :
    ∃ c1 st1 f list,
      student_unenroll "CS101|Systems|5|2\nCS102|Networks|9|1\n".toList
          "bob|pw2|1|CS101\nalice|pw1|1|CS101,CS102,CS101\n".toList "alice".toList
          "CS101".toList = some (Reply.unenrolled, c1, st1) ∧
      load c1 = (load "CS101|Systems|5|2\nCS102|Networks|9|1\n".toList).set 0
        (fmt4 "CS101".toList "Systems".toList "5".toList f) ∧
      atoi f = 1 ∧
      load st1 = (load "bob|pw2|1|CS101\nalice|pw1|1|CS101,CS102,CS101\n".toList).set 1
        (fmt4 "alice".toList "pw1".toList "1".toList list) ∧
      tokens ',' list = ["CS102".toList] := by
  obtain ⟨s0, s1, s2, s3, list, hs, htok, -, -, hsome⟩ :=
    (unenroll_effect "CS101|Systems|5|2\nCS102|Networks|9|1\n".toList
      "bob|pw2|1|CS101\nalice|pw1|1|CS101,CS102,CS101\n".toList "alice".toList
      "CS101".toList 1 (by decide)).2 (by decide)
  have e : split_line ((load "bob|pw2|1|CS101\nalice|pw1|1|CS101,CS102,CS101\n".toList).getD
      1 []) = ["alice".toList, "pw1".toList, "1".toList, "CS101,CS102,CS101".toList] := by
    decide
  rw [e] at hs
  simp only [List.cons.injEq, and_true] at hs
  obtain ⟨rfl, rfl, rfl, rfl⟩ := hs
  obtain ⟨c1, st1, f, h1, h2, -, h4, -, h6⟩ :=
    hsome 0 "CS101".toList "Systems".toList "5".toList "2".toList (by decide) (by decide)
      (by decide)
  exact ⟨c1, st1, f, list, h1, h2, by rw [h4]; decide, h6, by rw [htok]; decide⟩

/-- C18 (counterexample): the course row of `CS101` has the filled count -2.
`student_unenroll` answers `[OK] Unenrolled` and writes the filled count -2
back, where `max (filled_count - 1) 0` is 0. -/
theorem unenroll_negative_count :
    student_unenroll "CS101|Systems|5|-2\n".toList "alice|pw1|1|CS101\n".toList
        "alice".toList "CS101".toList =
      some (Reply.unenrolled, "CS101|Systems|5|-2\n".toList, "alice|pw1|1|\n".toList) ∧
    filled_count "CS101|Systems|5|-2\n".toList "CS101".toList = some (-2) ∧
    filled_count "CS101|Systems|5|-2\n".toList "CS101".toList ≠ some (max (-2 - 1) 0) := by
  decide

/-! ## The scan of `find_row` -/

theorem is_blank_iff (c : Char) : is_blank c = true ↔ c = ' ' ∨ c = '\t' := by
  simp [is_blank]

theorem dropWhile_blank_append {pre : Str} (h : ∀ c ∈ pre, c = ' ' ∨ c = '\t') (rest : Str) :
    (pre ++ rest).dropWhile is_blank = rest.dropWhile is_blank := by
  induction pre with
  | nil => rfl
  | cons c cs ih =>
    have hc : is_blank c = true := (is_blank_iff c).mpr (h c (by simp))
    simp only [List.cons_append, List.dropWhile_cons, hc, if_true]
    exact ih (fun x hx => h x (by simp [hx]))

theorem is_skip_line_iff (l : Str) : is_skip_line l = true ↔ skip_in_words l := by
  constructor
  · intro h
    unfold is_skip_line at h
    rcases hd : l.dropWhile is_blank with _ | ⟨c, r⟩
    · right; left
      intro c hc
      exact (is_blank_iff c).mp (List.dropWhile_eq_nil_iff.mp hd c hc)
    · rw [hd] at h
      simp only [beq_iff_eq] at h
      subst h
      right; right
      refine ⟨l.takeWhile is_blank, r, ?_, ?_⟩
      · rw [← hd, List.takeWhile_append_dropWhile]
      · intro c hc
        exact (is_blank_iff c).mp (List.mem_takeWhile_imp hc)
  · intro h
    rcases h with rfl | h | ⟨pre, rest, rfl, hpre⟩
    · rfl
    · unfold is_skip_line
      rw [List.dropWhile_eq_nil_iff.mpr (fun c hc => (is_blank_iff c).mpr (h c hc))]
    · unfold is_skip_line
      rw [dropWhile_blank_append hpre]
      rfl

theorem row_matches_eq_true (key : Str) (kf : Nat) (l : Str) :
    row_matches key kf l = true ↔
      is_skip_line l = false ∧ kf < (split_line l).length ∧ (split_line l).getD kf [] = key := by
  simp [row_matches, -List.getD_eq_getElem?_getD]

/-- C19: `find_row` returns the smallest index `i` such that line `i` is not a
skip line, `split_line` of it yields more than `key_field` fields and field
`key_field` equals `key`; it returns `none` (-1) exactly when no line is such;
skip lines (empty, only spaces and tabs, or `#` after leading spaces and tabs)
never match. -/
theorem find_row_first_match (ls : List Str) (key : Str) (key_field : Nat) :
    (∀ i, find_row ls key key_field = some i ↔
      (i < ls.length ∧
        (¬ skip_in_words (ls.getD i []) ∧ key_field < (split_line (ls.getD i [])).length ∧
          (split_line (ls.getD i [])).getD key_field [] = key) ∧
        ∀ j, j < i →
          ¬ (¬ skip_in_words (ls.getD j []) ∧ key_field < (split_line (ls.getD j [])).length ∧
            (split_line (ls.getD j [])).getD key_field [] = key))) ∧
    (find_row ls key key_field = none ↔
      ∀ i, i < ls.length →
        ¬ (¬ skip_in_words (ls.getD i []) ∧ key_field < (split_line (ls.getD i [])).length ∧
          (split_line (ls.getD i [])).getD key_field [] = key)) ∧
    (∀ i, find_row ls key key_field = some i → ¬ skip_in_words (ls.getD i [])) := by
  have hiff : ∀ l, row_matches key key_field l = true ↔
      (¬ skip_in_words l ∧ key_field < (split_line l).length ∧
        (split_line l).getD key_field [] = key) := by
    intro l
    rw [row_matches_eq_true, ← is_skip_line_iff]
    simp
  have hfalse : ∀ l, row_matches key key_field l = false ↔
      ¬ (¬ skip_in_words l ∧ key_field < (split_line l).length ∧
        (split_line l).getD key_field [] = key) := by
    intro l
    rw [← hiff]
    simp
  refine ⟨?_, ?_, ?_⟩
  · intro i
    constructor
    · intro h
      obtain ⟨hi, hm, hlt⟩ := find_row_some h
      exact ⟨hi, (hiff _).mp hm, fun j hj => (hfalse _).mp (hlt j hj)⟩
    · rintro ⟨hi, hm, hlt⟩
      exact find_row_eq_some hi ((hiff _).mpr hm) (fun j hj => (hfalse _).mpr (hlt j hj))
  · constructor
    · intro h i hi
      exact (hfalse _).mp (find_row_none h _ (getD_mem hi))
    · intro h
      apply find_row_eq_none
      intro l hl
      obtain ⟨i, hi, rfl⟩ := List.getElem_of_mem hl
      have := (hfalse _).mpr (h i hi)
      simpa [List.getD_eq_getElem?_getD, List.getElem?_eq_getElem hi] using this
  · intro i h
    obtain ⟨-, hm, -⟩ := find_row_some h
    exact ((hiff _).mp hm).1

/-- C19 (witness): the scan passes a comment line, a blank line and a row of
another user and stops at the first of the two rows keyed by `alice`. -/
theorem find_row_first_match_witness :
    find_row ["# users".toList, "  ".toList, "bob|pw|1|".toList, "alice|pw1|1|".toList,
        "alice|pw2|1|".toList] "alice".toList 0 = some 3 ∧
      ¬ skip_in_words "alice|pw1|1|".toList :=
  ⟨by decide,
    (find_row_first_match ["# users".toList, "  ".toList, "bob|pw|1|".toList,
      "alice|pw1|1|".toList, "alice|pw2|1|".toList] "alice".toList 0).2.2 3 (by decide)⟩

/-! ## Viewing enrollments -/

theorem has_entry_eq (cid : Str) (ts : List Str) : has_entry cid ts = ts.contains cid := by
  induction ts with
  | nil => rfl
  | cons t ts ih =>
    simp only [has_entry, ih, List.contains_cons]
    by_cases h : t = cid
    · simp [h]
    · have h2 : ¬ cid = t := fun e => h e.symm
      simp [h, h2]

theorem enrollment_entry_of_short {u : Str} (h : u.length ≤ 123) :
    enrollment_entry u = ' ' :: '-' :: ' ' :: (u ++ ['\n']) := by
  unfold enrollment_entry
  apply snprintf_of_short
  simp only [List.length_cons, List.length_append, List.length_nil]
  omega

theorem view_students_eq (cid : Str) (fs : List Str) :
    view_students cid fs =
      (fs.filter (listed_for cid)).map (fun l => enrollment_entry ((split_line l).getD 0 [])) := by
  induction fs with
  | nil => rfl
  | cons l ls ih =>
    simp only [view_students, List.filter_cons]
    by_cases hskip : is_skip_line l = true
    · have : listed_for cid l = false := by simp [listed_for, student_holds, hskip]
      simp only [hskip, if_true, this, ih]
      simp
    · simp only [Bool.not_eq_true] at hskip
      rcases hs : split_line l with _ | ⟨a, _ | ⟨b, _ | ⟨c, _ | ⟨d, _ | ⟨e, r⟩⟩⟩⟩⟩
      · have : listed_for cid l = false := by simp [listed_for, student_holds, hskip, hs]
        simp [hskip, this, ih]
      · have : listed_for cid l = false := by simp [listed_for, student_holds, hskip, hs]
        simp [hskip, this, ih]
      · have : listed_for cid l = false := by simp [listed_for, student_holds, hskip, hs]
        simp [hskip, this, ih]
      · have : listed_for cid l = false := by simp [listed_for, student_holds, hskip, hs]
        simp [hskip, this, ih]
      · have hd : d ≠ [] := by
          have : d ∈ split_line l := by rw [hs]; simp
          exact (mem_split_line this).1
        have hl : listed_for cid l =
            ((tokens ',' d).contains cid && c.head? == some '1') := by
          simp [listed_for, student_holds, hskip, hs]
        rw [hl]
        simp only [hskip, Bool.false_eq_true, if_false, has_entry_eq, ih]
        by_cases hc : c.head? = some '1'
        · by_cases hh : cid ∈ tokens ',' d
          · simp [hc, hh, hd, hs]
          · simp [hc, hh, hd]
        · simp [hc]
      · have := split_line_length_le l
        rw [hs] at this
        simp at this

theorem view_courses_eq (fs cids : List Str) :
    view_courses fs cids =
      cids.flatMap (fun cid => enrollment_header cid ::
        (fs.filter (listed_for cid)).map
          (fun l => enrollment_entry ((split_line l).getD 0 []))) := by
  induction cids with
  | nil => rfl
  | cons c cs ih =>
    simp only [view_courses, List.flatMap_cons, ih, view_students_eq]
    simp

theorem view_enrollments_offered {faculty who f0 f1 f2 f3 : Str} {j : Nat} (students : Str)
    (hprow : find_row (load faculty) who 0 = some j)
    (hfld : split_line ((load faculty).getD j []) = [f0, f1, f2, f3])
    (hact : f2.head? = some '1') :
    faculty_view_enrollments faculty students who =
      view_courses (load students) (tokens ',' f3) := by
  have h3 : f3 ≠ [] := by
    have : f3 ∈ split_line ((load faculty).getD j []) := by rw [hfld]; simp
    exact (mem_split_line this).1
  simp only [faculty_view_enrollments, hprow, hfld]
  simp [hact, h3]

/-- C20 (amended): for an active owner whose row has four fields, and a student file
whose usernames are at most 123 bytes long, `faculty_view_enrollments` sends,
for each entry of the owner's list in list order, the header of that course id
followed by one line ` - username` for each student row, in file order, that
is not a skip line, has four fields, is active and holds the course id as a
whole entry of its list; no other line is sent. -/
theorem view_enrollments_lists (faculty students who f0 f1 f2 f3 : Str) (j : Nat)
    (hprow : find_row (load faculty) who 0 = some j)
    (hfld : split_line ((load faculty).getD j []) = [f0, f1, f2, f3])
    (hact : f2.head? = some '1')
    (hnames : ∀ l ∈ load students, is_skip_line l = false →
      ((split_line l).getD 0 []).length ≤ 123) :
    faculty_view_enrollments faculty students who =
      (tokens ',' f3).flatMap (fun cid => enrollment_header cid ::
        ((load students).filter (listed_for cid)).map
          (fun l => ' ' :: '-' :: ' ' :: ((split_line l).getD 0 [] ++ ['\n']))) := by
  rw [view_enrollments_offered students hprow hfld hact, view_courses_eq]
  congr 1
  funext cid
  congr 1
  apply List.map_congr_left
  intro l hl
  have hlisted := (List.mem_filter.mp hl).2
  have hskip : is_skip_line l = false := by
    cases h : is_skip_line l with
    | false => rfl
    | true => simp [listed_for, student_holds, h] at hlisted
  exact enrollment_entry_of_short (hnames l (List.mem_of_mem_filter hl) hskip)

/-- C20 (witness): `bob` offers `CS101` and `CS102`; of the students only the
active ones holding the course are listed, in file order. -/
theorem view_enrollments_lists_witness :
    faculty_view_enrollments "bob|pw|1|CS101,CS102\n".toList
        "# s\nalice|pw1|1|CS101\ncarol|pw|0|CS101\ndave|pw|1|CS102,CS101\nerin|pw|1|\n".toList
        "bob".toList =
      ["\nCS101:\n".toList, " - alice\n".toList, " - dave\n".toList, "\nCS102:\n".toList,
        " - dave\n".toList] := by
  rw [view_enrollments_lists "bob|pw|1|CS101,CS102\n".toList
    "# s\nalice|pw1|1|CS101\ncarol|pw|0|CS101\ndave|pw|1|CS102,CS101\nerin|pw|1|\n".toList
    "bob".toList "bob".toList "pw".toList "1".toList "CS101,CS102".toList 0 (by decide)
    (by decide) (by decide) (by decide)]
  decide

set_option maxRecDepth 100000 in
/-- C20 (counterexample): the student row of a username of 125 bytes holds
`CS101` and is active; the line sent for it is cut by `snprintf` to 127
bytes, so what is reported is the first 124 bytes of the username. -/
theorem view_enrollments_cuts_username :
    faculty_view_enrollments "bob|pw|1|CS101\n".toList
        (fmt4 (List.replicate 125 'x') ['p'] ['1'] "CS101".toList ++ ['\n']) "bob".toList =
      ["\nCS101:\n".toList, ' ' :: '-' :: ' ' :: List.replicate 124 'x'] ∧
    split_line (fmt4 (List.replicate 125 'x') ['p'] ['1'] "CS101".toList) =
      [List.replicate 125 'x', ['p'], ['1'], "CS101".toList] := by
  decide

/-! ## Histories of catalogue calls -/

theorem known_iff {ls : List Str} {key : Str} {kf : Nat} :
    find_row ls key kf ≠ none ↔ ∃ l ∈ ls, row_matches key kf l = true := by
  constructor
  · intro h
    by_contra hne
    apply h
    apply find_row_eq_none
    intro l hl
    cases hm : row_matches key kf l with
    | false => rfl
    | true => exact absurd ⟨l, hl, hm⟩ hne
  · rintro ⟨l, hl, hm⟩ h
    have := find_row_none h l hl
    rw [hm] at this
    exact absurd this (by decide)

theorem save_ne_nil {l : Str} {ls : List Str} : save (l :: ls) ≠ [] := by
  simp [save]

theorem getLast_save {ls : List Str} (h : ls ≠ []) : (save ls).getLast? = some '\n' := by
  induction ls with
  | nil => exact absurd rfl h
  | cons l ls ih =>
    cases ls with
    | nil => simp [save]
    | cons l2 ls2 =>
      have e : save (l :: l2 :: ls2) = (l ++ ['\n']) ++ save (l2 :: ls2) := by simp [save]
      rw [e, List.getLast?_append_of_ne_nil _ save_ne_nil]
      exact ih (by simp)

theorem terminated_save {ls : List Str} (h : ∀ l ∈ ls, IsLine l) : Terminated (save ls) := by
  constructor
  · intro hm
    rcases mem_save hm with e | ⟨l, hl, hc⟩
    · exact absurd e (by decide)
    · exact (h l hl).2.2 hc
  · cases ls with
    | nil => left; rfl
    | cons l ls => right; exact getLast_save (by simp)

theorem terminated_append_row {content row : Str} (hc : Terminated content)
    (hr : '\x00' ∉ row) : Terminated (content ++ (row ++ ['\n'])) := by
  constructor
  · intro hm
    rcases List.mem_append.mp hm with h | h
    · exact hc.1 h
    · rcases List.mem_append.mp h with h2 | h2
      · exact hr h2
      · simp at h2
  · right
    rw [← List.append_assoc]
    simp

theorem histInv_mono {owner : Str → Str} {w w2 : Nat} {courses faculty : Str}
    {created : List (Str × Str)} (h : HistInv owner w courses faculty created)
    (hw : w ≤ w2) : HistInv owner w2 courses faculty created :=
  ⟨h.fterm, h.funiq, h.frows, fun l hl => Nat.le_trans (h.fshort l hl) hw, h.cuniq, h.ccreated⟩

theorem row_ok_transfer {owner : Str → Str} {courses c2 l : Str}
    (h : FacultyRowOk owner courses l)
    (hk : ∀ u p rest, split_line l = u :: p :: ['1'] :: rest →
      ∀ list ∈ rest, ∀ id ∈ tokens ',' list, owner id = u →
        find_row (load courses) id 0 ≠ none → find_row (load c2) id 0 ≠ none) :
    FacultyRowOk owner c2 l := by
  obtain ⟨hs, u, p, rest, hf, hkey, hl⟩ := h
  exact ⟨hs, u, p, rest, hf, hkey, fun list hlist id hid =>
    ⟨(hl list hlist id hid).1, hk u p rest hf list hlist id hid (hl list hlist id hid).1
      (hl list hlist id hid).2⟩⟩

theorem user_row_eq_fmt4 (u p : Str) : user_row u p = fmt4 u p ['1'] [] := by
  simp [user_row, fmt4]

theorem hist_add_user {owner : Str → Str} {w : Nat} {courses faculty : Str}
    {created : List (Str × Str)} {u p : Str}
    (h : HistInv owner w courses faculty created)
    (hg : GoodCall owner (CatalogCall.add_user u p))
    (hw : u.length + p.length + 4 ≤ w) :
    HistInv owner w courses (admin_add faculty u p).2 created := by
  obtain ⟨hu, hne, hbar, hkey, hul, hp, hpne, hpbar, hpl⟩ := hg
  cases hfind : find_row (load faculty) u 0 with
  | some i =>
    obtain ⟨hi, _, _⟩ := find_row_some hfind
    obtain ⟨-, a, b, rest, hf, -, -⟩ := h.frows _ (getD_mem hi)
    have e := admin_add_refuses p hfind (by rw [hf]; simp)
    rw [e]
    exact h
  | none =>
    have hline := isLine_user_row hu hp
    have e1 : (admin_add faculty u p).2 = faculty ++ (user_row u p ++ ['\n']) := by
      simp [admin_add, hfind, user_row]
    have e2 : load (admin_add faculty u p).2 = load faculty ++ [user_row u p] := by
      rw [e1]; exact load_append_row h.fterm hline
    have hlen : u.length < MAX_LINE := by unfold MAX_LINE; omega
    have hfit : (fmt4 u p ['1'] []).length ≤ MAX_LINE := by
      rw [fmt4_length]
      simp only [List.length_singleton, List.length_nil]
      unfold MAX_LINE
      omega
    refine ⟨?_, ?_, ?_, ?_, h.cuniq, h.ccreated⟩
    · rw [e1]
      exact terminated_append_row h.fterm hline.2.2
    · unfold UniqueKeys
      rw [e2]
      exact nodup_filterMap_append_row h.funiq hfind
        (row_key_of_row hne hbar hlen (p ++ ['|', '1', '|']))
    · rw [e2]
      intro l hl
      rcases List.mem_append.mp hl with hl | hl
      · exact h.frows l hl
      · simp only [List.mem_singleton] at hl
        subst hl
        refine ⟨?_, u, p, [], ?_, hkey, by simp⟩
        · rw [user_row_eq_fmt4, is_skip_line_fmt4, hkey]
        · rw [user_row_eq_fmt4]
          exact split_line_fmt4_nil ⟨hne, hbar⟩ ⟨hpne, hpbar⟩ (by decide) hfit
    · rw [e2]
      intro l hl
      rcases List.mem_append.mp hl with hl | hl
      · have := h.fshort l hl
        omega
      · simp only [List.mem_singleton] at hl
        subst hl
        rw [user_row_length]
        omega

theorem add_course_catalogue_facts {owner : Str → Str} {courses who id name lim : Str}
    {created : List (Str × Str)} (faculty : Str) (hcuniq : UniqueKeys courses)
    (hcreated : ∀ k, find_row (load courses) k 0 ≠ none → (k, owner k) ∈ created)
    (hg : GoodCall owner (CatalogCall.add_course who id name lim)) :
    (∀ k, find_row (load courses) k 0 ≠ none →
        find_row (load (faculty_add_course courses faculty who id name lim).2.1) k 0 ≠ none) ∧
      find_row (load (faculty_add_course courses faculty who id name lim).2.1) id 0 ≠ none ∧
      UniqueKeys (faculty_add_course courses faculty who id name lim).2.1 ∧
      (∀ k, find_row (load (faculty_add_course courses faculty who id name lim).2.1) k 0 ≠ none →
        (k, owner k) ∈
          record_call courses created (CatalogCall.add_course who id name lim)) := by
  obtain ⟨hwho, hid, hne, hbar, hcomma, hkey, hil, hname⟩ := hg
  have hil2 : id.length < MAX_LINE := by unfold MAX_FIELD at hil; unfold MAX_LINE; omega
  rw [add_course_catalogue]
  cases hfind : find_row (load courses) id 0 with
  | some i =>
    simp only [record_call, hfind]
    rw [save_load_save]
    refine ⟨fun k hk => hk, by rw [hfind]; simp, ?_, ?_⟩
    · unfold UniqueKeys
      rw [save_load_save]
      exact hcuniq
    · intro k hk
      simpa using hcreated k hk
  | none =>
    simp only [record_call, hfind]
    rw [load_catalogue_append hid hname]
    have hm := course_row_matches name (fmt_d (atoi lim)) hne hbar hkey hil2
    refine ⟨?_, ?_, ?_, ?_⟩
    · intro k hk
      obtain ⟨l, hl, hlm⟩ := known_iff.mp hk
      exact known_iff.mpr ⟨l, List.mem_append.mpr (Or.inl hl), hlm⟩
    · exact known_iff.mpr ⟨_, by simp, hm⟩
    · unfold UniqueKeys
      rw [load_catalogue_append hid hname]
      exact nodup_filterMap_append_row hcuniq hfind
        (row_key_of_row hne hbar hil2 _)
    · intro k hk
      obtain ⟨l, hl, hlm⟩ := known_iff.mp hk
      rcases List.mem_append.mp hl with hl | hl
      · simp only [if_true, List.mem_cons]
        exact Or.inr (hcreated k (known_iff.mpr ⟨l, hl, hlm⟩))
      · simp only [List.mem_singleton] at hl
        subst hl
        have k1 := (row_matches_iff _ _).mp hlm
        have k2 := (row_matches_iff _ _).mp hm
        rw [k1] at k2
        simp only [Option.some.injEq] at k2
        subst k2
        simp [hwho]

theorem hist_faculty_set {owner : Str → Str} {w w2 : Nat} {courses c2 faculty : Str}
    {created created2 : List (Str × Str)} {j : Nat} {x : Str}
    (h : HistInv owner w courses faculty created) (hj : j < (load faculty).length)
    (hx : IsLine x) (hkey : row_key x = row_key ((load faculty).getD j []))
    (hok : FacultyRowOk owner c2 x)
    (hothers : ∀ k, k ≠ j → k < (load faculty).length →
      FacultyRowOk owner c2 ((load faculty).getD k []))
    (hlen : x.length ≤ w2) (hw : w ≤ w2) (hc2 : UniqueKeys c2)
    (hcr : ∀ k, find_row (load c2) k 0 ≠ none → (k, owner k) ∈ created2) :
    HistInv owner w2 c2 (save ((load faculty).set j x)) created2 := by
  have hload := @load_save_set faculty j _ hx
  refine ⟨?_, ?_, ?_, ?_, hc2, hcr⟩
  · apply terminated_save
    intro l hl
    rw [← hload] at hl
    exact isLine_of_mem_load hl
  · unfold UniqueKeys
    rw [hload]
    exact nodup_filterMap_set h.funiq hj (Or.inr hkey)
  · rw [hload]
    exact forall_mem_set (P := fun l => FacultyRowOk owner c2 l) hok hothers
  · rw [hload]
    refine forall_mem_set (P := fun l => l.length ≤ w2) hlen ?_
    intro k _ hk
    exact Nat.le_trans (h.fshort _ (getD_mem hk)) hw

theorem hist_faculty_same {owner : Str → Str} {w w2 : Nat} {courses c2 faculty : Str}
    {created created2 : List (Str × Str)}
    (h : HistInv owner w courses faculty created)
    (hrows : ∀ l ∈ load faculty, FacultyRowOk owner c2 l)
    (hw : w ≤ w2) (hc2 : UniqueKeys c2)
    (hcr : ∀ k, find_row (load c2) k 0 ≠ none → (k, owner k) ∈ created2) :
    HistInv owner w2 c2 (save (load faculty)) created2 := by
  refine ⟨terminated_save (fun l hl => isLine_of_mem_load hl), ?_, ?_, ?_, hc2, hcr⟩
  · unfold UniqueKeys
    rw [save_load_save]
    exact h.funiq
  · rw [save_load_save]
    exact hrows
  · rw [save_load_save]
    intro l hl
    exact Nat.le_trans (h.fshort l hl) hw

theorem row_ok_fields {owner : Str → Str} {courses faculty who : Str} {j : Nat}
    (hrows : ∀ l ∈ load faculty, FacultyRowOk owner courses l)
    (hprow : find_row (load faculty) who 0 = some j) :
    ∃ p rest, split_line ((load faculty).getD j []) = who :: p :: ['1'] :: rest ∧
      is_comment_key who = false ∧
      ∀ list ∈ rest, ∀ id ∈ tokens ',' list,
        owner id = who ∧ find_row (load courses) id 0 ≠ none := by
  obtain ⟨hj, hm, _⟩ := find_row_some hprow
  obtain ⟨-, u, p, rest, hf, hkey, hl⟩ := hrows _ (getD_mem hj)
  obtain ⟨-, r, hr⟩ := fields_of_row_matches hm
  rw [hf] at hr
  simp only [List.cons.injEq] at hr
  obtain ⟨rfl, -⟩ := hr
  exact ⟨p, rest, hf, hkey, hl⟩

theorem appended_length (rest : List Str) (id : Str) :
    (appended rest id).length ≤ (rest.headD []).length + rest.length + id.length := by
  cases rest with
  | nil => simp [appended]
  | cons a r => simp [appended]; omega

theorem hist_add_course {owner : Str → Str} {w : Nat} {courses faculty : Str}
    {created : List (Str × Str)} {who id name lim : Str}
    (h : HistInv owner w courses faculty created)
    (hg : GoodCall owner (CatalogCall.add_course who id name lim))
    (hw : w < MAX_LINE)
    (hrow : ∀ j, find_row (load faculty) who 0 = some j →
      ((load faculty).getD j []).length + (id.length + 1) ≤ w) :
    HistInv owner w
      (faculty_add_course courses faculty who id name lim).2.1
      (faculty_add_course courses faculty who id name lim).2.2
      (record_call courses created (CatalogCall.add_course who id name lim)) := by
  obtain ⟨a2, a3, a4, a5⟩ := add_course_catalogue_facts faculty h.cuniq h.ccreated hg
  obtain ⟨hwho, hid, hne, hbar, hcomma, hkey, hil, hname⟩ := hg
  have hothers : ∀ l ∈ load faculty,
      FacultyRowOk owner (faculty_add_course courses faculty who id name lim).2.1 l :=
    fun l hl => row_ok_transfer (h.frows l hl) (fun _ _ _ _ _ _ k _ _ hk => a2 k hk)
  show HistInv owner _ _ (add_to_owner faculty who id) _
  cases hprow : find_row (load faculty) who 0 with
  | none =>
    have e : add_to_owner faculty who id = save (load faculty) := by
      simp only [add_to_owner, hprow]
    rw [e]
    exact hist_faculty_same h hothers (by omega) a4 a5
  | some j =>
    obtain ⟨hj, hm, _⟩ := find_row_some hprow
    obtain ⟨p, rest, hf, hck, hl⟩ := row_ok_fields h.frows hprow
    have hff := fields_facts (getD_mem hj)
    rw [hf] at hff
    have hsum := rest_length_sum hf
    have hshort := hrow j hprow
    have happ := appended_length rest id
    have hfit : (fmt4 who p ['1'] (appended rest id)).length ≤ w := by
      rw [fmt4_length]
      simp only [List.length_singleton] at hsum ⊢
      omega
    obtain ⟨e1, e2⟩ := add_to_owner_ok hprow hf (by simp) hid (by omega)
    rw [e1]
    have hskip : is_skip_line ((load faculty).getD j []) = false :=
      (fields_of_row_matches hm).1
    have hrf : ∀ x ∈ rest, x ≠ [] ∧ '|' ∉ x :=
      fun x hx => ⟨(hff x (by simp [hx])).2.1, (hff x (by simp [hx])).2.2.1⟩
    have hsplit : split_line (fmt4 who p ['1'] (appended rest id)) =
        [who, p, ['1'], appended rest id] :=
      split_line_fmt4 ⟨(hff who (by simp)).2.1, (hff who (by simp)).2.2.1⟩
        ⟨(hff p (by simp)).2.1, (hff p (by simp)).2.2.1⟩ (by decide)
        (appended_field hrf ⟨hne, hbar⟩) (by omega)
    have hskip2 : is_skip_line (fmt4 who p ['1'] (appended rest id)) = false := by
      rw [is_skip_line_fmt4, hck]
    have hline : IsLine (fmt4 who p ['1'] (appended rest id)) :=
      isLine_fmt4 (hff who (by simp)).1 (hff p (by simp)).1 (by decide)
        (received_appended (fun f hf2 => (hff f (by simp [hf2])).1) hid)
    refine hist_faculty_set h hj hline ?_ ?_ (fun k _ hk => hothers _ (getD_mem hk)) hfit
      (by omega) a4 a5
    · rw [row_key_of_fields hskip2 hsplit, row_key_of_fields hskip hf]
    · refine ⟨hskip2, who, p, [appended rest id], hsplit, hck, ?_⟩
      intro list hlist k hk
      simp only [List.mem_singleton] at hlist
      subst hlist
      rw [tokens_appended hne hcomma] at hk
      rcases List.mem_append.mp hk with hk | hk
      · rcases rest_cases hf with rfl | ⟨f3, rfl⟩
        · simp at hk
        · simp only at hk
          exact ⟨(hl f3 (by simp) k hk).1, a2 k (hl f3 (by simp) k hk).2⟩
      · simp only [List.mem_singleton] at hk
        subst hk
        exact ⟨hwho.symm, a3⟩

theorem split_at_index {ls : List Str} {i : Nat} (hi : i < ls.length) :
    ls = ls.take i ++ ls.getD i [] :: ls.drop (i + 1) ∧
      ls.eraseIdx i = ls.take i ++ ls.drop (i + 1) := by
  constructor
  · have h1 : ls.getD i [] = ls[i] := by
      simp [List.getD_eq_getElem?_getD, List.getElem?_eq_getElem hi]
    rw [h1, List.getElem_cons_drop ls i hi, List.take_append_drop]
  · exact List.eraseIdx_eq_take_drop_succ ls i

theorem erase_known {ls : List Str} {cid : Str} {i : Nat}
    (huniq : (ls.filterMap row_key).Nodup) (hfind : find_row ls cid 0 = some i) :
    ((ls.eraseIdx i).filterMap row_key).Nodup ∧
      ∀ k, (find_row (ls.eraseIdx i) k 0 ≠ none ↔ k ≠ cid ∧ find_row ls k 0 ≠ none) := by
  obtain ⟨hi, hm, -⟩ := find_row_some hfind
  obtain ⟨e1, e2⟩ := split_at_index hi
  have hkey : row_key (ls.getD i []) = some cid := (row_matches_iff _ _).mp hm
  have hnd : ((ls.take i).filterMap row_key ++
      cid :: (ls.drop (i + 1)).filterMap row_key).Nodup := by
    have := huniq
    rw [e1, List.filterMap_append, List.filterMap_cons, hkey] at this
    exact this
  have hnotA : cid ∉ (ls.take i).filterMap row_key := by
    intro hmem
    have := (List.nodup_append.mp hnd).2.2
    exact List.disjoint_left.mp this hmem (by simp)
  have hnotB : cid ∉ (ls.drop (i + 1)).filterMap row_key := by
    have := (List.nodup_append.mp hnd).2.1
    exact (List.nodup_cons.mp this).1
  constructor
  · rw [e2, List.filterMap_append]
    have h1 := (List.nodup_append.mp hnd).1
    have h2 := (List.nodup_cons.mp (List.nodup_append.mp hnd).2.1).2
    have h3 := (List.nodup_append.mp hnd).2.2
    refine List.nodup_append.mpr ⟨h1, h2, ?_⟩
    exact List.disjoint_of_disjoint_cons_right h3
  · intro k
    rw [known_iff, known_iff, e2]
    constructor
    · rintro ⟨l, hl, hlm⟩
      have hk : row_key l = some k := (row_matches_iff _ _).mp hlm
      constructor
      · rintro rfl
        rcases List.mem_append.mp hl with h | h
        · exact hnotA (List.mem_filterMap.mpr ⟨l, h, hk⟩)
        · exact hnotB (List.mem_filterMap.mpr ⟨l, h, hk⟩)
      · refine ⟨l, ?_, hlm⟩
        rw [e1]
        rcases List.mem_append.mp hl with h | h
        · exact List.mem_append.mpr (Or.inl h)
        · exact List.mem_append.mpr (Or.inr (List.mem_cons_of_mem _ h))
    · rintro ⟨hne, l, hl, hlm⟩
      have hk : row_key l = some k := (row_matches_iff _ _).mp hlm
      refine ⟨l, ?_, hlm⟩
      rw [e1] at hl
      rcases List.mem_append.mp hl with h | h
      · exact List.mem_append.mpr (Or.inl h)
      · rcases List.mem_cons.mp h with h | h
        · rw [h, hkey] at hk
          simp only [Option.some.injEq] at hk
          exact absurd hk.symm hne
        · exact List.mem_append.mpr (Or.inr h)

theorem hist_remove_course {owner : Str → Str} {w : Nat} {courses faculty : Str}
    {created : List (Str × Str)} {who cid : Str}
    (h : HistInv owner w courses faculty created)
    (hg : GoodCall owner (CatalogCall.remove_course who cid)) (hw : w < MAX_LINE) :
    HistInv owner w (faculty_remove_course courses faculty who cid).2.1
      (faculty_remove_course courses faculty who cid).2.2
      (record_call courses created (CatalogCall.remove_course who cid)) := by
  have hwho : who = owner cid := hg
  cases hfind : find_row (load courses) cid 0 with
  | none =>
    simp only [faculty_remove_course, record_call, hfind, if_true]
    exact h
  | some i =>
    have hload : load (save ((load courses).eraseIdx i)) = (load courses).eraseIdx i :=
      load_save (fun l hl => isLine_of_mem_load (List.mem_of_mem_eraseIdx hl))
    obtain ⟨hnd, hk⟩ := erase_known h.cuniq hfind
    have e : faculty_remove_course courses faculty who cid =
        (Reply.courseRemoved, save ((load courses).eraseIdx i),
          remove_from_owner faculty who cid) := by
      simp only [faculty_remove_course, hfind]
    have er : record_call courses created (CatalogCall.remove_course who cid) =
        created.filter (fun e => e.1 != cid) := by
      simp [record_call, hfind]
    rw [e, er]
    simp only
    have a4 : UniqueKeys (save ((load courses).eraseIdx i)) := by
      unfold UniqueKeys
      rw [hload]
      exact hnd
    have a5 : ∀ k, find_row (load (save ((load courses).eraseIdx i))) k 0 ≠ none →
        (k, owner k) ∈ created.filter (fun e => e.1 != cid) := by
      intro k hkn
      rw [hload] at hkn
      obtain ⟨hne, hkc⟩ := (hk k).mp hkn
      exact List.mem_filter.mpr ⟨h.ccreated k hkc, by simpa using hne⟩
    have htransfer : ∀ l ∈ load faculty, row_key l ≠ some who →
        FacultyRowOk owner (save ((load courses).eraseIdx i)) l := by
      intro l hl hkey
      refine row_ok_transfer (h.frows l hl) ?_
      intro u p rest hf list _ id _ hown hkn
      rw [hload]
      refine (hk id).mpr ⟨?_, hkn⟩
      rintro rfl
      apply hkey
      obtain ⟨hs, -⟩ := h.frows l hl
      rw [row_key_of_fields hs hf, ← hown, hwho]
    cases hprow : find_row (load faculty) who 0 with
    | none =>
      have e2 : remove_from_owner faculty who cid = save (load faculty) := by
        simp only [remove_from_owner, hprow]
      rw [e2]
      refine hist_faculty_same h ?_ (Nat.le_refl _) a4 a5
      intro l hl
      apply htransfer l hl
      intro hkey
      have := find_row_none hprow l hl
      rw [(row_matches_iff _ _).mpr hkey] at this
      exact absurd this (by decide)
    | some j =>
      obtain ⟨hj, hm, _⟩ := find_row_some hprow
      obtain ⟨p, rest, hf, hck, hl⟩ := row_ok_fields h.frows hprow
      have hskip : is_skip_line ((load faculty).getD j []) = false :=
        (fields_of_row_matches hm).1
      have hkj : row_key ((load faculty).getD j []) = some who := row_key_of_fields hskip hf
      have hothers : ∀ k, k ≠ j → k < (load faculty).length →
          FacultyRowOk owner (save ((load courses).eraseIdx i)) ((load faculty).getD k []) := by
        intro k hkj2 hklt
        apply htransfer _ (getD_mem hklt)
        intro hkey
        exact hkj2 (key_index_unique h.funiq hj hklt hkj hkey).symm
      rcases rest_cases hf with rfl | ⟨f3, rfl⟩
      · have e2 : remove_from_owner faculty who cid = save (load faculty) := by
          simp only [remove_from_owner, hprow, hf]
          simp
        rw [e2]
        refine hist_faculty_same h ?_ (Nat.le_refl _) a4 a5
        intro l hl2
        obtain ⟨k, hklt, rfl⟩ := List.getElem_of_mem hl2
        have eg : (load faculty)[k] = (load faculty).getD k [] := by
          simp [List.getD_eq_getElem?_getD, List.getElem?_eq_getElem hklt]
        rw [eg]
        by_cases hkj2 : k = j
        · subst hkj2
          exact ⟨hskip, who, p, [], hf, hck, by simp⟩
        · exact hothers k hkj2 hklt
      · have hshort := h.fshort _ (getD_mem hj)
        obtain ⟨e1, -, e3⟩ := @remove_from_owner_ok faculty who cid who p ['1'] f3 j hprow hf
          (by simp) (by omega)
        obtain ⟨⟨r0, r1, r2, r3⟩, g0, g1, g2, g3⟩ := course_fields_received hj hf
        obtain ⟨hnl, hbar, hle, htok⟩ := filtered_list_facts r3 g3.2 cid
        have hlen4 := fields4_length hf
        have hskip2 : is_skip_line (fmt4 who p ['1']
            (join_comma ((tokens ',' f3).filter (fun t => t != cid)))) = false := by
          rw [is_skip_line_fmt4, hck]
        rw [e1]
        refine hist_faculty_set h hj (isLine_fmt4 r0 r1 r2 hnl) ?_ ?_ hothers ?_
          (Nat.le_refl _) a4 a5
        · rw [row_key_of_fields hskip2 e3, hkj]
        · refine ⟨hskip2, who, p, _, e3, hck, ?_⟩
          intro list hlist id hid
          by_cases hnil : join_comma ((tokens ',' f3).filter (fun t => t != cid)) = []
          · rw [if_pos hnil] at hlist
            simp at hlist
          · rw [if_neg hnil] at hlist
            simp only [List.mem_singleton] at hlist
            subst hlist
            rw [htok] at hid
            obtain ⟨hid1, hid2⟩ := List.mem_filter.mp hid
            obtain ⟨ho, hkn⟩ := hl f3 (by simp) id hid1
            refine ⟨ho, ?_⟩
            rw [hload]
            exact (hk id).mpr ⟨by simpa using hid2, hkn⟩
        · rw [fmt4_length]
          omega

theorem run_history_inv (owner : Str → Str) (calls : List CatalogCall) :
    ∀ (courses faculty : Str) (created : List (Str × Str)),
      HistInv owner (MAX_LINE - 1) courses faculty created →
      (∀ c ∈ calls, GoodCall owner c) → history_fits (courses, faculty) calls = true →
      HistInv owner (MAX_LINE - 1) (run_history ((courses, faculty), created) calls).1.1
        (run_history ((courses, faculty), created) calls).1.2
        (run_history ((courses, faculty), created) calls).2 := by
  induction calls with
  | nil => intro courses faculty created h _ _; exact h
  | cons c cs ih =>
    intro courses faculty created h hgood hfits
    have hg := hgood c (by simp)
    have hrest : ∀ x ∈ cs, GoodCall owner x := fun x hx => hgood x (by simp [hx])
    simp only [history_fits, Bool.and_eq_true] at hfits
    obtain ⟨hfit, hfits⟩ := hfits
    have hm : MAX_LINE = 1024 := rfl
    cases c with
    | add_user u p =>
      have hul : u.length < 64 := hg.2.2.2.2.1
      have hpl : p.length < 64 := hg.2.2.2.2.2.2.2.2
      exact ih _ _ _ (hist_add_user h hg (by omega)) hrest hfits
    | add_course who id name lim =>
      refine ih _ _ _ (hist_add_course h hg (by omega) ?_) hrest hfits
      intro j hj
      have hj2 : find_row (load faculty) who 0 = some j := hj
      simp only [call_fits, hj2, decide_eq_true_eq] at hfit
      show ((load faculty).getD j []).length + (id.length + 1) ≤ MAX_LINE - 1
      omega
    | remove_course who cid =>
      exact ih _ _ _ (hist_remove_course h hg (by omega)) hrest hfits

theorem histInv_empty (owner : Str → Str) : HistInv owner 0 [] [] [] := by
  have hl : load [] = [] := by decide
  refine ⟨by decide, by decide, ?_, ?_, by decide, ?_⟩
  · intro l h; rw [hl] at h; simp at h
  · intro l h; rw [hl] at h; simp at h
  · intro id h; rw [hl] at h; simp [find_row] at h

theorem offered_of_histInv {owner : Str → Str} {w : Nat} {courses faculty : Str}
    {created : List (Str × Str)} (h : HistInv owner w courses faculty created) :
    OfferedCoursesCreatedByOwner courses faculty created := by
  intro l hl _ u p flag list hf id hid
  obtain ⟨-, u2, p2, rest, hf2, -, hlist⟩ := h.frows l hl
  rw [hf] at hf2
  simp only [List.cons.injEq] at hf2
  obtain ⟨rfl, rfl, rfl, rfl⟩ := hf2
  obtain ⟨ho, hk⟩ := hlist list (by simp) id hid
  refine ⟨hk, ?_⟩
  rw [← ho]
  exact h.ccreated id hk

/-- C17 (amended): in every state reached from empty files by a history of
`admin_add` on the faculty file, `faculty_add_course` and
`faculty_remove_course` in which every course id is added and removed by one
faculty member only, the names, passwords and ids are as `GoodCall` says, and
each `faculty_add_course` finds room in the row of its caller for a comma and
the id (`history_fits`), catalogue invariant 3 holds: every course id in the
list of a faculty row is the key of a catalogue row, and that row was created
by an `add_course` call of the faculty member of the row. -/
theorem offered_courses_invariant (owner : Str → Str) (calls : List CatalogCall)
    (hgood : ∀ c ∈ calls, GoodCall owner c)
    (hfits : history_fits ([], []) calls = true) :
    OfferedCoursesCreatedByOwner (run_history (([], []), []) calls).1.1
      (run_history (([], []), []) calls).1.2 (run_history (([], []), []) calls).2 :=
  offered_of_histInv (run_history_inv owner calls [] [] []
    (histInv_mono (histInv_empty owner) (Nat.zero_le _)) hgood hfits)

/-- C17 (witness): `bob` adds `CS101` twice and `CS103`, `carol` adds `CS102`,
`bob` removes `CS101`; `bob` is left with `CS103` and `carol` with `CS102`,
both in the catalogue and created by them. -/
theorem offered_courses_invariant_witness :
    run_history (([], []), [])
        [CatalogCall.add_user "bob".toList "pw".toList,
          CatalogCall.add_user "carol".toList "pw".toList,
          CatalogCall.add_course "bob".toList "CS101".toList "Systems".toList "2\n".toList,
          CatalogCall.add_course "carol".toList "CS102".toList "Networks".toList "9\n".toList,
          CatalogCall.add_course "bob".toList "CS101".toList "Systems".toList "5\n".toList,
          CatalogCall.add_course "bob".toList "CS103".toList "Logic".toList "7\n".toList,
          CatalogCall.remove_course "bob".toList "CS101".toList] =
      (("CS102|Networks|9|0\nCS103|Logic|7|0\n".toList,
        "bob|pw|1|CS103\ncarol|pw|1|CS102\n".toList),
        [("CS103".toList, "bob".toList), ("CS102".toList, "carol".toList)]) ∧
    OfferedCoursesCreatedByOwner "CS102|Networks|9|0\nCS103|Logic|7|0\n".toList
      "bob|pw|1|CS103\ncarol|pw|1|CS102\n".toList
      [("CS103".toList, "bob".toList), ("CS102".toList, "carol".toList)] := by
  have e : run_history (([], []), [])
      [CatalogCall.add_user "bob".toList "pw".toList,
        CatalogCall.add_user "carol".toList "pw".toList,
        CatalogCall.add_course "bob".toList "CS101".toList "Systems".toList "2\n".toList,
        CatalogCall.add_course "carol".toList "CS102".toList "Networks".toList "9\n".toList,
        CatalogCall.add_course "bob".toList "CS101".toList "Systems".toList "5\n".toList,
        CatalogCall.add_course "bob".toList "CS103".toList "Logic".toList "7\n".toList,
        CatalogCall.remove_course "bob".toList "CS101".toList] =
      (("CS102|Networks|9|0\nCS103|Logic|7|0\n".toList,
        "bob|pw|1|CS103\ncarol|pw|1|CS102\n".toList),
        [("CS103".toList, "bob".toList), ("CS102".toList, "carol".toList)]) := by
    decide
  have h := offered_courses_invariant
    (fun id => if id = "CS102".toList then "carol".toList else "bob".toList)
    [CatalogCall.add_user "bob".toList "pw".toList,
      CatalogCall.add_user "carol".toList "pw".toList,
      CatalogCall.add_course "bob".toList "CS101".toList "Systems".toList "2\n".toList,
      CatalogCall.add_course "carol".toList "CS102".toList "Networks".toList "9\n".toList,
      CatalogCall.add_course "bob".toList "CS101".toList "Systems".toList "5\n".toList,
      CatalogCall.add_course "bob".toList "CS103".toList "Logic".toList "7\n".toList,
      CatalogCall.remove_course "bob".toList "CS101".toList]
    (by
      intro c hc
      simp only [List.mem_cons, List.mem_singleton, List.not_mem_nil, or_false] at hc
      rcases hc with rfl | rfl | rfl | rfl | rfl | rfl | rfl <;>
        simp only [GoodCall] <;> decide)
    (by decide)
  rw [e] at h
  exact ⟨e, h⟩

/-- C17 (counterexample): from empty files `bob` and `carol` are added, `bob`
adds `CS101` and so does `carol`: the catalogue row of `CS101` was created by
`bob`, and `carol` has `CS101` in her list. Then `bob` removes `CS101`: the
catalogue is empty and `carol` still has `CS101` in her list. -/
theorem offered_course_of_another_member :
    run_history (([], []), [])
        [CatalogCall.add_user "bob".toList "pw".toList,
          CatalogCall.add_user "carol".toList "pw".toList,
          CatalogCall.add_course "bob".toList "CS101".toList "Systems".toList "2\n".toList,
          CatalogCall.add_course "carol".toList "CS101".toList "Systems".toList "2\n".toList] =
      (("CS101|Systems|2|0\n".toList, "bob|pw|1|CS101\ncarol|pw|1|CS101\n".toList),
        [("CS101".toList, "bob".toList)]) ∧
    run_history (([], []), [])
        [CatalogCall.add_user "bob".toList "pw".toList,
          CatalogCall.add_user "carol".toList "pw".toList,
          CatalogCall.add_course "bob".toList "CS101".toList "Systems".toList "2\n".toList,
          CatalogCall.add_course "carol".toList "CS101".toList "Systems".toList "2\n".toList,
          CatalogCall.remove_course "bob".toList "CS101".toList] =
      (([], "bob|pw|1|\ncarol|pw|1|CS101\n".toList), []) ∧
    ¬ OfferedCoursesCreatedByOwner "CS101|Systems|2|0\n".toList
      "bob|pw|1|CS101\ncarol|pw|1|CS101\n".toList [("CS101".toList, "bob".toList)] ∧
    ¬ OfferedCoursesCreatedByOwner [] "bob|pw|1|\ncarol|pw|1|CS101\n".toList [] := by
  refine ⟨by decide, by decide, ?_, ?_⟩
  · intro h
    have := (h "carol|pw|1|CS101".toList (by decide) (by decide) "carol".toList "pw".toList
      "1".toList "CS101".toList (by decide) "CS101".toList (by decide)).2
    revert this
    decide
  · intro h
    have := (h "carol|pw|1|CS101".toList (by decide) (by decide) "carol".toList "pw".toList
      "1".toList "CS101".toList (by decide) "CS101".toList (by decide)).1
    revert this
    decide

/-! ## Side conditions of the user and course operations

Each fact below runs the code on a small input on which one hypothesis of a
theorem above fails, and with it the conclusion. -/

/-- A username that is a comment key: `admin_toggle` rewrites the row as a
comment line and a second call no longer finds the user. -/
theorem set_active_comment_key :
    admin_toggle "|#x|a|1|\n".toList "#x".toList false = (Reply.ok, "#x|a|0|\n".toList) ∧
      admin_toggle "#x|a|0|\n".toList "#x".toList false =
        (Reply.userNotFound, "#x|a|0|\n".toList) := by
  decide

/-- A username that is a comment key: `admin_setpwd` rewrites the row as a
comment line, which `auth_file` skips. -/
theorem set_password_comment_key :
    admin_setpwd "|#x|a|1|\n".toList "#x".toList "pw".toList =
        (Reply.ok, "#x|pw|1|\n".toList) ∧
      (auth_file "#x|pw|1|\n".toList "#x".toList "pw".toList).1 = false := by
  decide

/-- A course id with a `|` is stored under its first part only, so the second
`faculty_add_course` appends a second row. -/
theorem add_course_twice_bar_in_id :
    (faculty_add_course (faculty_add_course [] [] "bob".toList "a|b".toList "n".toList
        "5\n".toList).2.1 [] "bob".toList "a|b".toList "m".toList "7\n".toList).2.1 =
      "a|b|n|5|0\na|b|m|7|0\n".toList := by
  decide

/-- A course id that is a comment key gives a row that every lookup skips, so
the second `faculty_add_course` appends a second row. -/
theorem add_course_twice_comment_id :
    (faculty_add_course (faculty_add_course [] [] "bob".toList "#x".toList "n".toList
        "5\n".toList).2.1 [] "bob".toList "#x".toList "m".toList "7\n".toList).2.1 =
      "#x|n|5|0\n#x|m|7|0\n".toList := by
  decide

/-- A course row with three fields: `student_unenroll` reads its fourth field,
which `split_line` did not set. -/
theorem unenroll_short_course_row :
    student_unenroll "CS101|Systems|5\n".toList "alice|pw1|1|CS101\n".toList "alice".toList
      "CS101".toList = none := by
  decide

/-- A course removed by another faculty member than the one who added it stays
in the list of the latter. -/
theorem remove_course_of_another_member :
    run_history (([], []), [])
        [CatalogCall.add_user "bob".toList "pw".toList,
          CatalogCall.add_user "carol".toList "pw".toList,
          CatalogCall.add_course "bob".toList "CS101".toList "Systems".toList "2\n".toList,
          CatalogCall.remove_course "carol".toList "CS101".toList] =
      (([], "bob|pw|1|CS101\ncarol|pw|1|\n".toList), []) := by
  decide

/-- A course id with a comma is read back from the owner's list as two ids,
neither of which is in the catalogue. -/
theorem add_course_comma_in_id :
    run_history (([], []), [])
        [CatalogCall.add_user "bob".toList "pw".toList,
          CatalogCall.add_course "bob".toList "a,b".toList "n".toList "2\n".toList] =
      (("a,b|n|2|0\n".toList, "bob|pw|1|a,b\n".toList), [("a,b".toList, "bob".toList)]) ∧
    tokens ',' "a,b".toList = [['a'], ['b']] ∧
    find_row (load "a,b|n|2|0\n".toList) ['a'] 0 = none := by
  decide

/-- A password with `|` gives a row whose fourth field is read as a course
list, with an id the catalogue does not have. -/
theorem add_user_bar_in_password :
    run_history (([], []), [])
        [CatalogCall.add_user "bob".toList "pw|1|CS999".toList] =
      (([], "bob|pw|1|CS999|1|\n".toList), []) ∧
    split_line "bob|pw|1|CS999|1|".toList =
      ["bob".toList, "pw".toList, "1".toList, "CS999".toList] := by
  decide

/-- A course id that is a comment key is appended to the owner's list, and its
catalogue row is a comment line that no lookup finds. -/
theorem add_course_comment_id :
    run_history (([], []), [])
        [CatalogCall.add_user "bob".toList "pw".toList,
          CatalogCall.add_course "bob".toList "#x".toList "n".toList "2\n".toList] =
      (("#x|n|2|0\n".toList, "bob|pw|1|#x\n".toList), [("#x".toList, "bob".toList)]) ∧
    find_row (load "#x|n|2|0\n".toList) "#x".toList 0 = none := by
  decide

/-! ## `split_line` inverts row formatting -/

theorem join_bar_cons_cons (t t2 : Str) (ts : List Str) :
    join_bar (t :: t2 :: ts) = t ++ '|' :: join_bar (t2 :: ts) := rfl

theorem tokens_join_bar {ts : List Str} (h : ∀ t ∈ ts, t ≠ [] ∧ '|' ∉ t) :
    tokens '|' (join_bar ts) = ts := by
  induction ts with
  | nil => simp [join_bar, tokens_nil]
  | cons t ts ih =>
    have ht := h t (by simp)
    cases ts with
    | nil => simp [join_bar, tokens_of_not_mem ht.2 ht.1]
    | cons t2 ts2 =>
      rw [join_bar_cons_cons, tokens_append_sep ht.2 ht.1, ih (fun x hx => h x (by simp [hx]))]

/-- C24: for a list of at most 4 non-empty strings without `|` whose line, the
strings joined with `|`, is shorter than `MAX_LINE`, `split_line` of the line
returns exactly that list, in order, and its count; and for every line
`split_line` returns at most 4 fields, each non-empty and free of `|`.
`split_line` works on its own copy of the line (`strncpy` into `buf`,
server.c 89-90), so the line is an input only. -/
theorem split_line_inverts_join (fields : List Str) (h4 : fields.length ≤ 4) (hf : ∀ f ∈ fields, f ≠ [] ∧ '|' ∉ f)
    (hlen : (join_bar fields).length < MAX_LINE) :
    split_line (join_bar fields) = fields ∧
      (split_line (join_bar fields)).length = fields.length ∧
      ∀ line : Str, (split_line line).length ≤ 4 ∧
        ∀ f ∈ split_line line, f ≠ [] ∧ '|' ∉ f := by
  have e : split_line (join_bar fields) = fields := by
    rw [split_line_of_short (Nat.le_of_lt hlen), tokens_join_bar hf]
    exact List.take_of_length_le h4
  refine ⟨e, by rw [e], fun line => ⟨split_line_length_le line, fun f hm => ?_⟩⟩
  exact ⟨(mem_split_line hm).1, (mem_split_line hm).2.1⟩

/-- C24 (witness): the row `CS101|Systems|2|0` is split into its four
fields. -/
theorem split_line_inverts_join_witness :
    split_line "CS101|Systems|2|0".toList =
        ["CS101".toList, "Systems".toList, "2".toList, "0".toList] ∧
      (split_line "CS101|Systems|2|0".toList).length = 4 :=
  ⟨(split_line_inverts_join ["CS101".toList, "Systems".toList, "2".toList, "0".toList]
      (by decide) (by decide) (by decide)).1,
    (split_line_inverts_join ["CS101".toList, "Systems".toList, "2".toList, "0".toList]
      (by decide) (by decide) (by decide)).2.1⟩

/-! ## The row of a new course -/

/-- C23 (amended): for a non-empty course id without `|` that is no comment
key and a non-empty course name without `|`, both as received into their
`MAX_FIELD` buffers, and every seat-limit text, the row that
`faculty_add_course` appends to a catalogue without a row for the id is split
by `split_line` into the four fields id, name, limit, `0` and is the row that
`find_row` returns for the id, so the fields at index 2 and 3 that
`student_enroll` reads are there. -/
theorem new_course_row_fields (courses faculty who id name lim : Str)
    (hid : Received id) (hname : Received name) (hine : id ≠ []) (hibar : '|' ∉ id)
    (hkey : is_comment_key id = false) (hil : id.length < MAX_FIELD)
    (hnne : name ≠ []) (hnbar : '|' ∉ name) (hnl : name.length < MAX_FIELD)
    (hnone : find_row (load courses) id 0 = none) :
    load (faculty_add_course courses faculty who id name lim).2.1 =
        load courses ++ [fmt4 id name (fmt_d (atoi lim)) ['0']] ∧
      split_line (fmt4 id name (fmt_d (atoi lim)) ['0']) =
        [id, name, fmt_d (atoi lim), ['0']] ∧
      find_row (load (faculty_add_course courses faculty who id name lim).2.1) id 0 =
        some (load courses).length ∧
      (load (faculty_add_course courses faculty who id name lim).2.1).getD
        (load courses).length [] = fmt4 id name (fmt_d (atoi lim)) ['0'] ∧
      3 < (split_line ((load (faculty_add_course courses faculty who id name lim).2.1).getD
        (load courses).length [])).length := by
  have hil2 : id.length < MAX_LINE := by unfold MAX_FIELD at hil; unfold MAX_LINE; omega
  have hload : load (faculty_add_course courses faculty who id name lim).2.1 =
      load courses ++ [fmt4 id name (fmt_d (atoi lim)) ['0']] := by
    rw [add_course_catalogue, hnone]
    exact load_catalogue_append hid hname _
  have hsplit : split_line (fmt4 id name (fmt_d (atoi lim)) ['0']) =
      [id, name, fmt_d (atoi lim), ['0']] := by
    apply split_line_fmt4 ⟨hine, hibar⟩ ⟨hnne, hnbar⟩ (fmt_d_field _) (by decide)
    rw [fmt4_length]
    have := fmt_d_length (atoi_range lim).1 (atoi_range lim).2
    simp only [List.length_singleton]
    unfold MAX_FIELD at hil hnl
    unfold MAX_LINE
    omega
  have hget : (load courses ++ [fmt4 id name (fmt_d (atoi lim)) ['0']]).getD
      (load courses).length [] = fmt4 id name (fmt_d (atoi lim)) ['0'] := by
    simp
  refine ⟨hload, hsplit, ?_, ?_, ?_⟩
  · rw [hload]
    exact find_row_append_singleton hnone
      (course_row_matches name (fmt_d (atoi lim)) hine hibar hkey hil2)
  · rw [hload, hget]
  · rw [hload, hget, hsplit]
    simp

/-- C23 (witness): `CS101` is added to an empty catalogue; its row has the
four fields `CS101`, `Systems`, `2`, `0`. -/
theorem new_course_row_fields_witness :
    (faculty_add_course [] "bob|pw|1|\n".toList "bob".toList "CS101".toList "Systems".toList
        "2\n".toList).2.1 = "CS101|Systems|2|0\n".toList ∧
      split_line (fmt4 "CS101".toList "Systems".toList (fmt_d (atoi "2\n".toList)) ['0']) =
        ["CS101".toList, "Systems".toList, fmt_d (atoi "2\n".toList), ['0']] ∧
      find_row (load (faculty_add_course [] "bob|pw|1|\n".toList "bob".toList "CS101".toList
        "Systems".toList "2\n".toList).2.1) "CS101".toList 0 = some (load []).length :=
  ⟨by decide,
    (new_course_row_fields [] "bob|pw|1|\n".toList "bob".toList "CS101".toList
      "Systems".toList "2\n".toList (by decide) (by decide) (by decide) (by decide)
      (by decide) (by decide) (by decide) (by decide) (by decide) (by decide)).2.1,
    (new_course_row_fields [] "bob|pw|1|\n".toList "bob".toList "CS101".toList
      "Systems".toList "2\n".toList (by decide) (by decide) (by decide) (by decide)
      (by decide) (by decide) (by decide) (by decide) (by decide) (by decide)).2.2.1⟩

/-- C23 (counterexample): the empty course name holds no `|` and no newline.
The row appended for `CS101` is `CS101||5|0`, which `split_line` reads as the
three fields `CS101`, `5`, `0`; `find_row` finds it under `CS101`, and
`student_enroll` then reads its field at index 3, which is not set. -/
theorem new_course_row_empty_name :
    (faculty_add_course [] "bob|pw|1|\n".toList "bob".toList "CS101".toList []
        "5\n".toList).2.1 = "CS101||5|0\n".toList ∧
      split_line "CS101||5|0".toList = ["CS101".toList, "5".toList, "0".toList] ∧
      find_row (load "CS101||5|0\n".toList) "CS101".toList 0 = some 0 ∧
      student_enroll "CS101||5|0\n".toList "alice|pw1|1|\n".toList "alice".toList
        "CS101".toList = none := by
  decide

/-! ## Lock discipline -/

theorem released_once_load_release (f : FileName) :
    released_once [] [FileEvent.load f, FileEvent.release f] = true := by
  cases f <;> decide

theorem released_once_load_save (f : FileName) :
    released_once [] [FileEvent.load f, FileEvent.save f] = true := by
  cases f <;> decide

theorem released_once_load_save_release (f : FileName) :
    released_once [] [FileEvent.load f, FileEvent.save f, FileEvent.release f] = false := by
  cases f <;> decide

/-- Every control path of the operations other than `admin_add` keeps the lock
discipline, and `admin_add` keeps it except on its overwrite branch (a row
keyed by `u` with fewer than three fields). -/
theorem lock_discipline_of_operations (file : FileName)
    (content courses faculty students u who user cid : Str) :
    released_once [] (auth_file_events file) = true ∧
      released_once [] (admin_view_events file) = true ∧
      released_once [] (admin_toggle_events content u) = true ∧
      released_once [] (admin_setpwd_events file content u) = true ∧
      released_once [] faculty_add_course_events = true ∧
      released_once [] (faculty_remove_course_events courses cid) = true ∧
      released_once [] (faculty_view_enrollments_events faculty who) = true ∧
      released_once [] (faculty_change_pwd_events faculty who) = true ∧
      (∀ es, student_enroll_events courses cid = some es → released_once [] es = true) ∧
      released_once [] (student_unenroll_events students user cid) = true ∧
      released_once [] (student_view_events students user) = true ∧
      released_once [] student_change_pwd_events = true ∧
      (released_once [] (admin_add_events file content u) = false ↔
        ∃ row, find_row (load content) u 0 = some row ∧
          (split_line ((load content).getD row [])).length < 3) := by
  refine ⟨released_once_load_release file, released_once_load_release file, ?_, ?_,
    by decide, ?_, ?_, ?_, ?_, ?_, ?_, by decide, ?_⟩
  · unfold admin_toggle_events
    dsimp only
    repeat' split
    all_goals decide
  · unfold admin_setpwd_events
    split
    · exact released_once_load_release file
    · exact released_once_load_save file
  · unfold faculty_remove_course_events
    split <;> decide
  · unfold faculty_view_enrollments_events
    dsimp only
    split <;> decide
  · unfold faculty_change_pwd_events
    dsimp only
    repeat' split
    all_goals decide
  · intro es h
    unfold student_enroll_events at h
    dsimp only at h
    repeat' split at h
    all_goals first
      | (simp only [Option.some.injEq] at h; subst h; decide)
      | exact absurd h (by simp)
  · unfold student_unenroll_events
    dsimp only
    repeat' split
    all_goals decide
  · unfold student_view_events
    dsimp only
    repeat' split
    all_goals decide
  · unfold admin_add_events
    dsimp only
    cases hf : find_row (load content) u 0 with
    | none =>
      simp only [released_once_load_release, Bool.true_eq_false, false_iff]
      rintro ⟨row, h, -⟩
      exact absurd h (by simp)
    | some row =>
      simp only
      by_cases hk : 3 ≤ (split_line ((load content).getD row [])).length
      · rw [if_pos hk]
        simp only [released_once_load_release, Bool.true_eq_false, false_iff]
        rintro ⟨r2, h, hlt⟩
        simp only [Option.some.injEq] at h
        subst h
        omega
      · rw [if_neg hk]
        simp only [released_once_load_save_release, true_iff]
        exact ⟨row, rfl, by omega⟩

/-- C21 (failing input): the user file holds the row `bob||1|`, which
`admin_add` writes for an empty password and `split_line` reads as two
fields. `admin_add` of `bob` overwrites the row: it calls `save` and then
`release` on the file it loaded once, so the lock is released twice. -/
theorem add_user_releases_twice :
    (admin_add [] "bob".toList []).2 = "bob||1|\n".toList ∧
      admin_add "bob||1|\n".toList "bob".toList "pw2".toList =
        (Reply.added, "bob|pw2|1|\n".toList) ∧
      admin_add_events FileName.student "bob||1|\n".toList "bob".toList =
        [FileEvent.load FileName.student, FileEvent.save FileName.student,
          FileEvent.release FileName.student] ∧
      released_once [] (admin_add_events FileName.student "bob||1|\n".toList "bob".toList) =
        false := by
  decide

/-! ## Prompts and reads -/

theorem hear_reads {size : Nat} {cur text cur1 : Str}
    (h : hear size false cur text = some cur1) : hear size true cur text = some cur1 := by
  induction text generalizing cur with
  | nil => exact h
  | cons c rest ih =>
    unfold hear at h ⊢
    split
    · rw [if_pos (by assumption)] at h
      split
      · rw [if_pos (by assumption)] at h
        simp at h
      · rw [if_neg (by assumption)] at h
        exact ih h
    · rw [if_neg (by assumption)] at h
      exact ih h

theorem hear_of_short {bound size : Nat} (hs : bound + 1 < size) {reads : Bool}
    {cur text : Str} (h : hear_short bound reads cur text = true) :
    hear size reads cur text = some [] := by
  induction text generalizing cur with
  | nil =>
    unfold hear_short at h
    unfold hear
    simp only [List.isEmpty_eq_true] at h
    rw [h]
  | cons c rest ih =>
    unfold hear_short at h
    unfold hear
    simp only [Bool.and_eq_true, decide_eq_true_eq] at h
    obtain ⟨hlen, h⟩ := h
    by_cases hc : c = '\n'
    · rw [if_pos hc] at h
      rw [if_pos (Or.inl hc)]
      by_cases hp : is_prompt_line (cur ++ [c]) = true
      · rw [if_pos hp] at h
        rw [if_pos hp, if_pos h]
      · rw [if_neg hp] at h
        rw [if_neg hp]
        exact ih h
    · rw [if_neg hc] at h
      rw [if_neg (by
        rintro (h1 | h1)
        · exact hc h1
        · omega)]
      exact ih h

theorem answered_append {size : Nat} {p : List Action} (q : List Action) {cur cur1 : Str}
    (h : answered size cur p = some cur1) :
    answered size cur (p ++ q) = answered size cur1 q := by
  induction p generalizing cur with
  | nil =>
    simp only [answered, Option.some.injEq] at h
    rw [h, List.nil_append]
  | cons a rest ih =>
    cases a with
    | recv =>
      simp only [answered, List.cons_append] at h ⊢
      exact ih h
    | send text =>
      simp only [answered, List.cons_append] at h ⊢
      cases hh : hear size (reads_next rest) cur text with
      | none => rw [hh] at h; simp at h
      | some c2 =>
        rw [hh] at h
        simp only at h
        have h2 : hear size (reads_next (rest ++ q)) cur text = some c2 := by
          cases rest with
          | nil =>
            simp only [reads_next] at hh
            cases hq : reads_next ([] ++ q) with
            | false => exact hh
            | true => exact hear_reads hh
          | cons b rest2 => cases b <;> exact hh
        simp only [List.append_eq, h2]
        exact ih h

theorem answered_ask {size : Nat} {text : Str} (h : hear size true [] text = some []) :
    answered size [] (ask text) = some [] := by
  simp only [ask, answered, reads_next, h]

theorem answered_send {size : Nat} {text : Str} (h : hear size false [] text = some []) :
    answered size [] [Action.send text] = some [] := by
  simp only [answered, reads_next, h]

theorem answered_recvs {size : Nat} (n : Nat) (cur : Str) :
    answered size cur (List.replicate n Action.recv) = some cur := by
  induction n with
  | zero => rfl
  | succ n ih => simpa only [List.replicate_succ, answered] using ih

theorem answered_seq {size : Nat} {p q : List Action} (hp : answered size [] p = some [])
    (hq : answered size [] q = some []) : answered size [] (p ++ q) = some [] := by
  rw [answered_append q hp, hq]

theorem answered_choice {size : Nat} {menu : Str} (h : hear size true [] menu = some [])
    (blank : Nat) :
    answered size [] (Action.send menu :: recv_choice_dialogue blank) = some [] := by
  simp only [recv_choice_dialogue, List.replicate_succ, answered, reads_next, h]
  exact answered_recvs blank []

theorem reads_next_sends (ts : List Str) : reads_next (ts.map Action.send) = false := by
  cases ts <;> rfl

theorem answered_sends {size : Nat} {ts : List Str}
    (h : ∀ t ∈ ts, hear size false [] t = some []) :
    answered size [] (ts.map Action.send) = some [] := by
  induction ts with
  | nil => rfl
  | cons t rest ih =>
    simp only [List.map_cons, answered, reads_next_sends, h t (List.mem_cons_self _ _)]
    exact ih (fun x hx => h x (List.mem_cons_of_mem _ hx))

theorem hear_line {size : Nat} {reads : Bool} {body : Str} (hn : '\n' ∉ body) :
    ∀ cur : Str, (cur ++ body).length + 2 < size →
      is_prompt_line (cur ++ body ++ ['\n']) = false →
      hear size reads cur (body ++ ['\n']) = some [] := by
  induction body with
  | nil =>
    intro cur _ hp
    simp only [List.append_nil] at hp
    simp only [List.nil_append, hear, true_or, if_true, hp, Bool.false_eq_true, if_false]
  | cons b bs ih =>
    intro cur hl hp
    have hb : b ≠ '\n' := fun e => hn (by simp [e])
    have hbs : '\n' ∉ bs := fun e => hn (List.mem_cons_of_mem _ e)
    simp only [List.length_append, List.length_cons] at hl
    simp only [List.cons_append, hear]
    rw [if_neg (by
      rintro (h1 | h1)
      · exact hb h1
      · simp only [List.length_append, List.length_cons, List.length_nil] at h1
        omega)]
    apply ih hbs
    · simp only [List.length_append, List.length_cons, List.length_nil]
      omega
    · simpa using hp

theorem not_prompt_of_bracket (xs : Str) : is_prompt_line (xs ++ [']', '\n']) = false := by
  simp [is_prompt_line, List.dropWhile]

theorem answered_reply {size : Nat} (hs : MAX_FIELD < size) (r : Reply) :
    answered size [] (reply_dialogue r) = some [] := by
  have hb : 127 + 1 < size := hs
  cases r
  case silent => rfl
  all_goals exact answered_send (hear_of_short hb (by decide))

set_option maxRecDepth 100000 in
theorem hear_menus {size : Nat} (hs : MAX_FIELD < size) :
    hear size true [] welcome_text = some [] ∧
      hear size true [] admin_menu_text = some [] ∧
      hear size true [] faculty_menu_text = some [] ∧
      hear size true [] student_menu_text = some [] := by
  have hb : 127 + 1 < size := hs
  exact ⟨hear_of_short hb (by decide), hear_of_short hb (by decide),
    hear_of_short hb (by decide), hear_of_short hb (by decide)⟩

theorem answered_menu {size : Nat} {menu : Str} (h : hear size true [] menu = some [])
    (rounds : List (Nat × List Action)) (blank : Nat)
    (hr : ∀ r ∈ rounds, answered size [] r.2 = some []) :
    answered size [] (menu_dialogue menu rounds blank) = some [] := by
  unfold menu_dialogue
  induction rounds with
  | nil => exact answered_choice h blank
  | cons r rest ih =>
    rw [List.flatMap_cons, List.append_assoc]
    refine answered_seq ?_ (ih (fun x hx => hr x (List.mem_cons_of_mem _ hx)))
    exact @answered_seq size (Action.send menu :: recv_choice_dialogue r.1) r.2
      (answered_choice h r.1) (hr r (List.mem_cons_self _ _))

theorem answered_client_thread {size : Nat} (hs : MAX_FIELD < size) (blank : Nat)
    (role : Int) (ok : Bool) (menu : List Action) (hm : answered size [] menu = some []) :
    answered size [] (client_thread_dialogue blank role ok menu) = some [] := by
  have hb : 127 + 1 < size := hs
  have hask : ∀ t : Str, hear_short 127 true [] t = true → answered size [] (ask t) = some [] :=
    fun t ht => answered_ask (hear_of_short hb ht)
  have hsend : ∀ t : Str, hear_short 127 false [] t = true →
      answered size [] [Action.send t] = some [] :=
    fun t ht => answered_send (hear_of_short hb ht)
  have hbye := hsend "Goodbye!\n".toList (by decide)
  have hadm : answered size [] auth_admin_dialogue = some [] :=
    answered_seq (hask _ (by decide)) (hask _ (by decide))
  have hfile : answered size [] auth_file_dialogue = some [] :=
    answered_seq (hask _ (by decide)) (hask _ (by decide))
  have hin : ∀ t : Str, hear_short 127 false [] t = true →
      answered size [] (Action.send t :: (menu ++ [Action.send "Goodbye!\n".toList])) = some [] :=
    fun t ht => @answered_seq size [Action.send t] _ (hsend t ht) (answered_seq hm hbye)
  unfold client_thread_dialogue
  refine @answered_seq size (Action.send welcome_text :: recv_choice_dialogue blank) _
    (answered_choice (hear_menus hs).1 blank) ?_
  split
  · rfl
  · split
    · refine answered_seq hadm ?_
      split
      · exact hin _ (by decide)
      · exact hsend _ (by decide)
    · split
      · refine answered_seq hfile ?_
        split
        · exact hin _ (by decide)
        · exact hsend _ (by decide)
      · split
        · refine answered_seq hfile ?_
          split
          · exact hin _ (by decide)
          · exact hsend _ (by decide)
        · exact @answered_seq size [Action.send "Bad choice\n".toList] _
            (hsend _ (by decide)) hbye

theorem newline_not_mem_first_field {content l : Str} (hl : l ∈ load content) :
    '\n' ∉ (split_line l).getD 0 [] := by
  cases h : split_line l with
  | nil => simp
  | cons f fs =>
    have hf : f ∈ split_line l := by rw [h]; exact List.mem_cons_self _ _
    simpa using (received_of_field (isLine_of_mem_load hl) hf).1

theorem hear_user_entry {size : Nat} (hs : MAX_FIELD < size) {fld : List Str}
    (hn : '\n' ∉ fld.getD 0 []) (hlen : (fld.getD 0 []).length ≤ 112) :
    hear size false [] (user_entry fld) = some [] := by
  have hpad : (pad_right 12 (fld.getD 0 [])).length ≤ 112 := by
    simp only [pad_right, List.length_append, List.length_replicate]
    omega
  have hnp : '\n' ∉ pad_right 12 (fld.getD 0 []) := by
    simp only [pad_right, List.mem_append, List.mem_replicate, not_or]
    exact ⟨hn, fun h => absurd h.2 (by decide)⟩
  have hflag : ∀ flag : Str, flag.length ≤ 7 → '\n' ∉ flag →
      hear size false []
        (snprintf 128 (" - ".toList ++ pad_right 12 (fld.getD 0 []) ++ "  [".toList ++ flag ++
          "]\n".toList)) = some [] := by
    intro flag hfl hfn
    have e : " - ".toList ++ pad_right 12 (fld.getD 0 []) ++ "  [".toList ++ flag ++
        "]\n".toList =
        (" - ".toList ++ pad_right 12 (fld.getD 0 []) ++ "  [".toList ++ flag ++ [']']) ++
          ['\n'] := by
      simp
    have hl : (" - ".toList ++ pad_right 12 (fld.getD 0 []) ++ "  [".toList ++ flag ++
        [']']).length ≤ 126 := by
      simp only [List.length_append, List.length_cons, List.length_nil]
      have h3 : " - ".toList.length = 3 := by decide
      have h4 : "  [".toList.length = 3 := by decide
      omega
    rw [e, snprintf, List.take_of_length_le (by
      simp only [List.length_append, List.length_cons, List.length_nil] at hl ⊢
      omega)]
    apply hear_line
    · simp only [List.mem_append, not_or]
      refine ⟨⟨⟨⟨by decide, hnp⟩, by decide⟩, hfn⟩, by decide⟩
    · simp only [List.nil_append]
      have hm : MAX_FIELD = 128 := rfl
      omega
    · have e2 : [] ++ (" - ".toList ++ pad_right 12 (fld.getD 0 []) ++ "  [".toList ++ flag ++
          [']']) ++ ['\n'] =
          (" - ".toList ++ pad_right 12 (fld.getD 0 []) ++ "  [".toList ++ flag) ++
            [']', '\n'] := by
        simp
      rw [e2]
      exact not_prompt_of_bracket _
  unfold user_entry
  split
  · exact hflag _ (by decide) (by decide)
  · exact hflag _ (by decide) (by decide)

theorem answered_admin_view {size : Nat} (hs : MAX_FIELD < size) {title : Str}
    (ht : title ∈ ["Student".toList, "Faculty".toList]) (content : Str)
    (hu : ∀ l ∈ load content, ((split_line l).getD 0 []).length ≤ 112) :
    answered size [] (admin_view_dialogue title content) = some [] := by
  have hb : 127 + 1 < size := hs
  have hrows : ∀ ls : List Str, (∀ l ∈ ls, l ∈ load content) →
      ∀ t ∈ view_users ls, hear size false [] t = some [] := by
    intro ls
    induction ls with
    | nil => intro _ t h; simp [view_users] at h
    | cons l rest ih =>
      intro hall t h
      have hrest := ih (fun x hx => hall x (List.mem_cons_of_mem _ hx))
      unfold view_users at h
      split at h
      · exact hrest t h
      · split at h
        · exact hrest t h
        · rcases List.mem_cons.1 h with e | h
          · rw [e]
            have hl := hall l (List.mem_cons_self _ _)
            exact hear_user_entry hs (newline_not_mem_first_field hl) (hu l hl)
          · exact hrest t h
  unfold admin_view_dialogue admin_view
  apply answered_sends
  intro t h
  rcases List.mem_cons.1 h with e | h
  · rw [e]
    simp only [List.mem_cons, List.mem_singleton, List.not_mem_nil, or_false] at ht
    rcases ht with rfl | rfl
    · exact hear_of_short hb (by decide)
    · exact hear_of_short hb (by decide)
  · exact hrows _ (fun _ hx => hx) t h

theorem view_courses_sends_header (fs : List Str) (cid : Str) (rest : List Str) :
    enrollment_header cid ∈ view_courses fs (cid :: rest) := by
  simp [view_courses]

theorem answered_no_listing {size : Nat} (hs : MAX_FIELD < size) (faculty students who : Str)
    (h : ∀ cid, Action.send (enrollment_header cid) ∉
      faculty_view_enrollments_dialogue faculty students who) :
    answered size [] (faculty_view_enrollments_dialogue faculty students who) = some [] := by
  have hb : 127 + 1 < size := hs
  unfold faculty_view_enrollments_dialogue at h ⊢
  unfold faculty_view_enrollments at h ⊢
  dsimp only at h ⊢
  split
  · exact answered_send (hear_of_short hb (by decide))
  · rename_i hne
    rw [if_neg hne] at h
    generalize tokens ',' _ = toks at h ⊢
    cases toks with
    | nil => rfl
    | cons cid rest =>
      exact absurd (List.mem_map_of_mem Action.send (view_courses_sends_header _ cid rest))
        (h cid)

theorem student_view_cases {students courses user : Str} {lines : List Str}
    (h : student_view students courses user = some lines) :
    lines = [] ∨ lines = ["No courses enrolled\n".toList] ∨
      ∃ ls, lines = "Enrolled:\n".toList :: ls := by
  unfold student_view at h
  dsimp only at h
  cases hf : find_row (load students) user 0 with
  | none =>
    rw [hf] at h
    simp only [Option.some.injEq] at h
    exact Or.inl h.symm
  | some srow =>
    rw [hf] at h
    simp only at h
    by_cases he : (if (split_line ((load students).getD srow [])).length = 4 then
        List.take MAX_LIST ((split_line ((load students).getD srow [])).getD 3 [])
        else []).length = 0
    · rw [if_pos he] at h
      simp only [Option.some.injEq] at h
      exact Or.inr (Or.inl h.symm)
    · rw [if_neg he] at h
      obtain ⟨ls, -, e⟩ := Option.map_eq_some'.1 h
      exact Or.inr (Or.inr ⟨ls, e.symm⟩)

theorem answered_student_view {size : Nat} (hs : MAX_FIELD < size)
    (students courses user : Str) (d : List Action)
    (hd : student_view_dialogue students courses user = some d)
    (h : Action.send "Enrolled:\n".toList ∉ d) : answered size [] d = some [] := by
  have hb : 127 + 1 < size := hs
  unfold student_view_dialogue at hd
  obtain ⟨lines, hl, rfl⟩ := Option.map_eq_some'.1 hd
  rcases student_view_cases hl with rfl | rfl | ⟨ls, rfl⟩
  · rfl
  · exact answered_send (hear_of_short hb (by decide))
  · exact absurd (by simp) h

theorem answered_faculty_change_pwd {size : Nat} (hs : MAX_FIELD < size) (faculty who : Str) :
    answered size [] (faculty_change_pwd_dialogue faculty who) = some [] := by
  have hb : 127 + 1 < size := hs
  unfold faculty_change_pwd_dialogue
  dsimp only
  refine answered_seq (answered_ask (hear_of_short hb (by decide))) ?_
  split
  · exact answered_send (hear_of_short hb (by decide))
  · split
    · exact answered_send (hear_of_short hb (by decide))
    · exact answered_send (hear_of_short hb (by decide))

theorem answered_prompt_reply {size : Nat} (hs : MAX_FIELD < size) (t : Str)
    (ht : hear_short 127 true [] t = true) (r : Reply) :
    answered size [] (ask t ++ reply_dialogue r) = some [] :=
  answered_seq (answered_ask (hear_of_short (show 127 + 1 < size from hs) ht))
    (answered_reply hs r)

/-- Every other line of the server keeps the rule of the prompt: with a
client buffer of more than `MAX_FIELD` bytes, no line that the client takes
for a prompt is left without a read of the server right after it, in the
dialogue of a connection (`client_thread`), of the three menus, and of every
operation: the two `admin_add`, `admin_view` of a file whose usernames have at
most 112 bytes, `admin_toggle`, `admin_setpwd`, the four faculty and the four
student operations, where `faculty_view_enrollments` and `student_view` are
taken when they send no listing (no course header, no `Enrolled:`). -/
theorem prompts_are_answered (size : Nat) (hsize : MAX_FIELD < size) :
    (∀ blank role ok menu, answered size [] menu = some [] →
        answered size [] (client_thread_dialogue blank role ok menu) = some []) ∧
      (∀ menu ∈ [admin_menu_text, faculty_menu_text, student_menu_text],
        ∀ rounds blank, (∀ r ∈ rounds, answered size [] r.2 = some []) →
          answered size [] (menu_dialogue menu rounds blank) = some []) ∧
      answered size [] invalid_choice_dialogue = some [] ∧
      (∀ tag ∈ ["Student".toList, "Faculty".toList], ∀ content u p,
        answered size [] (admin_add_dialogue tag content u p) = some []) ∧
      (∀ title ∈ ["Student".toList, "Faculty".toList], ∀ content,
        (∀ l ∈ load content, ((split_line l).getD 0 []).length ≤ 112) →
          answered size [] (admin_view_dialogue title content) = some []) ∧
      (∀ content u activate,
        answered size [] (admin_toggle_dialogue content u activate) = some []) ∧
      (∀ content u p, answered size [] (admin_setpwd_dialogue content u p) = some []) ∧
      (∀ courses faculty who id name lim,
        answered size [] (faculty_add_course_dialogue courses faculty who id name lim) =
          some []) ∧
      (∀ courses faculty who cid,
        answered size [] (faculty_remove_course_dialogue courses faculty who cid) = some []) ∧
      (∀ faculty students who,
        (∀ cid, Action.send (enrollment_header cid) ∉
            faculty_view_enrollments_dialogue faculty students who) →
          answered size [] (faculty_view_enrollments_dialogue faculty students who) =
            some []) ∧
      (∀ faculty who, answered size [] (faculty_change_pwd_dialogue faculty who) = some []) ∧
      (∀ courses students user cid d,
        student_enroll_dialogue courses students user cid = some d →
          answered size [] d = some []) ∧
      (∀ courses students user cid d,
        student_unenroll_dialogue courses students user cid = some d →
          answered size [] d = some []) ∧
      (∀ students courses user d, student_view_dialogue students courses user = some d →
        Action.send "Enrolled:\n".toList ∉ d → answered size [] d = some []) ∧
      answered size [] student_change_pwd_dialogue = some [] := by
  have hb : 127 + 1 < size := hsize
  have hm := hear_menus hsize
  refine ⟨fun blank role ok menu h => answered_client_thread hsize blank role ok menu h,
    ?_, answered_send (hear_of_short hb (by decide)), ?_,
    fun title ht content hu => answered_admin_view hsize ht content hu,
    fun content u activate => answered_prompt_reply hsize _ (by decide) _,
    ?_, ?_, fun courses faculty who cid => answered_prompt_reply hsize _ (by decide) _,
    answered_no_listing hsize, answered_faculty_change_pwd hsize, ?_, ?_,
    answered_student_view hsize,
    answered_seq (answered_ask (hear_of_short hb (by decide)))
      (answered_send (hear_of_short hb (by decide)))⟩
  · intro menu hmenu rounds blank hr
    simp only [List.mem_cons, List.mem_singleton, List.not_mem_nil, or_false] at hmenu
    rcases hmenu with rfl | rfl | rfl
    · exact answered_menu hm.2.1 rounds blank hr
    · exact answered_menu hm.2.2.1 rounds blank hr
    · exact answered_menu hm.2.2.2 rounds blank hr
  · intro tag ht content u p
    simp only [List.mem_cons, List.mem_singleton, List.not_mem_nil, or_false] at ht
    unfold admin_add_dialogue
    rw [List.append_assoc]
    refine answered_seq ?_ (answered_prompt_reply hsize _ (by decide) _)
    rcases ht with rfl | rfl
    · exact answered_ask (hear_of_short hb (by decide))
    · exact answered_ask (hear_of_short hb (by decide))
  · intro content u p
    unfold admin_setpwd_dialogue
    rw [List.append_assoc]
    exact answered_seq (answered_ask (hear_of_short hb (by decide)))
      (answered_prompt_reply hsize _ (by decide) _)
  · intro courses faculty who id name lim
    unfold faculty_add_course_dialogue
    rw [List.append_assoc, List.append_assoc]
    exact answered_seq (answered_ask (hear_of_short hb (by decide)))
      (answered_seq (answered_ask (hear_of_short hb (by decide)))
        (answered_prompt_reply hsize _ (by decide) _))
  · intro courses students user cid d hd
    unfold student_enroll_dialogue at hd
    obtain ⟨x, -, rfl⟩ := Option.map_eq_some'.1 hd
    exact answered_prompt_reply hsize _ (by decide) _
  · intro courses students user cid d hd
    unfold student_unenroll_dialogue at hd
    obtain ⟨x, -, rfl⟩ := Option.map_eq_some'.1 hd
    exact answered_prompt_reply hsize _ (by decide) _

set_option maxRecDepth 100000 in
/-- An instance: a connection of the administrator with the buffer of
`MAX_LINE` bytes, in which one student is added, after a blank line the list
is viewed, then the loop ends; and the answers of an enrolment, of
`student_view` for a student without courses and of
`faculty_view_enrollments` for a member without courses. -/
theorem prompts_are_answered_witness :
    MAX_FIELD < MAX_LINE ∧
      answered MAX_LINE [] (client_thread_dialogue 0 1 true
        (menu_dialogue admin_menu_text
          [(0, admin_add_dialogue "Student".toList [] "alice".toList "pw1".toList),
            (1, admin_view_dialogue "Student".toList "alice|pw1|1|\n".toList)] 0)) = some [] ∧
      answered MAX_LINE []
        (ask "Course ID to enroll:\n".toList ++ [Action.send "[OK] Enrolled\n".toList]) =
          some [] ∧
      answered MAX_LINE [] [Action.send "No courses enrolled\n".toList] = some [] ∧
      answered MAX_LINE []
        (faculty_view_enrollments_dialogue "bob|pw|1|\n".toList [] "bob".toList) = some [] := by
  obtain ⟨h1, h2, -, h4, h5, -, -, -, -, h10, -, h12, -, h14, -⟩ :=
    prompts_are_answered MAX_LINE (by decide)
  refine ⟨by decide, ?_, ?_, ?_, ?_⟩
  · refine h1 0 1 true _ (h2 admin_menu_text (by simp) _ 0 ?_)
    intro r hr
    simp only [List.mem_cons, List.mem_singleton, List.not_mem_nil, or_false] at hr
    rcases hr with rfl | rfl
    · exact h4 "Student".toList (by simp) [] "alice".toList "pw1".toList
    · exact h5 "Student".toList (by simp) "alice|pw1|1|\n".toList (by decide)
  · exact h12 "CS101|Systems|2|0\n".toList "alice|pw1|1|\n".toList "alice".toList
      "CS101".toList _ (by decide)
  · exact h14 "alice|pw1|1|\n".toList [] "alice".toList _ (by decide) (by decide)
  · refine h10 "bob|pw|1|\n".toList [] "bob".toList ?_
    intro cid hmem
    have e : faculty_view_enrollments_dialogue "bob|pw|1|\n".toList [] "bob".toList =
        [Action.send "You offer no courses (or account blocked)\n".toList] := by decide
    rw [e] at hmem
    simp [enrollment_header, snprintf] at hmem

set_option maxRecDepth 100000 in
/-- C22 (failing input): alice is enrolled in CS101, which was removed from
the catalogue: `student_view` sends `Enrolled:` and returns to the menu. bob
offers CS101: `faculty_view_enrollments` sends the header `CS101:` and returns
to the menu. The client takes both lines for prompts and turns to the
keyboard, and the next action of the server is to send the menu, not to
read. -/
theorem listing_header_taken_for_prompt :
    (faculty_remove_course "CS101|Systems|2|1\n".toList "bob|pw|1|CS101\n".toList "bob".toList
        "CS101".toList).2.1 = [] ∧
      student_view_dialogue "alice|pw1|1|CS101\n".toList [] "alice".toList =
        some [Action.send "Enrolled:\n".toList] ∧
      is_prompt_line "Enrolled:\n".toList = true ∧
      answered MAX_LINE []
        (menu_dialogue student_menu_text [(0, [Action.send "Enrolled:\n".toList])] 0) = none ∧
      faculty_view_enrollments_dialogue "bob|pw|1|CS101\n".toList "alice|pw1|1|\n".toList
        "bob".toList = [Action.send "\nCS101:\n".toList] ∧
      is_prompt_line "CS101:\n".toList = true ∧
      answered MAX_LINE []
        (menu_dialogue faculty_menu_text [(0, [Action.send "\nCS101:\n".toList])] 0) = none := by
  decide

end Academia
